import Mathlib

/-!
Texture-gram synthesis: order-statistics engine, growable buffer, gram pipeline.

A shallow embedding of `Source/C/synthesis/{sort.c, select.c, darr.c, main.c}`.

Modelling conventions.

* A record sequence `(vec, len, el_size)` is a `List α` holding the `len` records of the
  region; a pointer into the region is the index of the record it points to.  Reading a
  record outside the region yields `none`, so every operation that dereferences a pointer
  lives in `Option`.
* The comparator is a function `cmp : α → α → Int` (the context argument is closed over).
* A recursive call on a sub-region works on the corresponding slice and its result is
  written back in place.  Recursion depth is bounded by an explicit `fuel`; `none` stands
  for a run that returns no result (unbounded recursion or an out-of-region access).
* `while` loops carry a `fuel` counter as well; wherever a theorem states a result of a
  loop, the counter supplied by the caller is shown to suffice.
* `float` is IEEE 754 binary32 with rounding to nearest, ties to even.  The brightness of a
  pixel is computed with that rounding and carried as the natural number `2^32 * value`
  (every value that occurs is a multiple of `2^-32`); the blocks after it take brightness
  values of any linearly ordered type.  The quotient `1./curr_ric` is the rational
  `1 / curr_ric`.
* `size_t` is a 64-bit word.  The functions of darr.c are given twice: `darr_alloc64`,
  `darr_write_grow64` and `darr_write64` compute on words, every result reduced modulo
  `SIZE_MAX + 1`; `darr_alloc`, `darr_write_grow` and `darr_write` compute on natural
  numbers.  The two agree whenever no size leaves the range of `size_t` (lemma
  `darr_write64_eq`), in particular for every end offset up to `2^62` (lemma
  `darr_write64_eq_of_le`).  The pipeline `synth` is stated over the second form: image
  sizes stay below `2^31` and buffer capacities below `2^64` there.
* Allocations succeed.  The `stdio` calls of `synth` act on explicit values: what an opened
  source file delivers, and the sequence of elements written to the destination file; a call
  on a null stream has no defined behaviour.
* The workers of the pool run interleaved, one atomic step at a time: a critical section is
  one step, and so is each access to `flag`.  A schedule lists the worker of each step.
-/

namespace Synthesis

variable {α : Type}

/-! ## sort.c / select.c -/

/-- The `SWAP(a, b, size)` macro on two records of the region, given by their indices. -/
def SWAP (vec : List α) (a b : Nat) : Option (List α) := do
  let x ← vec[a]?
  let y ← vec[b]?
  pure ((vec.set a y).set b x)

/-- The function `sort_pivot`: index of the median-of-three record. -/
def sort_pivot (cmp : α → α → Int) (vec : List α) : Option Nat := do
  let len := vec.length
  let last := len - 1
  let middle := len / 2
  let b ← vec[0]?
  let m ← vec[middle]?
  let l ← vec[last]?
  if cmp b m > 0 then
    if cmp m l > 0 then pure middle
    else if cmp b l > 0 then pure last
    else pure 0
  else if cmp b l > 0 then pure 0
  else if cmp m l > 0 then pure last
  else pure middle

/-- The `while (curr <= upper)` loop of `sort_partition`; the result is the region together
with `l_mid` and `u_mid`. -/
def sort_partition_loop (cmp : α → α → Int) (pivot : α) :
    Nat → List α → Nat → Int → Nat → Option (List α × Nat × Nat)
  | 0, vec, lower, upper, curr =>
    if (curr : Int) ≤ upper then none else some (vec, lower, curr)
  | fuel + 1, vec, lower, upper, curr =>
    if (curr : Int) ≤ upper then do
      let x ← vec[curr]?
      let ret := cmp x pivot
      if ret > 0 then
        let vec1 ← SWAP vec curr upper.toNat
        sort_partition_loop cmp pivot fuel vec1 lower (upper - 1) curr
      else if ret < 0 then
        let vec1 ← SWAP vec curr lower
        sort_partition_loop cmp pivot fuel vec1 (lower + 1) upper (curr + 1)
      else
        sort_partition_loop cmp pivot fuel vec lower upper (curr + 1)
    else some (vec, lower, curr)

/-- The function `sort_partition` (`pivot` is the copy held in `buf`). -/
def sort_partition (cmp : α → α → Int) (pivot : α) (vec : List α) :
    Option (List α × Nat × Nat) :=
  sort_partition_loop cmp pivot vec.length vec 0 ((vec.length : Int) - 1) 0

/-- The `len == 3` and `len == 2` branches of `prv__sort` (and the empty `len <= 1` case). -/
def prv__sort_small (cmp : α → α → Int) (vec : List α) : Option (List α) :=
  if vec.length = 3 then do
    let a ← vec[0]?
    let b ← vec[1]?
    if cmp a b > 0 then
      let v1 ← SWAP vec 0 1
      let b1 ← v1[1]?
      let c1 ← v1[2]?
      if cmp b1 c1 > 0 then
        let v2 ← SWAP v1 1 2
        let a2 ← v2[0]?
        let b2 ← v2[1]?
        if cmp a2 b2 > 0 then SWAP v2 1 2 else pure v2
      else pure v1
    else
      let c ← vec[2]?
      if cmp b c > 0 then
        let v1 ← SWAP vec 1 2
        let a1 ← v1[0]?
        let b1 ← v1[1]?
        if cmp a1 b1 > 0 then SWAP v1 0 2 else pure v1
      else pure vec
  else if vec.length = 2 then do
    let a ← vec[0]?
    let b ← vec[1]?
    if cmp a b > 0 then SWAP vec 0 1 else pure vec
  else pure vec

/-- The function `prv__sort`; `fuel` bounds the recursion depth. -/
def prv__sort (cmp : α → α → Int) : Nat → List α → Option (List α)
  | 0, vec => if vec.length > 3 then none else prv__sort_small cmp vec
  | fuel + 1, vec =>
    if vec.length > 3 then do
      let pivot ← sort_pivot cmp vec
      let buf ← vec[pivot]?
      let (vec1, l_mid, u_mid) ← sort_partition cmp buf vec
      let vec_l_len := l_mid
      let lo ← prv__sort cmp fuel (vec1.take vec_l_len)
      let vec2 := lo ++ vec1.drop vec_l_len
      let vec_u_len := vec.length - (u_mid - l_mid) - vec_l_len
      let up ← prv__sort cmp fuel ((vec2.drop u_mid).take vec_u_len)
      pure (vec2.take u_mid ++ up ++ vec2.drop (u_mid + vec_u_len))
    else prv__sort_small cmp vec

/-- The function `sort`. -/
def sort (cmp : α → α → Int) (fuel : Nat) (vec : List α) : Option (List α) :=
  prv__sort cmp fuel vec

/-- The function `select_pivot` (same text as `sort_pivot`). -/
def select_pivot (cmp : α → α → Int) (vec : List α) : Option Nat := do
  let len := vec.length
  let last := len - 1
  let middle := len / 2
  let b ← vec[0]?
  let m ← vec[middle]?
  let l ← vec[last]?
  if cmp b m > 0 then
    if cmp m l > 0 then pure middle
    else if cmp b l > 0 then pure last
    else pure 0
  else if cmp b l > 0 then pure 0
  else if cmp m l > 0 then pure last
  else pure middle

/-- The `while (curr <= upper)` loop of `select_partition`. -/
def select_partition_loop (cmp : α → α → Int) (pivot : α) :
    Nat → List α → Nat → Int → Nat → Option (List α × Nat × Nat)
  | 0, vec, lower, upper, curr =>
    if (curr : Int) ≤ upper then none else some (vec, lower, curr)
  | fuel + 1, vec, lower, upper, curr =>
    if (curr : Int) ≤ upper then do
      let x ← vec[curr]?
      let ret := cmp x pivot
      if ret > 0 then
        let vec1 ← SWAP vec curr upper.toNat
        select_partition_loop cmp pivot fuel vec1 lower (upper - 1) curr
      else if ret < 0 then
        let vec1 ← SWAP vec curr lower
        select_partition_loop cmp pivot fuel vec1 (lower + 1) upper (curr + 1)
      else
        select_partition_loop cmp pivot fuel vec lower upper (curr + 1)
    else some (vec, lower, curr)

/-- The function `select_partition`. -/
def select_partition (cmp : α → α → Int) (pivot : α) (vec : List α) :
    Option (List α × Nat × Nat) :=
  select_partition_loop cmp pivot vec.length vec 0 ((vec.length : Int) - 1) 0

/-- The function `prv__select`: the region afterwards and the index of the returned
record; `fuel` bounds the recursion depth. -/
def prv__select (cmp : α → α → Int) : Nat → List α → Nat → Option (List α × Nat)
  | 0, vec, _ => if vec.length = 1 then some (vec, 0) else none
  | fuel + 1, vec, k =>
    if vec.length = 1 then some (vec, 0)
    else do
      let pivot ← select_pivot cmp vec
      let buf ← vec[pivot]?
      let (vec1, l_mid, u_mid) ← select_partition cmp buf vec
      let vec_l_len := l_mid
      let vec_m_len := u_mid - l_mid
      let vec_u_len := vec.length - vec_m_len - vec_l_len
      if k ≤ vec_l_len then do
        let (lo, ret) ← prv__select cmp fuel (vec1.take vec_l_len) k
        pure (lo ++ vec1.drop vec_l_len, ret)
      else if k - vec_l_len ≤ vec_m_len then
        pure (vec1, l_mid)
      else do
        let (up, ret) ← prv__select cmp fuel ((vec1.drop u_mid).take vec_u_len)
          (k - vec_l_len - vec_m_len)
        pure (vec1.take u_mid ++ up ++ vec1.drop (u_mid + vec_u_len), u_mid + ret)

/-- The function `select`. -/
def select (cmp : α → α → Int) (fuel : Nat) (vec : List α) (k : Nat) :
    Option (List α × Nat) :=
  prv__select cmp fuel vec k

/-! ## darr.c -/

/-- The type `darr_t`: `array = none` is the null pointer, otherwise the bytes of the
allocated block; `size` is the number of allocated bytes. -/
structure darr_t where
  array : Option (List Nat)
  size : Nat
deriving DecidableEq, Repr

/-- The constant `empty_vec`. -/
def empty_vec : darr_t := { array := none, size := 0 }

/-- The function `darr_alloc` on natural numbers (no reduction modulo `SIZE_MAX + 1`, see
`darr_alloc64`); `x & ~(size_t)7` clears the three low bits of `x`, that is `x / 8 * 8`, and
the bytes of a fresh block are taken to be `0`. -/
def darr_alloc (len : Nat) : darr_t :=
  if len = 0 then empty_vec
  else
    let size := (len - 1) / 8 * 8 + 8
    { array := some (List.replicate size 0), size := size }

/-- The loop `while (dv->size && new_len > dv->size) dv->size <<= 2;` on natural numbers
(no reduction modulo `SIZE_MAX + 1`, see `darr_write_grow64`). -/
def darr_write_grow (new_len : Nat) : Nat → Nat → Option Nat
  | 0, size => if size ≠ 0 ∧ new_len > size then none else some size
  | fuel + 1, size =>
    if size ≠ 0 ∧ new_len > size then darr_write_grow new_len fuel (size <<< 2)
    else some size

/-- The call `realloc(array, size)`: the old bytes are kept up to the new size and the
added bytes are taken to be `0`. -/
def realloc (array : Option (List Nat)) (size : Nat) : List Nat :=
  match array with
  | none => List.replicate size 0
  | some old => old.take size ++ List.replicate (size - old.length) 0

/-- The `CPY(dest, src, size)` macro of darr.c, a `do ... while (--size > 0)` loop: it
copies `size` bytes to `dest + index`, and has no defined result for `size = 0` or when a
byte lies outside its block. -/
def CPY (dest : List Nat) (index : Nat) (src : List Nat) (size : Nat) : Option (List Nat) :=
  if size = 0 then none
  else if src.length < size then none
  else if dest.length < index + size then none
  else some (dest.take index ++ src.take size ++ dest.drop (index + size))

/-- The function `darr_write` on natural numbers (see `darr_write64`): the return code
together with the buffer afterwards. -/
def darr_write (data : List Nat) (data_len index : Nat) (dv : darr_t) :
    Option (Nat × darr_t) := do
  let new_len := index + data_len
  let size ← darr_write_grow new_len new_len dv.size
  let dv1 : darr_t := { array := dv.array, size := size }
  if dv1.size = 0 then
    if dv1.array.isSome then pure (1, dv1)
    else
      let dv2 := darr_alloc new_len
      let array ← CPY (realloc dv2.array dv2.size) index data data_len
      pure (0, { array := some array, size := dv2.size })
  else
    let array ← CPY (realloc dv1.array dv1.size) index data data_len
    pure (0, { array := some array, size := dv1.size })

/-- The largest value of the type `size_t`, a 64-bit word. -/
def SIZE_MAX : Nat := 2 ^ 64 - 1

/-- The function `darr_alloc` on 64-bit words: `((len - 1) & ~7) + 8` is reduced modulo
`SIZE_MAX + 1`, so it is `0` for `len > SIZE_MAX - 7`; `malloc(0)` is taken to return a
block of no bytes. -/
def darr_alloc64 (len : Nat) : darr_t :=
  if len = 0 then empty_vec
  else
    let size := ((len - 1) / 8 * 8 + 8) % (SIZE_MAX + 1)
    { array := some (List.replicate size 0), size := size }

/-- The loop `while (dv->size && new_len > dv->size) dv->size <<= 2;` on 64-bit words: the
shift drops the bits that leave the word. -/
def darr_write_grow64 (new_len : Nat) : Nat → Nat → Option Nat
  | 0, size => if size ≠ 0 ∧ new_len > size then none else some size
  | fuel + 1, size =>
    if size ≠ 0 ∧ new_len > size then
      darr_write_grow64 new_len fuel ((size <<< 2) % (SIZE_MAX + 1))
    else some size

/-- The function `darr_write` on 64-bit words: `new_len = index + data_len` and the
capacity are words; the loop ends within `32` rounds, since `32` shifts by two bits clear
a word.  When the loop has cleared the capacity of an allocated buffer the function
returns `1` and leaves the capacity `0`. -/
def darr_write64 (data : List Nat) (data_len index : Nat) (dv : darr_t) :
    Option (Nat × darr_t) := do
  let new_len := (index + data_len) % (SIZE_MAX + 1)
  let size ← darr_write_grow64 new_len 32 dv.size
  let dv1 : darr_t := { array := dv.array, size := size }
  if dv1.size = 0 then
    if dv1.array.isSome then pure (1, dv1)
    else
      let dv2 := darr_alloc64 new_len
      let array ← CPY (realloc dv2.array dv2.size) index data data_len
      pure (0, { array := some array, size := dv2.size })
  else
    let array ← CPY (realloc dv1.array dv1.size) index data data_len
    pure (0, { array := some array, size := dv1.size })

/-! ## main.c -/

/-- The type `image_t`. -/
structure image_t where
  bitboard : List Nat
  width : Nat
  height : Nat
deriving DecidableEq, Repr

/-- The function `std_cmp` on brightness values. -/
def std_cmp {β : Type} [LinearOrder β] (a b : β) : Int :=
  if a < b then -1 else if a > b then 1 else 0

/-- The inner `for c` loop of `cmp`: `some ret` when the loop returns `ret`, `none` when it
runs to its end (both cursors then stand `BW_GRAM_SIZE` cells further). -/
def cmp_row (bitboard : List Nat) : Nat → Nat → Nat → Option Int
  | 0, _, _ => none
  | c + 1, curr_i, curr_j =>
    if bitboard.getD curr_i 0 = 0 then
      if bitboard.getD curr_j 0 = 1 then some (-1)
      else cmp_row bitboard c (curr_i + 1) (curr_j + 1)
    else if bitboard.getD curr_j 0 = 0 then some 1
    else cmp_row bitboard c (curr_i + 1) (curr_j + 1)

/-- The outer `for r` loop of `cmp`. -/
def cmp_rows (G : Nat) (image : image_t) : Nat → Nat → Nat → Int
  | 0, _, _ => 0
  | r + 1, curr_i, curr_j =>
    match cmp_row image.bitboard G curr_i curr_j with
    | some ret => ret
    | none =>
      cmp_rows G image r (curr_i + G + (image.width - G)) (curr_j + G + (image.width - G))

/-- The function `cmp`, the gram comparator; `G` is `BW_GRAM_SIZE`. -/
def cmp (G : Nat) (image : image_t) (i j : Nat) : Int :=
  let raw_i := i / image.width
  let col_i := i % image.width
  let raw_j := j / image.width
  let col_j := j % image.width
  if raw_i + G > image.height ∨ col_i + G > image.width then
    if raw_j + G > image.height ∨ col_j + G > image.width then 0 else 1
  else if raw_j + G > image.height ∨ col_j + G > image.width then -1
  else cmp_rows G image G i j

/-- Binarisation block of `synth`: the threshold `median_bright` selected from the copy
`cpy_bright`, and the bitboard computed from the untouched `bright`. -/
def synth_binarize {β : Type} [LinearOrder β] (fuel : Nat) (bright : List β) :
    Option (β × List Nat) := do
  let num_of_pixels := bright.length
  let cpy_bright := bright
  let (cpy1, ret) ← select std_cmp fuel cpy_bright (num_of_pixels / 2)
  let median_bright ← cpy1[ret]?
  pure (median_bright, bright.map (fun b => if b ≥ median_bright then 1 else 0))

/-- The `for raw` loop of `synth` pushing the rows of the gram at `index` on `my_list`;
the first component is `1` when a `darr_write` reports an error. -/
def synth_push (G : Nat) (image : image_t) (index size_list : Nat) :
    Nat → Nat → darr_t → Option (Nat × darr_t)
  | 0, _, my_list => some (0, my_list)
  | n + 1, raw, my_list => do
    let (err, my_list1) ← darr_write (image.bitboard.drop (index + raw * image.width)) G
      (G * G * size_list + raw * G) my_list
    if err ≠ 0 then pure (1, my_list1)
    else synth_push G image index size_list n (raw + 1) my_list1

/-- The loop `while (j + 1 < num_of_pixels)` of `synth`: final `j`, final `counter`, and
whether the loop was left through `break`. -/
def synth_run (G : Nat) (image : image_t) (index_matrix : List Nat) (num_of_pixels i : Nat) :
    Nat → Nat → Nat → Option (Nat × Nat × Bool)
  | 0, j, counter => if j + 1 < num_of_pixels then none else some (j, counter, false)
  | fuel + 1, j, counter =>
    if j + 1 < num_of_pixels then do
      let j1 := j + 1
      let a ← index_matrix[i]?
      let b ← index_matrix[j1]?
      if cmp G image a b ≠ 0 then pure (j1, counter, true)
      else synth_run G image index_matrix num_of_pixels i fuel j1 (counter + 1)
    else some (j, counter, false)

/-- Local variables of the block "make list of data" of `synth`. -/
structure walk_t where
  i : Nat
  size_list : Nat
  my_list : darr_t
  recurrence : List Nat
deriving DecidableEq, Repr

/-- The store `recurrence[size_list] = counter` (undefined outside the table). -/
def store (recurrence : List Nat) (size_list counter : Nat) : Option (List Nat) :=
  if size_list < recurrence.length then some (recurrence.set size_list counter) else none

/-- The loop `while (i < num_of_pixels)` of `synth`; the first component is the return
code (`1` after a failed `darr_write`). -/
def synth_walk (G : Nat) (image : image_t) (index_matrix : List Nat) (num_of_pixels : Nat) :
    Nat → walk_t → Option (Nat × walk_t)
  | 0, s => if s.i < num_of_pixels then none else some (0, s)
  | fuel + 1, s =>
    if s.i < num_of_pixels then do
      let index ← index_matrix[s.i]?
      if index / image.width + G > image.height ∨ index % image.width + G > image.width then
        pure (0, s)
      else
        let (err, my_list) ← synth_push G image index s.size_list G 0 s.my_list
        if err ≠ 0 then pure (1, { s with my_list := my_list })
        else
          let (j, counter, broke) ←
            synth_run G image index_matrix num_of_pixels s.i num_of_pixels s.i 1
          let rec1 ← if broke then store s.recurrence s.size_list counter
            else pure s.recurrence
          let i1 := if broke then j else s.i
          let rec2 ← if j + 1 = num_of_pixels then store rec1 s.size_list counter
            else pure rec1
          let i2 := if j + 1 = num_of_pixels then j + 1 else i1
          synth_walk G image index_matrix num_of_pixels fuel
            { i := i2, size_list := s.size_list + 1, my_list := my_list, recurrence := rec2 }
    else some (0, s)

/-- The inner loop `for j < curr_ric` filling the recurrence map along `curr_index`. -/
def synth_map_run (index_matrix : List Nat) (curr_ric : Nat) :
    Nat → Nat → List ℚ → Option (Nat × List ℚ)
  | 0, curr_index, recurrence_map => some (curr_index, recurrence_map)
  | n + 1, curr_index, recurrence_map => do
    let p ← index_matrix[curr_index]?
    if p < recurrence_map.length then
      synth_map_run index_matrix curr_ric n (curr_index + 1)
        (recurrence_map.set p (1 / (curr_ric : ℚ)))
    else none

/-- The outer loop `for i < size_list` filling the recurrence map. -/
def synth_map (index_matrix recurrence : List Nat) :
    Nat → Nat → Nat → List ℚ → Option (List ℚ)
  | 0, _, _, recurrence_map => some recurrence_map
  | n + 1, i, curr_index, recurrence_map => do
    let curr_ric ← recurrence[i]?
    let (curr_index1, map1) ←
      synth_map_run index_matrix curr_ric curr_ric curr_index recurrence_map
    synth_map index_matrix recurrence n (i + 1) curr_index1 map1

/-- What `synth` writes to the `.bin` file, field by field. -/
structure synth_t where
  gram_size : Nat
  size_list : Nat
  my_list : List Nat
  recurrence : List Nat
  width : Nat
  height : Nat
  recurrence_map : List ℚ
  bitboard : List Nat

/-- The block "perform analysis on my_image.bitboard" of `synth`, from the binarised image
to the written fields; `none` when it has no defined result or returns `1`. -/
def synth_analysis (G : Nat) (image : image_t) (fuel : Nat) : Option synth_t := do
  let num_of_pixels := image.width * image.height
  let index_matrix0 := List.range num_of_pixels
  let index_matrix ← sort (cmp G image) fuel index_matrix0
  let max_num_of_grams :=
    (((image.width : Int) - 1 + G) * ((image.height : Int) - 1 + G)).toNat
  let (err, s) ← synth_walk G image index_matrix num_of_pixels num_of_pixels
    { i := 0, size_list := 0, my_list := empty_vec,
      recurrence := List.replicate max_num_of_grams 0 }
  if err ≠ 0 then none
  else
    let recurrence_map ← synth_map index_matrix s.recurrence s.size_list 0 0
      (List.replicate num_of_pixels 0)
    pure { gram_size := G, size_list := s.size_list,
           my_list := (s.my_list.array.getD []).take (s.size_list * G * G),
           recurrence := s.recurrence.take s.size_list,
           width := image.width, height := image.height,
           recurrence_map := recurrence_map, bitboard := image.bitboard }

/-- The blocks of `synth` after the image is read: binarisation of the brightness array,
then the analysis of the bitboard. -/
def synth {β : Type} [LinearOrder β] (G width height : Nat) (bright : List β) (fuel : Nat) :
    Option synth_t := do
  let (_, bitboard) ← synth_binarize fuel bright
  synth_analysis G { bitboard := bitboard, width := width, height := height } fuel

/-! ## Notions of the specification -/

/-- A valid three-way comparator: reflexive, sign-antisymmetric, transitive. -/
structure ValidCmp (cmp : α → α → Int) : Prop where
  refl : ∀ x, cmp x x = 0
  antisymm : ∀ x y, cmp x y < 0 ↔ 0 < cmp y x
  trans : ∀ x y z, cmp x y ≤ 0 → cmp y z ≤ 0 → cmp x z ≤ 0

/-- Non-decreasing under `cmp`: every adjacent pair `x` before `y` has `cmp x y ≤ 0`. -/
def NonDecreasing (cmp : α → α → Int) (s : List α) : Prop :=
  ∀ i x y, s[i]? = some x → s[i + 1]? = some y → cmp x y ≤ 0

/-- The list `s` is a fully sorted sequence of `vec`: a non-decreasing permutation. -/
def SortedOf (cmp : α → α → Int) (s vec : List α) : Prop :=
  s.Perm vec ∧ NonDecreasing cmp s

/-- Valid anchor: the `G × G` window at pixel `p` lies inside the image. -/
def gram_valid (G : Nat) (image : image_t) (p : Nat) : Prop :=
  p / image.width + G ≤ image.height ∧ p % image.width + G ≤ image.width

instance gram_valid_decidable (G : Nat) (image : image_t) (p : Nat) :
    Decidable (gram_valid G image p) :=
  inferInstanceAs (Decidable (_ ∧ _))

/-- Row `r` of the window anchored at `p`. -/
def gram_row (G : Nat) (image : image_t) (p r : Nat) : List Nat :=
  (List.range G).map fun c => image.bitboard.getD (p + r * image.width + c) 0

/-- The `G × G` window anchored at `p`, row-major. -/
def gram_window (G : Nat) (image : image_t) (p : Nat) : List Nat :=
  (List.range G).flatMap fun r => gram_row G image p r

/-- Sign decided by the first differing cell, with `0 < 1`. -/
def first_diff : List Nat → List Nat → Int
  | a :: as, b :: bs => if a = b then first_diff as bs else if a < b then -1 else 1
  | _, _ => 0

/-- The reference three-way comparison of two pixel indices, following the specification:
invalid anchors are an absorbing maximum, valid anchors compare by their windows. -/
def cmp_ref (G : Nat) (image : image_t) (i j : Nat) : Int :=
  if ¬ gram_valid G image i then
    if ¬ gram_valid G image j then 0 else 1
  else if ¬ gram_valid G image j then -1
  else if gram_window G image i = gram_window G image j then 0
  else first_diff (gram_window G image i) (gram_window G image j)

/-- Recurrence count of a pattern: the number of valid anchors of the whole image whose
window is that pattern. -/
def recurrence_count (G : Nat) (image : image_t) (pattern : List Nat) : Nat :=
  ((List.range (image.width * image.height)).filter fun p =>
    decide (gram_valid G image p) && decide (gram_window G image p = pattern)).length

/-- Binary image: every cell is `0` or `1`. -/
def binary_image (image : image_t) : Prop :=
  ∀ x ∈ image.bitboard, x = 0 ∨ x = 1

instance binary_image_decidable (image : image_t) : Decidable (binary_image image) :=
  inferInstanceAs (Decidable (∀ x ∈ image.bitboard, x = 0 ∨ x = 1))

/-- Loop invariant of the partition scan of `sort_partition` / `select_partition`, relative
to the pivot value `p` and the initial region `vec0`. -/
structure PartInv (cmp : α → α → Int) (p : α) (vec0 vec : List α) (lower : Nat) (upper : Int)
    (curr : Nat) : Prop where
  perm : vec.Perm vec0
  lower_le : lower ≤ curr
  curr_le : (curr : Int) ≤ upper + 1
  upper_lt : upper + 1 ≤ (vec.length : Int)
  less : ∀ (i : Nat) (x : α), vec[i]? = some x → i < lower → cmp x p < 0
  equal : ∀ (i : Nat) (x : α), vec[i]? = some x → lower ≤ i → i < curr → cmp x p = 0
  greater : ∀ (i : Nat) (x : α), vec[i]? = some x → upper < (i : Int) → 0 < cmp x p

/-- Number of records of `vec` that compare strictly less than `x`. -/
def rank_lt (cmp : α → α → Int) (x : α) (vec : List α) : Nat :=
  vec.countP fun y => decide (cmp y x < 0)

/-- Number of records of `vec` that compare less than or equal to `x`. -/
def rank_le (cmp : α → α → Int) (x : α) (vec : List α) : Nat :=
  vec.countP fun y => decide (cmp y x ≤ 0)

/-- A comparator with two classes: records satisfying `V` are mutually equal and strictly
less than the records not satisfying `V`, which are mutually equal as well. -/
structure TwoClass (cmp : α → α → Int) (V : α → Prop) : Prop where
  eq : ∀ x y, (V x ↔ V y) → cmp x y = 0
  lt : ∀ x y, V x → ¬ V y → cmp x y < 0
  gt : ∀ x y, ¬ V x → V y → 0 < cmp x y

/-- The all-ones `W × H` bitboard, the binarisation of an image of uniform brightness. -/
def ones_image (W H : Nat) : image_t :=
  { bitboard := List.replicate (W * H) 1, width := W, height := H }

/-! ## A test image: `8 × 8`, two dark pixels -/

/-- Brightness values of an `8 × 8` image: `1` at every pixel except the pixels `2` (row 0,
column 2) and `17` (row 2, column 1), which have brightness `0`. -/
def dark_bright : List Int :=
  [1, 1, 0, 1, 1, 1, 1, 1, 1, 1, 1, 1, 1, 1, 1, 1, 1, 0, 1, 1, 1, 1, 1, 1, 1, 1, 1, 1, 1, 1, 1,
   1, 1, 1, 1, 1, 1, 1, 1, 1, 1, 1, 1, 1, 1, 1, 1, 1, 1, 1, 1, 1, 1, 1, 1, 1, 1, 1, 1, 1, 1, 1,
   1, 1]

/-- The bitboard of that image: zeros exactly at the pixels `2` and `17`. -/
def dark_bits : List Nat :=
  [1, 1, 0, 1, 1, 1, 1, 1, 1, 1, 1, 1, 1, 1, 1, 1, 1, 0, 1, 1, 1, 1, 1, 1, 1, 1, 1, 1, 1, 1, 1,
   1, 1, 1, 1, 1, 1, 1, 1, 1, 1, 1, 1, 1, 1, 1, 1, 1, 1, 1, 1, 1, 1, 1, 1, 1, 1, 1, 1, 1, 1, 1,
   1, 1]

/-- The binarised `8 × 8` image with two dark pixels. -/
def dark_image : image_t := { bitboard := dark_bits, width := 8, height := 8 }

/-- The index table that `sort` produces for `dark_image` with `G = 6`. -/
def dark_table : List Nat :=
  [2, 17, 1, 16, 0, 9, 18, 8, 10, 4, 5, 11, 12, 13, 14, 15, 6, 7, 3, 19, 20, 21, 22, 23, 24,
   25, 26, 27, 28, 29, 30, 31, 32, 33, 34, 35, 36, 37, 38, 39, 40, 41, 42, 43, 44, 45, 46, 47,
   48, 49, 50, 51, 52, 53, 54, 55, 56, 57, 58, 59, 60, 61, 62, 63]

/-- The recurrence map that the pipeline produces for `dark_image` with `G = 6`. -/
def dark_map : List ℚ :=
  [1, 1, 1 / 2, 0, 0, 0, 0, 0, 1, 1, 1, 0, 0, 0, 0, 0, 1, 1 / 2, 1, 0, 0, 0, 0, 0, 0, 0, 0, 0,
   0, 0, 0, 0, 0, 0, 0, 0, 0, 0, 0, 0, 0, 0, 0, 0, 0, 0, 0, 0, 0, 0, 0, 0, 0, 0, 0, 0, 0, 0, 0,
   0, 0, 0, 0, 0]

/-! ## Notions for the growable buffer -/

/-- Buffers reachable from the empty buffer or from `darr_alloc` by successful writes. -/
inductive darr_reachable : darr_t → Prop
  | empty : darr_reachable empty_vec
  | alloc (len : Nat) : darr_reachable (darr_alloc len)
  | write (data : List Nat) (data_len index : Nat) (dv dv1 : darr_t) :
      darr_reachable dv → darr_write data data_len index dv = some (0, dv1) →
      darr_reachable dv1

/-- Buffers reachable on 64-bit words from the empty buffer or from `darr_alloc64` by
successful writes. -/
inductive darr_reachable64 : darr_t → Prop
  | empty : darr_reachable64 empty_vec
  | alloc (len : Nat) : darr_reachable64 (darr_alloc64 len)
  | write (data : List Nat) (data_len index : Nat) (dv dv1 : darr_t) :
      darr_reachable64 dv → darr_write64 data data_len index dv = some (0, dv1) →
      darr_reachable64 dv1

/-- Capacity `0` or a positive multiple of `8`. -/
def cap_ok (size : Nat) : Prop :=
  size = 0 ∨ (0 < size ∧ 8 ∣ size)

instance cap_ok_decidable (size : Nat) : Decidable (cap_ok size) :=
  inferInstanceAs (Decidable (_ ∨ _))

/-- The end offset `e` of a write is within reach of the buffer `dv` on 64-bit words: a
capacity `c ≠ 0` reaches `e` by quadrupling without leaving the range of `size_t`
(`e ≤ c * 4 ^ k ≤ SIZE_MAX` for some `k`), and the empty buffer can be allocated with
`e` bytes rounded up to a multiple of `8` (`e ≤ SIZE_MAX - 7`). -/
def darr_fits (dv : darr_t) (e : Nat) : Prop :=
  (dv.size = 0 ∧ (dv.array = none → e ≤ SIZE_MAX - 7)) ∨
    (dv.size ≠ 0 ∧ ∃ k, e ≤ dv.size * 4 ^ k ∧ dv.size * 4 ^ k ≤ SIZE_MAX)

/-! ## main.c: the files of `synth` -/

/-- One element passed to `fwrite`, tagged with its C type. -/
inductive datum where
  | int32 (v : Nat)
  | uint8 (v : Nat)
  | float (v : ℚ)
deriving DecidableEq

/-- The `sizeof` of the C type of an element. -/
def datum.bytes : datum → Nat
  | datum.int32 _ => 4
  | datum.uint8 _ => 1
  | datum.float _ => 4

/-- Number of bytes of a sequence of elements written by `fwrite`. -/
def file_bytes (file : List datum) : Nat :=
  (file.map datum.bytes).sum

/-- The lines `synth` prints on `stderr`; the two "file not found: input ..." lines are told
apart by the path they print. -/
inductive message where
  | source_not_found
  | image_format_error
  | pixels_reading_error
  | binary_not_found
deriving DecidableEq, Repr

/-- What the `stdio` calls of the block "read image" get from an opened source file:
`header` is the pair converted by `fscanf(fp, "P6\n%d %d\n255", ...)` (`none` when `fscanf`
does not return `2`), `pixels` are the bytes after the header, three per pixel. -/
structure source_t where
  header : Option (Nat × Nat)
  pixels : List Nat
deriving DecidableEq, Repr

/-- How a block of `synth` ends: by a `return`, by falling through to the next block with
the values it leaves, or with no defined behaviour (a `stdio` call on a null stream). -/
inductive flow (σ : Type) where
  | ret (code : Nat)
  | go (v : σ)
  | undef

/-- The block "read image" of `synth`; `fp` is the result of `fopen(source_dir, "rb")`,
`none` being `NULL`.  Allocations succeed. -/
def synth_read (fp : Option source_t) : List message × flow (Nat × Nat × List Nat) :=
  match fp with
  | none => ([message.source_not_found], flow.undef)
  | some f =>
    match f.header with
    | none => ([message.image_format_error], flow.ret 1)
    | some (width, height) =>
      let num_of_pixels := width * height
      if f.pixels.length < 3 * num_of_pixels then ([message.pixels_reading_error], flow.ret 1)
      else ([], flow.go (width, height, f.pixels.take (3 * num_of_pixels)))

/-- Spacing of the `float` values around `y / 2^32`, in units of `2^-32`: it is
`2 ^ (e - 23)` when `2^e ≤ y < 2^(e+1)` with `e ≥ 23` (a `float` has a significand of `24`
bits). -/
def float_ulp : Nat → Nat → Nat
  | 0, _ => 1
  | fuel + 1, y => if y < 2 ^ 24 then 1 else 2 * float_ulp fuel (y / 2)

/-- The `float` nearest to `num / den`, ties to the even significand, in units of `2^-32`
(for values from `2^-9` up to `2^31`, and for `0`). -/
def float_round (num den : Nat) : Nat :=
  if num = 0 then 0
  else
    let u := float_ulp 64 (num * 2 ^ 32 / den)
    let q := num * 2 ^ 32 / (den * u)
    let r := num * 2 ^ 32 - q * (den * u)
    if 2 * r < den * u then q * u
    else if 2 * r > den * u then (q + 1) * u
    else if q % 2 = 0 then q * u else (q + 1) * u

/-- The brightness `((float)min/255 + (float)max/255)/2` of a pixel, in units of `2^-32`:
both quotients and their sum are rounded to `float`; the sum is an even number of units, so
halving it is exact. -/
def brightness (r g b : Nat) : Nat :=
  let min := if r < g then (if r < b then r else b) else (if g < b then g else b)
  let max := if r ≥ g then (if r ≥ b then r else b) else (if g ≥ b then g else b)
  float_round (float_round min 255 + float_round max 255) (2 ^ 32) / 2

/-- The loop of `synth` filling `bright` from the RGB buffer. -/
def synth_bright (num_of_pixels : Nat) (rgb : List Nat) : List Nat :=
  (List.range num_of_pixels).map fun bit_index =>
    brightness (rgb.getD (3 * bit_index) 0) (rgb.getD (3 * bit_index + 1) 0)
      (rgb.getD (3 * bit_index + 2) 0)

/-- The block "write on file grams and occurrence" of `synth`: the `fwrite` calls in order.
`opened` tells whether `fopen(binary_dir, "wb")` returned a stream; the second component is
the content of the file after `fclose`, `none` when the block has no defined behaviour
(`fwrite` on the null stream). -/
def synth_save (opened : Bool) (t : synth_t) : List message × Option (List datum) :=
  if opened then
    ([], some ([datum.int32 t.gram_size] ++ [datum.int32 t.size_list] ++
      t.my_list.map datum.uint8 ++ t.recurrence.map datum.int32 ++
      [datum.int32 t.width] ++ [datum.int32 t.height] ++
      t.recurrence_map.map datum.float ++ t.bitboard.map datum.uint8))
  else ([message.binary_not_found], none)

/-- What a call of `synth` leaves behind: the lines on `stderr`, the value returned (`none`
when the call has no defined return), the content of the `.bin` file when it was written. -/
structure job_t where
  stderr : List message
  output : Option Nat
  binary : Option (List datum)

/-- The function `synth(directory)`: `src` is the result of opening the source image,
`opened` tells whether the destination file could be opened. -/
def synth_file (G : Nat) (src : Option source_t) (opened : Bool) (fuel : Nat) : job_t :=
  match synth_read src with
  | (msgs, flow.undef) => { stderr := msgs, output := none, binary := none }
  | (msgs, flow.ret code) => { stderr := msgs, output := some code, binary := none }
  | (msgs, flow.go (width, height, rgb)) =>
    match synth G width height (synth_bright (width * height) rgb) fuel with
    | none => { stderr := msgs, output := none, binary := none }
    | some t =>
      match synth_save opened t with
      | (msgs1, none) => { stderr := msgs ++ msgs1, output := none, binary := none }
      | (msgs1, some file) =>
        { stderr := msgs ++ msgs1, output := some 0, binary := some file }

/-- The buffer `dv` is the empty buffer (and `Q` is empty), or it is an allocated block
whose capacity is its length and whose first bytes are `Q`. -/
def darr_holds (dv : darr_t) (Q : List Nat) : Prop :=
  (dv = empty_vec ∧ Q = []) ∨
    ∃ arr, dv = { array := some arr, size := arr.length } ∧ arr.length ≠ 0 ∧
      Q.length ≤ arr.length ∧ arr.take Q.length = Q

/-- A `2 × 2` source image whose four pixels are all `(10, 20, 30)`. -/
def plain_source : source_t :=
  { header := some (2, 2), pixels := [10, 20, 30, 10, 20, 30, 10, 20, 30, 10, 20, 30] }

/-- The `8 × 8` source image whose pixels are white, `(255, 255, 255)`, except the pixels
`2` and `17`, which are black, `(0, 0, 0)`. -/
def dark_source : source_t :=
  { header := some (8, 8),
    pixels := (List.range 64).flatMap fun p =>
      if p = 2 ∨ p = 17 then [0, 0, 0] else [255, 255, 255] }

/-- The distinct patterns of an image: the windows of its valid anchors, each one once. -/
def distinct_patterns (G : Nat) (image : image_t) : List (List Nat) :=
  (((List.range (image.width * image.height)).filter
    fun p => decide (gram_valid G image p)).map (gram_window G image)).dedup

/-! ## main.c: the pool of workers -/

/-- The constant `THREAD_COUNT` of `config.h`. -/
def THREAD_COUNT : Nat := 6

/-- Where a worker stands in `activation`: before the test `while (flag)`, before the
critical section that pops the next index, before the call `synth(directories[index])`,
before the critical section that clears `flag` after a failed `synth`, or returned. -/
inductive pc_t where
  | test
  | pop
  | call (index : Nat)
  | fail (index : Nat)
  | done
deriving DecidableEq, Repr

/-- The fields `index` and `count` of the type `pool_t`. -/
structure pool_t where
  index : Nat
  count : Nat
deriving DecidableEq, Repr

/-- The shared variables `main_list` and `flag`, the position of every worker in `threads`,
and two history lists that the program does not keep: `popped` records each pop as
(worker, index), `called` records the index of each finished call of `synth`, oldest
first. -/
structure pool_state where
  main_list : pool_t
  flag : Bool
  threads : List pc_t
  popped : List (Nat × Nat)
  called : List Nat
deriving DecidableEq, Repr

/-- One atomic step of worker `w` in `activation`; `output index` is the value returned by
`synth(main_list.directories[index])`.  The two critical sections are atomic, and so is
each access to `flag`. -/
def activation (output : Nat → Nat) (s : pool_state) (w : Nat) : pool_state :=
  match s.threads[w]? with
  | none => s
  | some pc_t.test =>
    if s.flag then { s with threads := s.threads.set w pc_t.pop }
    else { s with threads := s.threads.set w pc_t.done }
  | some pc_t.pop =>
    if s.main_list.index < s.main_list.count then
      { s with
        main_list := { s.main_list with index := s.main_list.index + 1 }
        threads := s.threads.set w (pc_t.call s.main_list.index)
        popped := s.popped ++ [(w, s.main_list.index)] }
    else { s with threads := s.threads.set w pc_t.done }
  | some (pc_t.call index) =>
    if output index ≠ 0 then
      { s with threads := s.threads.set w (pc_t.fail index), called := s.called ++ [index] }
    else
      { s with threads := s.threads.set w pc_t.test, called := s.called ++ [index] }
  | some (pc_t.fail _) => { s with flag := false, threads := s.threads.set w pc_t.done }
  | some pc_t.done => s

/-- The workers run interleaved: the schedule lists which worker takes the next step. -/
def pool_run (output : Nat → Nat) : pool_state → List Nat → pool_state
  | s, [] => s
  | s, w :: schedule => pool_run output (activation output s w) schedule

/-- The state in which `main` starts the workers: `count` jobs, `flag = true`. -/
def main_start (count : Nat) : pool_state :=
  { main_list := { index := 0, count := count }, flag := true,
    threads := List.replicate THREAD_COUNT pc_t.test, popped := [], called := [] }

/-- All workers have returned (`pthread_join` succeeds for every thread). -/
def all_done (s : pool_state) : Prop :=
  ∀ pc ∈ s.threads, pc = pc_t.done

instance all_done_decidable (s : pool_state) : Decidable (all_done s) :=
  inferInstanceAs (Decidable (∀ pc ∈ s.threads, pc = pc_t.done))

/-- The value `main` returns after joining the workers: `EXIT_SUCCESS = 0` when `flag` is
still set, `EXIT_FAILURE = 1` otherwise. -/
def main_exit (s : pool_state) : Nat :=
  if s.flag then 0 else 1

/-- The index of the call of `synth` a worker is about to make, if any. -/
def pc_t.inflight : pc_t → Option Nat
  | pc_t.call index => some index
  | _ => none

/-- Invariant of the pool: the cursor stays within the job count; the pops hand out the
indices `0, 1, 2, ...` in this order; every popped index is either in a call about to be
made or among the finished calls, exactly once; `flag` is cleared only after a failed
call, and every failed call is followed by the clearing of `flag`; a worker has returned
only if `flag` is cleared or the jobs are exhausted. -/
structure PoolInv (output : Nat → Nat) (s : pool_state) : Prop where
  index_le : s.main_list.index ≤ s.main_list.count
  popped_eq : s.popped.map Prod.snd = List.range s.main_list.index
  perm : (s.called ++ s.threads.filterMap pc_t.inflight).Perm (List.range s.main_list.index)
  flag_false : s.flag = false → ∃ j ∈ s.called, output j ≠ 0
  failed : ∀ j ∈ s.called, output j ≠ 0 → s.flag = false ∨ pc_t.fail j ∈ s.threads
  fail_called : ∀ j, pc_t.fail j ∈ s.threads → j ∈ s.called ∧ output j ≠ 0
  done_reason : pc_t.done ∈ s.threads →
    s.flag = false ∨ s.main_list.index = s.main_list.count

/-- One run met by the walk over the index table: the position in the table where the run
starts, the pixel index found there, and the count stored for the run. -/
structure run_t where
  start : Nat
  anchor : Nat
  count : Nat
deriving DecidableEq, Repr

/-- Invariant of the walk `while (i < num_of_pixels)` of `synth`.  The grams pushed so far
are the windows of the anchors of `runs`, valid anchors taken from the table in table
order; the counts stored so far are the counts of `runs`, in the same order; and each run
starts at its anchor and consists of `count` adjacent table entries that compare equal to
the anchor. -/
structure WalkInv (G : Nat) (image : image_t) (index_matrix : List Nat) (s : walk_t)
    (runs : List run_t) : Prop where
  length_eq : runs.length = s.size_list
  sublist : (runs.map run_t.anchor).Sublist (index_matrix.take s.i)
  valid : ∀ r ∈ runs, gram_valid G image r.anchor
  holds : darr_holds s.my_list ((runs.map run_t.anchor).flatMap (gram_window G image))
  room : s.size_list ≤ s.recurrence.length
  counts : s.recurrence.take s.size_list = runs.map run_t.count
  run : ∀ r ∈ runs, index_matrix[r.start]? = some r.anchor ∧ 1 ≤ r.count ∧
    r.start + r.count ≤ s.i ∧
    ∀ q, r.start < q → q < r.start + r.count →
      ∃ b, index_matrix[q]? = some b ∧ cmp G image r.anchor b = 0

/-! ## Notions for the pivot rule and the walk -/

/-- The record `p` is a median of the three records `p`, `x`, `y`: one of the other two
compares `≤ p` and the other one compares `≥ p`. -/
def median3 (cmp : α → α → Int) (p x y : α) : Prop :=
  (cmp x p ≤ 0 ∧ 0 ≤ cmp y p) ∨ (cmp y p ≤ 0 ∧ 0 ≤ cmp x p)

instance median3_decidable (cmp : α → α → Int) (p x y : α) : Decidable (median3 cmp p x y) :=
  inferInstanceAs (Decidable (_ ∨ _))

/-- A `3 × 3` binary test image with rows `0 1 1`, `1 0 1`, `1 1 0`. -/
def cross_image : image_t :=
  { bitboard := [0, 1, 1, 1, 0, 1, 1, 1, 0], width := 3, height := 3 }

/-- Reference for the walk over an index table, following the words of the specification:
among the entries that precede the first out-of-bounds entry, each maximal run of adjacent
pattern-equal entries gives one pair, in table order; the pattern is the window of the
first entry of the run and the count is the length of the run. -/
def walk_ref (G : Nat) (image : image_t) (index_matrix : List Nat) : List (List Nat × Nat) :=
  ((index_matrix.takeWhile fun p => decide (gram_valid G image p)).splitBy
      fun a b => decide (gram_window G image a = gram_window G image b)).map
    fun run => (gram_window G image (run.headD 0), run.length)

/-- The case in which the walk leaves out the last entry of the table: every entry is in
bounds, there are at least two entries, and the windows of the last two differ. -/
def last_skipped (G : Nat) (image : image_t) (index_matrix : List Nat) : Prop :=
  (∀ b ∈ index_matrix, gram_valid G image b) ∧ 2 ≤ index_matrix.length ∧
    gram_window G image (index_matrix.getD (index_matrix.length - 2) 0) ≠
      gram_window G image (index_matrix.getD (index_matrix.length - 1) 0)

instance last_skipped_decidable (G : Nat) (image : image_t) (index_matrix : List Nat) :
    Decidable (last_skipped G image index_matrix) :=
  inferInstanceAs (Decidable (_ ∧ _))

theorem cons_set_perm (a : α) : ∀ (t : List α) (j : Nat) (y : α), t[j]? = some y →
    (y :: t.set j a).Perm (a :: t) := by
  intro t
  induction t with
  | nil => intro j y h; simp at h
  | cons b t ih =>
    intro j y h
    cases j with
    | zero =>
      simp only [List.getElem?_cons_zero, Option.some.injEq] at h
      subst h
      exact List.Perm.swap _ _ _
    | succ k =>
      simp only [List.getElem?_cons_succ] at h
      have h1 := ih k y h
      simp only [List.set_cons_succ]
      exact ((List.Perm.swap b y _).trans (h1.cons b)).trans (List.Perm.swap a b _)

theorem set_set_perm_lt : ∀ (l : List α) (i j : Nat) (x y : α), l[i]? = some x →
    l[j]? = some y → i < j → ((l.set i y).set j x).Perm l := by
  intro l
  induction l with
  | nil => intro i j x y h; simp at h
  | cons a t ih =>
    intro i j x y hi hj hij
    cases j with
    | zero => omega
    | succ j =>
      simp only [List.getElem?_cons_succ] at hj
      cases i with
      | zero =>
        simp only [List.getElem?_cons_zero, Option.some.injEq] at hi
        subst hi
        simpa using cons_set_perm a t j y hj
      | succ i =>
        simp only [List.getElem?_cons_succ] at hi
        simpa using ih i j x y hi hj (by omega)

theorem set_set_perm (l : List α) (i j : Nat) (x y : α) (hi : l[i]? = some x)
    (hj : l[j]? = some y) : ((l.set i y).set j x).Perm l := by
  rcases Nat.lt_trichotomy i j with h | h | h
  · exact set_set_perm_lt l i j x y hi hj h
  · subst h
    have hxy : x = y := by rw [hi] at hj; exact Option.some.inj hj
    subst hxy
    have hlt : i < l.length := by
      rcases List.getElem?_eq_some_iff.mp hi with ⟨h, _⟩; exact h
    have : (l.set i x) = l := by
      apply List.ext_getElem? ; intro n
      rw [List.getElem?_set]
      split
      · next h => subst h; simp [hlt, hi]
      · rfl
    simp [this]
  · rw [List.set_comm _ _ _ (by omega)]
    exact set_set_perm_lt l j i y x hj hi h

theorem SWAP_spec (vec : List α) (a b : Nat) (x y : α) (ha : vec[a]? = some x)
    (hb : vec[b]? = some y) :
    ∃ out, SWAP vec a b = some out ∧ out.Perm vec ∧ out.length = vec.length ∧
      out[b]? = some x ∧ (a ≠ b → out[a]? = some y) ∧
      (∀ i, i ≠ a → i ≠ b → out[i]? = vec[i]?) := by
  have hal : a < vec.length := (List.getElem?_eq_some_iff.mp ha).1
  have hbl : b < vec.length := (List.getElem?_eq_some_iff.mp hb).1
  refine ⟨(vec.set a y).set b x, ?_, set_set_perm vec a b x y ha hb, by simp, ?_, ?_, ?_⟩
  · simp [SWAP, ha, hb]
  · simp [List.getElem?_set, hbl]
  · intro hab
    rw [List.getElem?_set, if_neg (Ne.symm hab)]
    simp [List.getElem?_set, hal]
  · intro i hia hib
    rw [List.getElem?_set, if_neg (Ne.symm hib), List.getElem?_set, if_neg (Ne.symm hia)]

theorem sort_partition_loop_spec (cmp : α → α → Int) (p : α) (vec0 : List α) :
    ∀ (fuel : Nat) (vec : List α) (lower : Nat) (upper : Int) (curr : Nat),
      PartInv cmp p vec0 vec lower upper curr → upper + 1 - curr ≤ fuel →
      ∃ out l u, sort_partition_loop cmp p fuel vec lower upper curr = some (out, l, u) ∧
        PartInv cmp p vec0 out l ((u : Int) - 1) u := by
  intro fuel
  induction fuel with
  | zero =>
    intro vec lower upper curr inv hf
    have h : ¬ (curr : Int) ≤ upper := by omega
    refine ⟨vec, lower, curr, by simp [sort_partition_loop, h], ?_⟩
    have hu : upper = (curr : Int) - 1 := by have := inv.curr_le; omega
    rw [← hu]; exact inv
  | succ fuel ih =>
    intro vec lower upper curr inv hf
    by_cases h : (curr : Int) ≤ upper
    · have hcl : curr < vec.length := by have := inv.upper_lt; omega
      have hx : vec[curr]? = some vec[curr] := List.getElem?_eq_getElem hcl
      have hul : upper.toNat < vec.length := by have := inv.upper_lt; omega
      have hll : lower < vec.length := by have := inv.lower_le; omega
      rw [sort_partition_loop, if_pos h]
      simp only [hx, Option.bind_eq_bind, Option.some_bind]
      by_cases hgt : cmp vec[curr] p > 0
      · rw [if_pos hgt]
        obtain ⟨v1, hs, hperm, hlen, hb, ha, hrest⟩ :=
          SWAP_spec vec curr upper.toNat _ _ hx (List.getElem?_eq_getElem hul)
        rw [hs]
        simp only [Option.some_bind]
        apply ih
        · refine ⟨hperm.trans inv.perm, inv.lower_le, by omega, by rw [hlen]; have := inv.upper_lt; omega, ?_, ?_, ?_⟩
          · intro i x hi hlt
            rw [hrest i (by have := inv.lower_le; omega) (by have := inv.lower_le; omega)] at hi
            exact inv.less i x hi hlt
          · intro i x hi h1 h2
            rw [hrest i (by omega) (by omega)] at hi
            exact inv.equal i x hi h1 h2
          · intro i x hi hlt
            by_cases hiu : i = upper.toNat
            · subst hiu
              rw [hb] at hi
              cases hi
              exact hgt
            · rw [hrest i (by omega) hiu] at hi
              exact inv.greater i x hi (by omega)
        · omega
      · rw [if_neg hgt]
        by_cases hlt : cmp vec[curr] p < 0
        · rw [if_pos hlt]
          obtain ⟨v1, hs, hperm, hlen, hb, ha, hrest⟩ :=
            SWAP_spec vec curr lower _ _ hx (List.getElem?_eq_getElem hll)
          rw [hs]
          simp only [Option.some_bind]
          apply ih
          · refine ⟨hperm.trans inv.perm, by have := inv.lower_le; omega, by push_cast; omega, by rw [hlen]; exact inv.upper_lt, ?_, ?_, ?_⟩
            · intro i x hi hil
              by_cases hil2 : i = lower
              · subst hil2
                rw [hb] at hi
                cases hi
                exact hlt
              · rw [hrest i (by have := inv.lower_le; omega) hil2] at hi
                exact inv.less i x hi (by omega)
            · intro i x hi h1 h2
              by_cases hic : i = curr
              · subst hic
                rw [ha (by omega)] at hi
                exact inv.equal lower x (by rw [← hi]; exact (List.getElem?_eq_getElem hll)) (le_refl _) (by omega)
              · rw [hrest i hic (by omega)] at hi
                exact inv.equal i x hi (by omega) (by omega)
            · intro i x hi hiu
              rw [hrest i (by omega) (by have := inv.lower_le; omega)] at hi
              exact inv.greater i x hi hiu
          · push_cast; omega
        · rw [if_neg hlt]
          apply ih
          · refine ⟨inv.perm, by have := inv.lower_le; omega, by push_cast; omega, inv.upper_lt, inv.less, ?_, inv.greater⟩
            intro i x hi h1 h2
            by_cases hic : i = curr
            · subst hic
              rw [hx] at hi
              cases hi
              omega
            · exact inv.equal i x hi h1 (by omega)
          · push_cast; omega
    · refine ⟨vec, lower, curr, by rw [sort_partition_loop, if_neg h], ?_⟩
      have hu : upper = (curr : Int) - 1 := by have := inv.curr_le; omega
      rw [← hu]; exact inv

theorem select_partition_loop_eq (cmp : α → α → Int) (p : α) :
    ∀ (fuel : Nat) (vec : List α) (lower : Nat) (upper : Int) (curr : Nat),
      select_partition_loop cmp p fuel vec lower upper curr =
        sort_partition_loop cmp p fuel vec lower upper curr := by
  intro fuel
  induction fuel with
  | zero => intro vec lower upper curr; rfl
  | succ fuel ih =>
    intro vec lower upper curr
    simp only [select_partition_loop, sort_partition_loop, ih]

theorem select_partition_eq (cmp : α → α → Int) (p : α) (vec : List α) :
    select_partition cmp p vec = sort_partition cmp p vec := by
  simp only [select_partition, sort_partition, select_partition_loop_eq]

theorem select_pivot_eq (cmp : α → α → Int) (vec : List α) :
    select_pivot cmp vec = sort_pivot cmp vec := rfl

theorem sort_partition_spec (cmp : α → α → Int) (p : α) (vec : List α) :
    ∃ out l u, sort_partition cmp p vec = some (out, l, u) ∧
      PartInv cmp p vec out l ((u : Int) - 1) u := by
  apply sort_partition_loop_spec
  · refine ⟨List.Perm.refl _, le_refl _, by push_cast; omega, by omega, ?_, ?_, ?_⟩
    · intro i x _ h; omega
    · intro i x _ _ h; omega
    · intro i x hi h
      have := (List.getElem?_eq_some_iff.mp hi).1
      omega
  · push_cast; omega

theorem PartInv.length_eq {cmp : α → α → Int} {p : α} {vec0 vec : List α} {l : Nat}
    {u : Int} {c : Nat} (h : PartInv cmp p vec0 vec l u c) : vec.length = vec0.length :=
  h.perm.length_eq

theorem sort_pivot_spec (cmp : α → α → Int) (vec : List α) (h : vec ≠ []) :
    ∃ i, sort_pivot cmp vec = some i ∧ i < vec.length := by
  have hl : 0 < vec.length := List.length_pos.mpr h
  have hmb : vec.length / 2 < vec.length := by omega
  have hlb : vec.length - 1 < vec.length := by omega
  have h0 : vec[0]? = some vec[0] := List.getElem?_eq_getElem hl
  have hm : vec[vec.length / 2]? = some vec[vec.length / 2] := List.getElem?_eq_getElem hmb
  have hlast : vec[vec.length - 1]? = some vec[vec.length - 1] :=
    List.getElem?_eq_getElem hlb
  simp only [sort_pivot, h0, hm, hlast, Option.bind_eq_bind, Option.some_bind]
  split_ifs <;> exact ⟨_, rfl, by omega⟩

theorem SWAP_perm (vec out : List α) (a b : Nat) (h : SWAP vec a b = some out) :
    out.Perm vec := by
  simp only [SWAP, Option.bind_eq_bind, Option.bind_eq_some, Option.pure_def,
    Option.some.injEq] at h
  obtain ⟨x, hx, y, hy, rfl⟩ := h
  exact set_set_perm vec a b x y hx hy

theorem prv__sort_small_spec (cmp : α → α → Int) (vec : List α) :
    ∃ out, prv__sort_small cmp vec = some out ∧ out.Perm vec := by
  unfold prv__sort_small
  split_ifs with h3 h2
  · match vec, h3 with
    | [a, b, c], _ =>
      simp only [SWAP, List.getElem?_cons_zero, List.getElem?_cons_succ, Option.bind_eq_bind,
        Option.some_bind, Option.pure_def, List.set_cons_zero, List.set_cons_succ]
      split_ifs <;> refine ⟨_, rfl, ?_⟩ <;> classical
        exact List.perm_iff_count.mpr (fun x => by simp only [List.count_cons, List.count_nil] <;> ring)
  · match vec, h2 with
    | [a, b], _ =>
      simp only [SWAP, List.getElem?_cons_zero, List.getElem?_cons_succ, Option.bind_eq_bind,
        Option.some_bind, Option.pure_def, List.set_cons_zero, List.set_cons_succ]
      split_ifs <;> refine ⟨_, rfl, ?_⟩
      · exact List.Perm.swap _ _ _
      · exact List.Perm.refl _
  · exact ⟨vec, rfl, List.Perm.refl _⟩

theorem PartInv.bounds {cmp : α → α → Int} {p : α} {vec out : List α} {l u : Nat}
    (h : PartInv cmp p vec out l ((u : Int) - 1) u) :
    l ≤ u ∧ u ≤ vec.length ∧ out.length = vec.length := by
  have h1 := h.lower_le
  have h2 := h.upper_lt
  have h3 := h.perm.length_eq
  omega

theorem PartInv.mid_nonempty {cmp : α → α → Int} {p : α} {vec out : List α} {l u : Nat}
    (h : PartInv cmp p vec out l ((u : Int) - 1) u) (hp : p ∈ vec) (hpp : cmp p p = 0) :
    l < u := by
  have hmem : p ∈ out := h.perm.symm.subset hp
  obtain ⟨idx, hidx⟩ := List.mem_iff_getElem?.mp hmem
  by_contra hcon
  by_cases h1 : idx < l
  · have := h.less idx p hidx h1
    omega
  · have := h.greater idx p hidx (by omega)
    omega

theorem prv__sort_unfold (cmp : α → α → Int) (fuel : Nat) (vec : List α)
    (hlen : 3 < vec.length) :
    ∃ (p : α) (out : List α) (l u : Nat), p ∈ vec ∧ PartInv cmp p vec out l ((u : Int) - 1) u ∧
      prv__sort cmp (fuel + 1) vec =
        (prv__sort cmp fuel (out.take l)).bind (fun lo =>
          (prv__sort cmp fuel (((lo ++ out.drop l).drop u).take
              (vec.length - (u - l) - l))).bind (fun up =>
            some ((lo ++ out.drop l).take u ++ up ++
              (lo ++ out.drop l).drop (u + (vec.length - (u - l) - l))))) := by
  obtain ⟨i, hi, hil⟩ := sort_pivot_spec cmp vec (by intro h; simp [h] at hlen)
  obtain ⟨out, l, u, hpart, hinv⟩ := sort_partition_spec cmp vec[i] vec
  refine ⟨vec[i], out, l, u, List.getElem_mem _, hinv, ?_⟩
  rw [prv__sort, if_pos hlen]
  simp only [hi, List.getElem?_eq_getElem hil, hpart, Option.bind_eq_bind, Option.some_bind,
    Option.pure_def]

theorem prv__sort_spec (cmp : α → α → Int) (hrefl : ∀ x, cmp x x = 0) :
    ∀ (fuel : Nat) (vec : List α), vec.length ≤ fuel + 3 →
      ∃ out, prv__sort cmp fuel vec = some out ∧ out.Perm vec := by
  intro fuel
  induction fuel with
  | zero =>
    intro vec h
    rw [prv__sort, if_neg (by omega)]
    exact prv__sort_small_spec cmp vec
  | succ fuel ih =>
    intro vec h
    by_cases hlen : 3 < vec.length
    · obtain ⟨p, out, l, u, hp, hinv, heq⟩ := prv__sort_unfold cmp fuel vec hlen
      obtain ⟨hlu, hul, hol⟩ := hinv.bounds
      have hmid := hinv.mid_nonempty hp (hrefl p)
      obtain ⟨lo, hlo, hlop⟩ := ih (out.take l) (by simp; omega)
      have hlol : lo.length = l := by rw [hlop.length_eq]; simp; omega
      have hdrop : (lo ++ out.drop l).drop u = out.drop u := by
        rw [List.drop_append_eq_append_drop, hlol]
        rw [List.drop_of_length_le (by omega : lo.length ≤ u), List.nil_append, List.drop_drop]
        congr 1; omega
      have htake : (out.drop u).take (vec.length - (u - l) - l) = out.drop u := by
        apply List.take_of_length_le; simp; omega
      obtain ⟨up, hup, hupp⟩ := ih (out.drop u) (by simp; omega)
      rw [heq, hlo]
      simp only [Option.some_bind, hdrop, htake, hup]
      refine ⟨_, rfl, ?_⟩
      have hnil : (lo ++ out.drop l).drop (u + (vec.length - (u - l) - l)) = [] := by
        apply List.drop_of_length_le; simp; omega
      rw [hnil, List.append_nil]
      have h1 : ((lo ++ out.drop l).take u ++ up).Perm
          ((lo ++ out.drop l).take u ++ (lo ++ out.drop l).drop u) := by
        rw [hdrop]; exact List.Perm.append_left _ hupp
      rw [List.take_append_drop] at h1
      refine h1.trans ?_
      have h2 : (lo ++ out.drop l).Perm (out.take l ++ out.drop l) :=
        List.Perm.append_right _ hlop
      rw [List.take_append_drop] at h2
      exact h2.trans hinv.perm
    · rw [prv__sort, if_neg hlen]
      exact prv__sort_small_spec cmp vec

theorem prv__sort_fuel_succ (cmp : α → α → Int) :
    ∀ (fuel : Nat) (vec out : List α), prv__sort cmp fuel vec = some out →
      prv__sort cmp (fuel + 1) vec = some out := by
  intro fuel
  induction fuel with
  | zero =>
    intro vec out h
    rw [prv__sort.eq_1] at h
    rw [prv__sort.eq_2]
    split_ifs at h ⊢ with hl
    exact h
  | succ fuel ih =>
    intro vec out h
    rw [prv__sort.eq_2] at h
    rw [prv__sort.eq_2]
    split_ifs at h ⊢ with hl
    · simp only [Option.bind_eq_bind, Option.bind_eq_some, Option.pure_def,
        Option.some.injEq] at h ⊢
      obtain ⟨i, hi, p, hp, ⟨v1, l, u⟩, hpart, lo, hlo, up, hup, rfl⟩ := h
      exact ⟨i, hi, p, hp, (v1, l, u), hpart, lo, ih _ _ hlo, up, ih _ _ hup, rfl⟩
    · exact h

theorem prv__sort_fuel_mono (cmp : α → α → Int) (fuel fuel1 : Nat) (vec out : List α)
    (h : prv__sort cmp fuel vec = some out) (hle : fuel ≤ fuel1) :
    prv__sort cmp fuel1 vec = some out := by
  induction hle with
  | refl => exact h
  | step _ ih => exact prv__sort_fuel_succ cmp _ vec out ih

theorem std_cmp_neg {β : Type} [LinearOrder β] (a b : β) : std_cmp a b < 0 ↔ a < b := by
  simp only [std_cmp]
  split_ifs with h1 h2 <;> simp [h1]

theorem std_cmp_pos {β : Type} [LinearOrder β] (a b : β) : 0 < std_cmp a b ↔ b < a := by
  simp only [std_cmp]
  split_ifs with h1 h2
  · simp [lt_asymm h1]
  · simpa using h2
  · simpa using h2

theorem std_cmp_le {β : Type} [LinearOrder β] (a b : β) : std_cmp a b ≤ 0 ↔ a ≤ b := by
  have h := std_cmp_pos a b
  constructor
  · intro h1
    exact not_lt.mp (fun h2 => by have := h.mpr h2; omega)
  · intro h1
    by_contra h2
    exact absurd (h.mp (by omega)) (not_lt.mpr h1)

theorem std_cmp_valid {β : Type} [LinearOrder β] : ValidCmp (std_cmp : β → β → Int) := by
  refine ⟨?_, ?_, ?_⟩
  · intro x; simp [std_cmp]
  · intro x y
    rw [std_cmp_neg, std_cmp_pos]
  · intro x y z
    simp only [std_cmp_le]
    exact le_trans

theorem prv__sort_const_none :
    ∀ fuel : Nat, prv__sort (fun (_ _ : Nat) => (-1 : Int)) fuel [0, 1, 2, 3] = none := by
  intro fuel
  induction fuel with
  | zero => decide
  | succ fuel ih =>
    have hp : sort_pivot (fun (_ _ : Nat) => (-1 : Int)) [0, 1, 2, 3] = some 2 := by decide
    have hq : sort_partition (fun (_ _ : Nat) => (-1 : Int)) 2 [0, 1, 2, 3] =
        some ([0, 1, 2, 3], 4, 4) := by decide
    rw [prv__sort.eq_2, if_pos (by decide)]
    simp only [hp, Option.bind_eq_bind, Option.some_bind]
    have hb : ([0, 1, 2, 3] : List Nat)[2]? = some 2 := by decide
    simp only [hb, Option.some_bind, hq]
    have ht : List.take 4 [0, 1, 2, 3] = [0, 1, 2, 3] := by decide
    simp only [ht, ih, Option.none_bind]

theorem prv__sort_le_three (cmp : α → α → Int) (fuel : Nat) (vec : List α)
    (h : vec.length ≤ 3) : prv__sort cmp fuel vec = prv__sort_small cmp vec := by
  cases fuel with
  | zero => rw [prv__sort.eq_1, if_neg (by omega)]
  | succ fuel => rw [prv__sort.eq_2, if_neg (by omega)]

/-- C1 (code defect, failing input): on the strictly decreasing triple `[3, 2, 1]`, compared
by `std_cmp`, `sort` returns `[2, 3, 1]`; the adjacent pair `3, 1` of the result is out of
order, so the result is not non-decreasing. -/
theorem sort_decreasing_triple :
    (∀ fuel, sort (std_cmp : Int → Int → Int) fuel [3, 2, 1] = some [2, 3, 1]) ∧
      ¬ NonDecreasing (std_cmp : Int → Int → Int) [2, 3, 1] := by
  constructor
  · intro fuel
    rw [sort, prv__sort_le_three _ _ _ (by decide)]
    decide
  · intro h
    have := h 1 3 1 (by decide) (by decide)
    revert this
    decide

/-- C2 (counterexample): with the comparator that answers `-1` on every pair, `sort` on
`[0, 1, 2, 3]` yields no result whatever recursion depth is allowed, hence no permutation
of the input. -/
theorem sort_constant_cmp_no_result :
    ¬ ∃ fuel out, sort (fun (_ _ : Nat) => (-1 : Int)) fuel [0, 1, 2, 3] = some out ∧
        out.Perm [0, 1, 2, 3] := by
  rintro ⟨fuel, out, h, _⟩
  rw [sort, prv__sort_const_none fuel] at h
  exact Option.noConfusion h

/-- C2 (amended): for every finite record sequence and every comparator with
`cmp x x = 0`, `sort` returns (any recursion depth `fuel ≥ len - 3` yields the same
result), and the returned sequence is a permutation of the input: same multiset of
records and same length. -/
theorem sort_perm (cmp : α → α → Int) (vec : List α) (hrefl : ∀ x, cmp x x = 0) :
    ∃ out, (∀ fuel, vec.length ≤ fuel + 3 → sort cmp fuel vec = some out) ∧
      out.Perm vec ∧ out.length = vec.length := by
  obtain ⟨out, h, hperm⟩ := prv__sort_spec cmp hrefl (vec.length - 3) vec (by omega)
  refine ⟨out, ?_, hperm, hperm.length_eq⟩
  intro fuel hf
  exact prv__sort_fuel_mono cmp _ fuel vec out h (by omega)

/-- Witness for `sort_perm`: the integer comparator on `[3, 2, 1]`. -/
theorem sort_perm_witness :
    ∃ out, (∀ fuel, [3, 2, 1].length ≤ fuel + 3 →
        sort (std_cmp : Int → Int → Int) fuel [3, 2, 1] = some out) ∧
      out.Perm [3, 2, 1] ∧ out.length = [3, 2, 1].length :=
  sort_perm std_cmp [3, 2, 1] std_cmp_valid.refl

/-- C4: one partition step (`sort_partition` and `select_partition` alike), for every
comparator, pivot value and record sequence (in particular for a valid comparator and a
pivot taken from a non-empty sequence): the step returns boundaries
`l_mid ≤ u_mid ≤ len`; every record before `l_mid` compares `< p`, every record in
`[l_mid, u_mid)` compares `== p`, every record at or after `u_mid` compares `> p`; and the
resulting sequence is a permutation of the input. -/
theorem partition_step_invariant (cmp : α → α → Int) (p : α) (vec : List α) :
    ∃ (out : List α) (l_mid u_mid : Nat),
      sort_partition cmp p vec = some (out, l_mid, u_mid) ∧
      select_partition cmp p vec = some (out, l_mid, u_mid) ∧
      l_mid ≤ u_mid ∧ u_mid ≤ vec.length ∧ out.Perm vec ∧
      (∀ (i : Nat) (x : α), out[i]? = some x → i < l_mid → cmp x p < 0) ∧
      (∀ (i : Nat) (x : α), out[i]? = some x → l_mid ≤ i → i < u_mid → cmp x p = 0) ∧
      (∀ (i : Nat) (x : α), out[i]? = some x → u_mid ≤ i → 0 < cmp x p) := by
  obtain ⟨out, l, u, h, hinv⟩ := sort_partition_spec cmp p vec
  obtain ⟨h1, h2, _⟩ := hinv.bounds
  refine ⟨out, l, u, h, by rw [select_partition_eq, h], h1, h2, hinv.perm, hinv.less,
    hinv.equal, ?_⟩
  intro i x hi hu
  exact hinv.greater i x hi (by omega)

/-! ## Comparator algebra -/

theorem ValidCmp.pos_iff {cmp : α → α → Int} (hv : ValidCmp cmp) (x y : α) :
    0 < cmp x y ↔ cmp y x < 0 := (hv.antisymm y x).symm

theorem ValidCmp.eq_symm {cmp : α → α → Int} (hv : ValidCmp cmp) {x y : α}
    (h : cmp x y = 0) : cmp y x = 0 := by
  have h1 := hv.antisymm x y
  have h2 := hv.antisymm y x
  omega

theorem ValidCmp.lt_of_le_of_lt {cmp : α → α → Int} (hv : ValidCmp cmp) {x y z : α}
    (h1 : cmp x y ≤ 0) (h2 : cmp y z < 0) : cmp x z < 0 := by
  by_contra h
  have h3 : cmp z x ≤ 0 := by
    have := hv.antisymm x z
    omega
  have h4 := hv.trans z x y h3 h1
  have h5 := hv.antisymm y z
  omega

theorem ValidCmp.lt_of_lt_of_le {cmp : α → α → Int} (hv : ValidCmp cmp) {x y z : α}
    (h1 : cmp x y < 0) (h2 : cmp y z ≤ 0) : cmp x z < 0 := by
  by_contra h
  have h3 : cmp z x ≤ 0 := by
    have := hv.antisymm x z
    omega
  have h4 := hv.trans y z x h2 h3
  have h5 := hv.antisymm x y
  omega

/-! ## The three regions after a partition step -/

theorem PartInv.mem_less {cmp : α → α → Int} {p : α} {vec out : List α} {l u : Nat}
    (h : PartInv cmp p vec out l ((u : Int) - 1) u) :
    ∀ y ∈ out.take l, cmp y p < 0 := by
  intro y hy
  obtain ⟨i, hi⟩ := List.mem_iff_getElem?.mp hy
  rw [List.getElem?_take] at hi
  split_ifs at hi with hlt
  exact h.less i y hi hlt

theorem PartInv.mem_equal {cmp : α → α → Int} {p : α} {vec out : List α} {l u : Nat}
    (h : PartInv cmp p vec out l ((u : Int) - 1) u) :
    ∀ y ∈ (out.drop l).take (u - l), cmp y p = 0 := by
  intro y hy
  obtain ⟨i, hi⟩ := List.mem_iff_getElem?.mp hy
  rw [List.getElem?_take] at hi
  split_ifs at hi with hlt
  rw [List.getElem?_drop] at hi
  exact h.equal (l + i) y hi (by omega) (by omega)

theorem PartInv.mem_greater {cmp : α → α → Int} {p : α} {vec out : List α} {l u : Nat}
    (h : PartInv cmp p vec out l ((u : Int) - 1) u) :
    ∀ y ∈ out.drop u, 0 < cmp y p := by
  intro y hy
  obtain ⟨i, hi⟩ := List.mem_iff_getElem?.mp hy
  rw [List.getElem?_drop] at hi
  exact h.greater (u + i) y hi (by push_cast; omega)

theorem PartInv.split {cmp : α → α → Int} {p : α} {vec out : List α} {l u : Nat}
    (h : PartInv cmp p vec out l ((u : Int) - 1) u) :
    out = out.take l ++ ((out.drop l).take (u - l) ++ out.drop u) := by
  have hb := h.bounds
  conv_lhs => rw [← List.take_append_drop l out]
  congr 1
  conv_lhs => rw [← List.take_append_drop (u - l) (out.drop l)]
  congr 1
  rw [List.drop_drop]
  congr 1
  omega

/-! ## Counting lemmas -/

theorem countP_of_forall {β : Type} (P : β → Bool) (s : List β) (h : ∀ y ∈ s, P y = true) :
    s.countP P = s.length := List.countP_eq_length.mpr h

theorem countP_of_forall_not {β : Type} (P : β → Bool) (s : List β)
    (h : ∀ y ∈ s, P y = false) : s.countP P = 0 := by
  rw [List.countP_eq_zero]
  intro y hy
  simp [h y hy]

theorem prv__select_unfold (cmp : α → α → Int) (fuel : Nat) (vec : List α) (k : Nat)
    (hne : vec ≠ []) (hlen : vec.length ≠ 1) :
    ∃ (p : α) (out : List α) (l u : Nat), p ∈ vec ∧
      PartInv cmp p vec out l ((u : Int) - 1) u ∧
      prv__select cmp (fuel + 1) vec k =
        if k ≤ l then
          (prv__select cmp fuel (out.take l) k).bind fun r =>
            some (r.1 ++ out.drop l, r.2)
        else if k - l ≤ u - l then some (out, l)
        else
          (prv__select cmp fuel ((out.drop u).take (vec.length - (u - l) - l))
            (k - l - (u - l))).bind fun r =>
              some (out.take u ++ r.1 ++ out.drop (u + (vec.length - (u - l) - l)), u + r.2) := by
  obtain ⟨i, hi, hil⟩ := sort_pivot_spec cmp vec hne
  obtain ⟨out, l, u, hpart, hinv⟩ := sort_partition_spec cmp vec[i] vec
  refine ⟨vec[i], out, l, u, List.getElem_mem _, hinv, ?_⟩
  rw [prv__select.eq_2, if_neg hlen]
  simp only [select_pivot_eq, select_partition_eq, hi, List.getElem?_eq_getElem hil, hpart,
    Option.bind_eq_bind, Option.some_bind, Option.pure_def]

theorem prv__select_single (cmp : α → α → Int) (hv : ValidCmp cmp) (fuel : Nat)
    (vec : List α) (k : Nat) (hk1 : 1 ≤ k) (hk2 : k ≤ vec.length) (hlen : vec.length = 1) :
    ∃ (out : List α) (ret : Nat) (x : α), prv__select cmp fuel vec k = some (out, ret) ∧
      out.Perm vec ∧ out[ret]? = some x ∧ rank_lt cmp x vec < k ∧ k ≤ rank_le cmp x vec := by
  match vec, hlen, hk2 with
  | [a], _, hk2 =>
    have hk : k = 1 := by simp at hk2; omega
    subst hk
    refine ⟨[a], 0, a, ?_, List.Perm.refl _, rfl, ?_, ?_⟩
    · cases fuel <;> simp [prv__select]
    · simp only [rank_lt, List.countP_cons, List.countP_nil, hv.refl]
      simp
    · simp only [rank_le, List.countP_cons, List.countP_nil, hv.refl]
      simp

theorem rank_lt_split (cmp : α → α → Int) {p : α} {vec out : List α} {l u : Nat}
    (h : PartInv cmp p vec out l ((u : Int) - 1) u) (x : α) :
    rank_lt cmp x vec = rank_lt cmp x (out.take l) +
      (rank_lt cmp x ((out.drop l).take (u - l)) + rank_lt cmp x (out.drop u)) := by
  unfold rank_lt
  rw [← h.perm.countP_eq]
  conv_lhs => rw [h.split]
  simp only [List.countP_append]

theorem rank_le_split (cmp : α → α → Int) {p : α} {vec out : List α} {l u : Nat}
    (h : PartInv cmp p vec out l ((u : Int) - 1) u) (x : α) :
    rank_le cmp x vec = rank_le cmp x (out.take l) +
      (rank_le cmp x ((out.drop l).take (u - l)) + rank_le cmp x (out.drop u)) := by
  unfold rank_le
  rw [← h.perm.countP_eq]
  conv_lhs => rw [h.split]
  simp only [List.countP_append]

theorem rank_lt_le_length (cmp : α → α → Int) (x : α) (v : List α) :
    rank_lt cmp x v ≤ v.length := List.countP_le_length _

theorem rank_lt_all (cmp : α → α → Int) (x : α) (v : List α) (h : ∀ y ∈ v, cmp y x < 0) :
    rank_lt cmp x v = v.length :=
  countP_of_forall _ v (fun y hy => by simpa using h y hy)

theorem rank_le_all (cmp : α → α → Int) (x : α) (v : List α) (h : ∀ y ∈ v, cmp y x ≤ 0) :
    rank_le cmp x v = v.length :=
  countP_of_forall _ v (fun y hy => by simpa using h y hy)

theorem rank_lt_none (cmp : α → α → Int) (x : α) (v : List α) (h : ∀ y ∈ v, ¬ cmp y x < 0) :
    rank_lt cmp x v = 0 :=
  countP_of_forall_not _ v (fun y hy => by simpa using h y hy)

theorem rank_le_none (cmp : α → α → Int) (x : α) (v : List α) (h : ∀ y ∈ v, ¬ cmp y x ≤ 0) :
    rank_le cmp x v = 0 :=
  countP_of_forall_not _ v (fun y hy => by simpa using h y hy)

theorem prv__select_spec (cmp : α → α → Int) (hv : ValidCmp cmp) :
    ∀ (fuel : Nat) (vec : List α) (k : Nat), 1 ≤ k → k ≤ vec.length → vec.length ≤ fuel + 1 →
      ∃ (out : List α) (ret : Nat) (x : α), prv__select cmp fuel vec k = some (out, ret) ∧
        out.Perm vec ∧ out[ret]? = some x ∧ rank_lt cmp x vec < k ∧ k ≤ rank_le cmp x vec := by
  intro fuel
  induction fuel with
  | zero =>
    intro vec k hk1 hk2 hf
    exact prv__select_single cmp hv 0 vec k hk1 hk2 (by omega)
  | succ fuel ih =>
    intro vec k hk1 hk2 hf
    by_cases hlen : vec.length = 1
    · exact prv__select_single cmp hv _ vec k hk1 hk2 hlen
    · have hne : vec ≠ [] := by
        intro h
        simp only [h, List.length_nil] at hk2
        omega
      obtain ⟨p, out, l, u, hp, hinv, heq⟩ := prv__select_unfold cmp fuel vec k hne hlen
      obtain ⟨hlu, hul, hol⟩ := hinv.bounds
      have hmid := hinv.mid_nonempty hp (hv.refl p)
      have hL := hinv.mem_less
      have hM := hinv.mem_equal
      have hU := hinv.mem_greater
      have hLlen : (out.take l).length = l := by simp; omega
      have hMlen : ((out.drop l).take (u - l)).length = u - l := by simp; omega
      have hUlen : (out.drop u).length = vec.length - u := by simp; omega
      rw [heq]
      by_cases hk : k ≤ l
      · rw [if_pos hk]
        obtain ⟨lo, ret, x, hsel, hperm, hget, h1, h2⟩ :=
          ih (out.take l) k hk1 (by omega) (by omega)
        have hret : ret < lo.length := (List.getElem?_eq_some_iff.mp hget).1
        have hxp : cmp x p < 0 := hL x (hperm.subset (List.mem_iff_getElem?.mpr ⟨ret, hget⟩))
        have eM1 : rank_lt cmp x ((out.drop l).take (u - l)) = 0 :=
          rank_lt_none cmp x _ (fun y hy hc => by
            have := hv.lt_of_lt_of_le hc (le_of_lt hxp)
            have := hM y hy
            omega)
        have eU1 : rank_lt cmp x (out.drop u) = 0 :=
          rank_lt_none cmp x _ (fun y hy hc => by
            have := hv.lt_of_lt_of_le hc (le_of_lt hxp)
            have := hU y hy
            omega)
        have eM2 : rank_le cmp x ((out.drop l).take (u - l)) = 0 :=
          rank_le_none cmp x _ (fun y hy hc => by
            have := hv.lt_of_le_of_lt hc hxp
            have := hM y hy
            omega)
        have eU2 : rank_le cmp x (out.drop u) = 0 :=
          rank_le_none cmp x _ (fun y hy hc => by
            have := hv.lt_of_le_of_lt hc hxp
            have := hU y hy
            omega)
        refine ⟨lo ++ out.drop l, ret, x, by simp [hsel], ?_, ?_, ?_, ?_⟩
        · have := List.Perm.append_right (out.drop l) hperm
          rw [List.take_append_drop] at this
          exact this.trans hinv.perm
        · rw [List.getElem?_append_left hret]; exact hget
        · rw [rank_lt_split cmp hinv, eM1, eU1]; omega
        · rw [rank_le_split cmp hinv, eM2, eU2]; omega
      · rw [if_neg hk]
        by_cases hk3 : k - l ≤ u - l
        · rw [if_pos hk3]
          have hlo : l < out.length := by omega
          have hget : out[l]? = some out[l] := List.getElem?_eq_getElem hlo
          have hxp : cmp out[l] p = 0 := hinv.equal l _ hget (le_refl _) hmid
          have hpx : cmp p out[l] = 0 := hv.eq_symm hxp
          have eM1 : rank_lt cmp out[l] ((out.drop l).take (u - l)) = 0 :=
            rank_lt_none cmp _ _ (fun y hy hc => by
              have := hv.lt_of_lt_of_le hc (le_of_eq hxp)
              have := hM y hy
              omega)
          have eU1 : rank_lt cmp out[l] (out.drop u) = 0 :=
            rank_lt_none cmp _ _ (fun y hy hc => by
              have := hv.lt_of_lt_of_le hc (le_of_eq hxp)
              have := hU y hy
              omega)
          have eL2 : rank_le cmp out[l] (out.take l) = l := by
            rw [rank_le_all cmp _ _ (fun y hy =>
              hv.trans y p _ (le_of_lt (hL y hy)) (le_of_eq hpx)), hLlen]
          have eM2 : rank_le cmp out[l] ((out.drop l).take (u - l)) = u - l := by
            rw [rank_le_all cmp _ _ (fun y hy =>
              hv.trans y p _ (le_of_eq (hM y hy)) (le_of_eq hpx)), hMlen]
          refine ⟨out, l, out[l], rfl, hinv.perm, hget, ?_, ?_⟩
          · rw [rank_lt_split cmp hinv, eM1, eU1]
            have := rank_lt_le_length cmp out[l] (out.take l)
            omega
          · rw [rank_le_split cmp hinv, eL2, eM2]; omega
        · rw [if_neg hk3]
          have htake : (out.drop u).take (vec.length - (u - l) - l) = out.drop u := by
            apply List.take_of_length_le; omega
          have hnil : out.drop (u + (vec.length - (u - l) - l)) = [] := by
            apply List.drop_of_length_le; omega
          rw [htake, hnil]
          obtain ⟨up, ret, x, hsel, hperm, hget, h1, h2⟩ :=
            ih (out.drop u) (k - l - (u - l)) (by omega) (by omega) (by omega)
          have hxp : cmp p x < 0 :=
            (hv.pos_iff x p).mp (hU x (hperm.subset (List.mem_iff_getElem?.mpr ⟨ret, hget⟩)))
          have eL1 : rank_lt cmp x (out.take l) = l := by
            rw [rank_lt_all cmp _ _ (fun y hy =>
              hv.lt_of_le_of_lt (le_of_lt (hL y hy)) hxp), hLlen]
          have eM1 : rank_lt cmp x ((out.drop l).take (u - l)) = u - l := by
            rw [rank_lt_all cmp _ _ (fun y hy =>
              hv.lt_of_le_of_lt (le_of_eq (hM y hy)) hxp), hMlen]
          have eL2 : rank_le cmp x (out.take l) = l := by
            rw [rank_le_all cmp _ _ (fun y hy =>
              le_of_lt (hv.lt_of_le_of_lt (le_of_lt (hL y hy)) hxp)), hLlen]
          have eM2 : rank_le cmp x ((out.drop l).take (u - l)) = u - l := by
            rw [rank_le_all cmp _ _ (fun y hy =>
              le_of_lt (hv.lt_of_le_of_lt (le_of_eq (hM y hy)) hxp)), hMlen]
          refine ⟨out.take u ++ up ++ [], u + ret, x, by simp [hsel], ?_, ?_, ?_, ?_⟩
          · rw [List.append_nil]
            have := List.Perm.append_left (out.take u) hperm
            rw [List.take_append_drop] at this
            exact this.trans hinv.perm
          · rw [List.append_nil, List.getElem?_append_right (by simp)]
            rw [← hget]
            congr 1
            simp; omega
          · rw [rank_lt_split cmp hinv, eL1, eM1]; omega
          · rw [rank_le_split cmp hinv, eL2, eM2]; omega

theorem prv__select_fuel_succ (cmp : α → α → Int) :
    ∀ (fuel : Nat) (vec : List α) (k : Nat) (r : List α × Nat),
      prv__select cmp fuel vec k = some r → prv__select cmp (fuel + 1) vec k = some r := by
  intro fuel
  induction fuel with
  | zero =>
    intro vec k r h
    rw [prv__select.eq_1] at h
    rw [prv__select.eq_2]
    split_ifs at h ⊢ with hl
    exact h
  | succ fuel ih =>
    intro vec k r h
    rw [prv__select.eq_2] at h
    rw [prv__select.eq_2]
    split_ifs at h ⊢ with hl
    · exact h
    · simp only [Option.bind_eq_bind, Option.bind_eq_some, Option.pure_def] at h ⊢
      obtain ⟨i, hi, p, hp, ⟨v1, l, u⟩, hpart, h⟩ := h
      refine ⟨i, hi, p, hp, (v1, l, u), hpart, ?_⟩
      simp only at h ⊢
      split_ifs at h ⊢ with h1 h2
      · simp only [Option.bind_eq_some] at h ⊢
        obtain ⟨a, ha, h⟩ := h
        exact ⟨a, ih _ _ _ ha, h⟩
      · exact h
      · simp only [Option.bind_eq_some] at h ⊢
        obtain ⟨a, ha, h⟩ := h
        exact ⟨a, ih _ _ _ ha, h⟩

theorem prv__select_fuel_mono (cmp : α → α → Int) (fuel fuel1 : Nat) (vec : List α) (k : Nat)
    (r : List α × Nat) (h : prv__select cmp fuel vec k = some r) (hle : fuel ≤ fuel1) :
    prv__select cmp fuel1 vec k = some r := by
  induction hle with
  | refl => exact h
  | step _ ih => exact prv__select_fuel_succ cmp _ vec k r ih

/-! ## Rank of a record and its position in a sorted sequence -/

theorem NonDecreasing.le_of_le {cmp : α → α → Int} (hv : ValidCmp cmp) {s : List α}
    (hs : NonDecreasing cmp s) :
    ∀ (d i : Nat) (x y : α), s[i]? = some x → s[i + d]? = some y → cmp x y ≤ 0 := by
  intro d
  induction d with
  | zero =>
    intro i x y hx hy
    rw [Nat.add_zero, hx] at hy
    cases hy
    exact le_of_eq (hv.refl x)
  | succ d ih =>
    intro i x y hx hy
    have hlt : i + d < s.length := by
      have := (List.getElem?_eq_some_iff.mp hy).1
      omega
    have hz : s[i + d]? = some s[i + d] := List.getElem?_eq_getElem hlt
    exact hv.trans x _ y (ih i x _ hx hz) (hs (i + d) _ y hz hy)

theorem le_countP_of_prefix {β : Type} (P : β → Bool) (s : List β) (k : Nat)
    (hk : k ≤ s.length) (h : ∀ (i : Nat) (z : β), i < k → s[i]? = some z → P z = true) :
    k ≤ s.countP P := by
  have h1 : (s.take k).countP P = (s.take k).length := by
    apply countP_of_forall
    intro z hz
    obtain ⟨i, hi⟩ := List.mem_iff_getElem?.mp hz
    rw [List.getElem?_take] at hi
    split_ifs at hi with hlt
    exact h i z hlt hi
  have h2 : s.countP P = (s.take k).countP P + (s.drop k).countP P := by
    rw [← List.countP_append, List.take_append_drop]
  rw [h2, h1, List.length_take]
  omega

theorem countP_le_of_suffix {β : Type} (P : β → Bool) (s : List β) (m : Nat)
    (h : ∀ (i : Nat) (z : β), m ≤ i → s[i]? = some z → P z = false) :
    s.countP P ≤ m := by
  have h1 : (s.drop m).countP P = 0 := by
    apply countP_of_forall_not
    intro z hz
    obtain ⟨i, hi⟩ := List.mem_iff_getElem?.mp hz
    rw [List.getElem?_drop] at hi
    exact h (m + i) z (by omega) hi
  have h2 : s.countP P = (s.take m).countP P + (s.drop m).countP P := by
    rw [← List.countP_append, List.take_append_drop]
  have h3 : (s.take m).countP P ≤ (s.take m).length := List.countP_le_length _
  rw [h2, h1]
  rw [List.length_take] at h3
  omega

theorem rank_position (cmp : α → α → Int) (hv : ValidCmp cmp) (s vec : List α) (x y : α)
    (k : Nat) (hs : SortedOf cmp s vec) (hk : 1 ≤ k) (h1 : rank_lt cmp x vec < k)
    (h2 : k ≤ rank_le cmp x vec) (hy : s[k - 1]? = some y) : cmp x y = 0 := by
  obtain ⟨hperm, hnd⟩ := hs
  have hklen : k - 1 < s.length := (List.getElem?_eq_some_iff.mp hy).1
  have e1 : rank_lt cmp x vec = rank_lt cmp x s := (hperm.countP_eq _).symm
  have e2 : rank_le cmp x vec = rank_le cmp x s := (hperm.countP_eq _).symm
  rw [e1] at h1
  rw [e2] at h2
  by_cases hlt : cmp y x < 0
  · exfalso
    have : k ≤ rank_lt cmp x s := by
      apply le_countP_of_prefix _ s k (by omega)
      intro i z hi hz
      have hzy : cmp z y ≤ 0 :=
        hnd.le_of_le hv (k - 1 - i) i z y hz (by rw [← hy]; congr 1; omega)
      simpa using hv.lt_of_le_of_lt hzy hlt
    omega
  · by_cases hgt : 0 < cmp y x
    · exfalso
      have hxy : cmp x y < 0 := (hv.pos_iff y x).mp hgt
      have : rank_le cmp x s ≤ k - 1 := by
        apply countP_le_of_suffix _ s (k - 1)
        intro i z hi hz
        have hyz : cmp y z ≤ 0 :=
          hnd.le_of_le hv (i - (k - 1)) (k - 1) y z hy (by rw [← hz]; congr 1; omega)
        have hxz : cmp x z < 0 := hv.lt_of_lt_of_le hxy hyz
        have hzx : 0 < cmp z x := (hv.antisymm x z).mp hxz
        simpa using hzx
      omega
    · exact hv.eq_symm (by omega)

theorem select_spec (cmp : α → α → Int) (hv : ValidCmp cmp) (vec : List α) (k : Nat)
    (hk1 : 1 ≤ k) (hk2 : k ≤ vec.length) :
    ∃ (out : List α) (ret : Nat) (x : α),
      (∀ fuel, vec.length ≤ fuel + 1 → select cmp fuel vec k = some (out, ret)) ∧
      out.Perm vec ∧ out[ret]? = some x ∧ rank_lt cmp x vec < k ∧ k ≤ rank_le cmp x vec := by
  obtain ⟨out, ret, x, h, hperm, hget, h1, h2⟩ :=
    prv__select_spec cmp hv (vec.length - 1) vec k hk1 hk2 (by omega)
  refine ⟨out, ret, x, ?_, hperm, hget, h1, h2⟩
  intro fuel hf
  exact prv__select_fuel_mono cmp _ fuel vec k _ h (by omega)

theorem sortedOf_exists (cmp : α → α → Int) (hv : ValidCmp cmp) (vec : List α) :
    ∃ s, SortedOf cmp s vec := by
  haveI : IsTotal α (fun a b => cmp a b ≤ 0) := ⟨fun a b => by
    by_cases h : cmp a b ≤ 0
    · exact Or.inl h
    · right
      have := (hv.pos_iff a b).mp (by omega)
      omega⟩
  haveI : IsTrans α (fun a b => cmp a b ≤ 0) := ⟨fun a b c => hv.trans a b c⟩
  refine ⟨vec.insertionSort (fun a b => cmp a b ≤ 0), List.perm_insertionSort _ _, ?_⟩
  have hs := List.sorted_insertionSort (fun a b => cmp a b ≤ 0) vec
  intro i x y hx hy
  obtain ⟨hi, rfl⟩ := List.getElem?_eq_some_iff.mp hx
  obtain ⟨hj, rfl⟩ := List.getElem?_eq_some_iff.mp hy
  exact List.pairwise_iff_getElem.mp hs i (i + 1) hi hj (by omega)

theorem prv__select_nil (cmp : α → α → Int) (fuel k : Nat) :
    prv__select cmp fuel ([] : List α) k = none := by
  cases fuel with
  | zero => simp [prv__select]
  | succ fuel => simp [prv__select, select_pivot]

theorem select_pair_zero_none :
    ∀ fuel : Nat, select (std_cmp : Int → Int → Int) fuel [5, 5] 0 = none := by
  intro fuel
  cases fuel with
  | zero => decide
  | succ fuel =>
    have hp : select_pivot (std_cmp : Int → Int → Int) [5, 5] = some 1 := by decide
    have hq : select_partition (std_cmp : Int → Int → Int) 5 [5, 5] = some ([5, 5], 0, 2) := by
      decide
    have hb : ([5, 5] : List Int)[1]? = some 5 := by decide
    rw [select, prv__select.eq_2, if_neg (by decide)]
    simp only [hp, hb, hq, Option.bind_eq_bind, Option.some_bind]
    simp [prv__select_nil]

theorem select_pair_one : ∀ fuel : Nat, 1 ≤ fuel →
    select (std_cmp : Int → Int → Int) fuel [1, 2] 1 = some ([1, 2], 0) := by
  intro fuel hf
  exact prv__select_fuel_mono std_cmp 1 fuel [1, 2] 1 _ (by decide) hf

theorem sortedOf_pair : SortedOf (std_cmp : Int → Int → Int) [1, 2] [1, 2] := by
  refine ⟨List.Perm.refl _, ?_⟩
  intro i x y hx hy
  match i, hx, hy with
  | 0, hx, hy =>
    simp only [List.getElem?_cons_zero, List.getElem?_cons_succ, Option.some.injEq] at hx hy
    subst hx hy
    decide
  | i + 1, hx, hy => simp at hy

/-- C3 (counterexample): on the two records `[1, 2]` with `k = 1`, `select` returns the
record `1`, whereas the record at 0-indexed position `1` of the sorted sequence `[1, 2]` is
`2`, which does not compare equal to it; and on `[5, 5]` with `k = 0` `select` returns no
record at all, whatever recursion depth is allowed. -/
theorem select_zero_indexed_counterexample :
    (¬ ∃ (fuel : Nat) (out : List Int) (ret : Nat) (x : Int),
        select std_cmp fuel [1, 2] 1 = some (out, ret) ∧ out[ret]? = some x ∧
        ∀ (s : List Int) (y : Int), SortedOf std_cmp s [1, 2] → s[1]? = some y →
          std_cmp x y = 0) ∧
    (¬ ∃ (fuel : Nat) (r : List Int × Nat), select std_cmp fuel [5, 5] 0 = some r) := by
  constructor
  · rintro ⟨fuel, out, ret, x, hsel, hget, h⟩
    cases fuel with
    | zero =>
      have h0 : select (std_cmp : Int → Int → Int) 0 [1, 2] 1 = none := by decide
      rw [h0] at hsel
      exact Option.noConfusion hsel
    | succ fuel =>
      rw [select_pair_one (fuel + 1) (by omega)] at hsel
      simp only [Option.some.injEq, Prod.mk.injEq] at hsel
      obtain ⟨rfl, rfl⟩ := hsel
      simp only [List.getElem?_cons_zero, Option.some.injEq] at hget
      subst hget
      have := h [1, 2] 2 sortedOf_pair (by decide)
      revert this
      decide
  · rintro ⟨fuel, r, h⟩
    rw [select_pair_zero_none fuel] at h
    exact Option.noConfusion h

/-- C3 (amended): for every record sequence, every valid total-order comparator and every
`k` with `1 ≤ k ≤ len` (so the sequence is non-empty), `select` returns (any recursion depth
`fuel ≥ len - 1` yields the same result) a record `x` that compares equal (`cmp = 0`) to the
record at 0-indexed position `k - 1` of every fully sorted sequence of the input; such a
sorted sequence exists. -/
theorem select_rank (cmp : α → α → Int) (vec : List α) (k : Nat) (hv : ValidCmp cmp)
    (hk1 : 1 ≤ k) (hk2 : k ≤ vec.length) :
    ∃ (out : List α) (ret : Nat) (x : α),
      (∀ fuel, vec.length ≤ fuel + 1 → select cmp fuel vec k = some (out, ret)) ∧
      out[ret]? = some x ∧
      (∀ (s : List α) (y : α), SortedOf cmp s vec → s[k - 1]? = some y → cmp x y = 0) ∧
      ∃ s, SortedOf cmp s vec := by
  obtain ⟨out, ret, x, h, _, hget, h1, h2⟩ := select_spec cmp hv vec k hk1 hk2
  exact ⟨out, ret, x, h, hget,
    fun s y hs hy => rank_position cmp hv s vec x y k hs hk1 h1 h2 hy, sortedOf_exists cmp hv vec⟩

/-- Witness for `select_rank`: the integer comparator on `[1, 2]` with `k = 1`. -/
theorem select_rank_witness :
    ∃ (out : List Int) (ret : Nat) (x : Int),
      (∀ fuel, [1, 2].length ≤ fuel + 1 → select std_cmp fuel [1, 2] 1 = some (out, ret)) ∧
      out[ret]? = some x ∧
      (∀ (s : List Int) (y : Int), SortedOf std_cmp s [1, 2] → s[1 - 1]? = some y →
        std_cmp x y = 0) ∧
      ∃ s : List Int, SortedOf std_cmp s [1, 2] :=
  select_rank std_cmp [1, 2] 1 std_cmp_valid (by decide) (by decide)

/-! ## The gram comparator -/

theorem first_diff_self (a : List Nat) : first_diff a a = 0 := by
  induction a with
  | nil => rfl
  | cons x a ih => simp [first_diff, ih]

theorem first_diff_append (a b a1 b1 : List Nat) (h : a.length = b.length) :
    first_diff (a ++ a1) (b ++ b1) = if a = b then first_diff a1 b1 else first_diff a b := by
  induction a generalizing b with
  | nil =>
    cases b with
    | nil => simp
    | cons y b => simp at h
  | cons x a ih =>
    cases b with
    | nil => simp at h
    | cons y b =>
      simp only [List.length_cons, Nat.add_right_cancel_iff] at h
      simp only [List.cons_append, first_diff, List.cons.injEq]
      by_cases hxy : x = y
      · simp only [hxy, if_true, true_and]
        exact ih b h
      · simp [hxy]

theorem getD_binary (image : image_t) (hb : binary_image image) (idx : Nat) :
    image.bitboard.getD idx 0 = 0 ∨ image.bitboard.getD idx 0 = 1 := by
  by_cases h : idx < image.bitboard.length
  · rw [List.getD_eq_getElem _ _ h]
    exact hb _ (List.getElem_mem h)
  · left
    exact List.getD_eq_default _ _ (by omega)

theorem range_succ_map {β : Type} (f : Nat → β) (n : Nat) :
    (List.range (n + 1)).map f = f 0 :: (List.range n).map (fun t => f (t + 1)) := by
  rw [List.range_succ_eq_map, List.map_cons, List.map_map]
  rfl

theorem range_succ_flatMap {β : Type} (f : Nat → List β) (n : Nat) :
    (List.range (n + 1)).flatMap f = f 0 ++ (List.range n).flatMap (fun t => f (t + 1)) := by
  rw [List.range_succ_eq_map, List.flatMap_cons, List.flatMap_map]

theorem cmp_row_spec (image : image_t) (hb : binary_image image) :
    ∀ (n ci cj : Nat),
      cmp_row image.bitboard n ci cj =
        if (List.range n).map (fun c => image.bitboard.getD (ci + c) 0) =
            (List.range n).map (fun c => image.bitboard.getD (cj + c) 0) then none
        else some (first_diff ((List.range n).map (fun c => image.bitboard.getD (ci + c) 0))
            ((List.range n).map (fun c => image.bitboard.getD (cj + c) 0))) := by
  intro n
  induction n with
  | zero => intro ci cj; simp [cmp_row]
  | succ n ih =>
    intro ci cj
    have e : ∀ c : Nat, (fun t => image.bitboard.getD (c + (t + 1)) 0) =
        fun t => image.bitboard.getD (c + 1 + t) 0 := by
      intro c; funext t; congr 1; omega
    rw [cmp_row, ih]
    simp only [range_succ_map, Nat.add_zero, first_diff, List.cons.injEq, e]
    rcases getD_binary image hb ci with h1 | h1 <;> rcases getD_binary image hb cj with h2 | h2 <;>
      simp only [h1, h2] <;> simp

theorem cmp_rows_spec (G : Nat) (image : image_t) (hb : binary_image image)
    (hG : G ≤ image.width) :
    ∀ (r ci cj : Nat),
      cmp_rows G image r ci cj =
        first_diff
          ((List.range r).flatMap fun t =>
            (List.range G).map fun c => image.bitboard.getD (ci + t * image.width + c) 0)
          ((List.range r).flatMap fun t =>
            (List.range G).map fun c => image.bitboard.getD (cj + t * image.width + c) 0) := by
  intro r
  induction r with
  | zero => intro ci cj; simp [cmp_rows, first_diff]
  | succ r ih =>
    intro ci cj
    have e : ∀ c : Nat,
        (fun t => (List.range G).map fun k =>
          image.bitboard.getD (c + G + (image.width - G) + t * image.width + k) 0) =
        fun t => (List.range G).map fun k =>
          image.bitboard.getD (c + (t + 1) * image.width + k) 0 := by
      intro c; funext t; congr 1; funext k; congr 1
      rw [Nat.add_mul]
      omega
    rw [cmp_rows, cmp_row_spec image hb, ih]
    simp only [range_succ_flatMap, Nat.zero_mul, Nat.add_zero, e]
    rw [first_diff_append _ _ _ _ (by simp)]
    split_ifs <;> rfl

theorem cmp_rows_window (G : Nat) (image : image_t) (hb : binary_image image)
    (hG : G ≤ image.width) (i j : Nat) :
    cmp_rows G image G i j = first_diff (gram_window G image i) (gram_window G image j) := by
  rw [cmp_rows_spec G image hb hG]
  rfl

theorem cmp_eq_cmp_ref_aux (G : Nat) (image : image_t) (hb : binary_image image) (i j : Nat) :
    cmp G image i j = cmp_ref G image i j := by
  unfold cmp cmp_ref gram_valid
  simp only
  by_cases hi : i / image.width + G > image.height ∨ i % image.width + G > image.width
  · have hi2 : ¬ (i / image.width + G ≤ image.height ∧ i % image.width + G ≤ image.width) := by
      omega
    rw [if_pos hi, if_pos hi2]
    by_cases hj : j / image.width + G > image.height ∨ j % image.width + G > image.width
    · have hj2 : ¬ (j / image.width + G ≤ image.height ∧ j % image.width + G ≤ image.width) := by
        omega
      rw [if_pos hj, if_pos hj2]
    · have hj2 : ¬ ¬ (j / image.width + G ≤ image.height ∧ j % image.width + G ≤ image.width) := by
        omega
      rw [if_neg hj, if_neg hj2]
  · have hi2 : ¬ ¬ (i / image.width + G ≤ image.height ∧ i % image.width + G ≤ image.width) := by
      omega
    rw [if_neg hi, if_neg hi2]
    by_cases hj : j / image.width + G > image.height ∨ j % image.width + G > image.width
    · have hj2 : ¬ (j / image.width + G ≤ image.height ∧ j % image.width + G ≤ image.width) := by
        omega
      rw [if_pos hj, if_pos hj2]
    · have hj2 : ¬ ¬ (j / image.width + G ≤ image.height ∧ j % image.width + G ≤ image.width) := by
        omega
      rw [if_neg hj, if_neg hj2, cmp_rows_window G image hb (by omega)]
      split_ifs with h
      · rw [h, first_diff_self]
      · rfl

theorem first_diff_eq_zero (a b : List Nat) (h : a.length = b.length)
    (h0 : first_diff a b = 0) : a = b := by
  induction a generalizing b with
  | nil =>
    cases b with
    | nil => rfl
    | cons y b => simp at h
  | cons x a ih =>
    cases b with
    | nil => simp at h
    | cons y b =>
      simp only [List.length_cons, Nat.add_right_cancel_iff] at h
      simp only [first_diff] at h0
      split_ifs at h0 with h1 h2
      · rw [h1, ih b h h0]
      · omega

theorem gram_window_length (G : Nat) (image : image_t) (p : Nat) :
    (gram_window G image p).length = G * G := by
  simp [gram_window, gram_row, List.length_flatMap, Function.comp_def]

/-- C5: for every binary image, gram size `G` and pixel indices `i`, `j`, the gram comparator
`cmp` equals the reference three-way comparison `cmp_ref` (invalid anchors compare equal
to each other and strictly greater than every valid anchor; two valid anchors are ordered by
the first differing cell of their windows, row-major, with `0 < 1`); in particular two
valid anchors compare equal iff their windows are cell-wise identical. -/
theorem cmp_eq_cmp_ref (G : Nat) (image : image_t) (i j : Nat) (hb : binary_image image) :
    cmp G image i j = cmp_ref G image i j ∧
      (gram_valid G image i → gram_valid G image j →
        (cmp G image i j = 0 ↔ gram_window G image i = gram_window G image j)) := by
  refine ⟨cmp_eq_cmp_ref_aux G image hb i j, ?_⟩
  intro hi hj
  rw [cmp_eq_cmp_ref_aux G image hb i j]
  unfold cmp_ref
  rw [if_neg (not_not.mpr hi), if_neg (not_not.mpr hj)]
  constructor
  · intro h
    split_ifs at h with h1
    · exact h1
    · exact first_diff_eq_zero _ _ (by simp [gram_window_length]) h
  · intro h
    rw [if_pos h]

/-- Witness for `cmp_eq_cmp_ref`: a `3 × 3` binary image with `G = 2`. -/
theorem cmp_eq_cmp_ref_witness :
    binary_image { bitboard := [1, 1, 0, 0, 1, 0, 0, 1, 0], width := 3, height := 3 } ∧
    (cmp 2 { bitboard := [1, 1, 0, 0, 1, 0, 0, 1, 0], width := 3, height := 3 } 1 4 =
        cmp_ref 2 { bitboard := [1, 1, 0, 0, 1, 0, 0, 1, 0], width := 3, height := 3 } 1 4 ∧
      (gram_valid 2 { bitboard := [1, 1, 0, 0, 1, 0, 0, 1, 0], width := 3, height := 3 } 1 →
        gram_valid 2 { bitboard := [1, 1, 0, 0, 1, 0, 0, 1, 0], width := 3, height := 3 } 4 →
        (cmp 2 { bitboard := [1, 1, 0, 0, 1, 0, 0, 1, 0], width := 3, height := 3 } 1 4 = 0 ↔
          gram_window 2 { bitboard := [1, 1, 0, 0, 1, 0, 0, 1, 0], width := 3, height := 3 } 1 =
          gram_window 2
            { bitboard := [1, 1, 0, 0, 1, 0, 0, 1, 0], width := 3, height := 3 } 4))) :=
  ⟨by decide,
    cmp_eq_cmp_ref 2 { bitboard := [1, 1, 0, 0, 1, 0, 0, 1, 0], width := 3, height := 3 } 1 4
      (by decide)⟩

/-! ## The pipeline on the `8 × 8` image with two dark pixels, `G = 6`

The threshold is `1`, so the bitboard has zeros exactly at the pixels `2` and `17`.  The
nine valid anchors are `0, 1, 2, 8, 9, 10, 16, 17, 18`; the anchors `10` and `18` carry the
all-ones window, the anchors `2` and `17` share a window as well. -/

theorem synth_walk_project (G : Nat) (image : image_t) (index_matrix : List Nat)
    (n fuel : Nat) (s0 : walk_t) (size_list : Nat) (recurrence : List Nat)
    (h : (synth_walk G image index_matrix n fuel s0).map
      (fun r => (r.1, r.2.size_list, r.2.recurrence)) = some (0, size_list, recurrence)) :
    ∃ s, synth_walk G image index_matrix n fuel s0 = some (0, s) ∧
      s.size_list = size_list ∧ s.recurrence = recurrence := by
  cases hw : synth_walk G image index_matrix n fuel s0 with
  | none => rw [hw] at h; exact Option.noConfusion h
  | some r =>
    obtain ⟨err, s⟩ := r
    rw [hw] at h
    simp only [Option.map_some', Option.some.injEq, Prod.mk.injEq] at h
    obtain ⟨rfl, rfl, rfl⟩ := h
    exact ⟨s, rfl, rfl, rfl⟩

theorem synth_analysis_map (G : Nat) (image : image_t) (fuel : Nat) (index_matrix : List Nat)
    (size_list : Nat) (recurrence : List Nat)
    (hsort : sort (cmp G image) fuel (List.range (image.width * image.height)) =
      some index_matrix)
    (hwalk : (synth_walk G image index_matrix (image.width * image.height)
        (image.width * image.height)
        { i := 0, size_list := 0, my_list := empty_vec,
          recurrence := List.replicate
            (((image.width : Int) - 1 + G) * ((image.height : Int) - 1 + G)).toNat 0 }).map
      (fun r => (r.1, r.2.size_list, r.2.recurrence)) = some (0, size_list, recurrence)) :
    (synth_analysis G image fuel).map (fun t => t.recurrence_map) =
      synth_map index_matrix recurrence size_list 0 0
        (List.replicate (image.width * image.height) 0) := by
  obtain ⟨s, hs, rfl, rfl⟩ := synth_walk_project _ _ _ _ _ _ _ _ hwalk
  simp only [synth_analysis, hsort, hs, Option.bind_eq_bind, Option.some_bind, ne_eq,
    not_true_eq_false, if_false, Option.pure_def]
  cases synth_map index_matrix s.recurrence s.size_list 0 0
    (List.replicate (image.width * image.height) 0) <;> rfl

set_option maxRecDepth 1000000 in
theorem synth_binarize_dark : synth_binarize 64 dark_bright = some (1, dark_bits) := by
  decide

set_option maxRecDepth 1000000 in
theorem sort_dark :
    sort (cmp 6 dark_image) 64 (List.range (dark_image.width * dark_image.height)) =
      some dark_table := by
  decide

set_option maxRecDepth 1000000 in
theorem synth_walk_dark :
    (synth_walk 6 dark_image dark_table (dark_image.width * dark_image.height)
        (dark_image.width * dark_image.height)
        { i := 0, size_list := 0, my_list := empty_vec,
          recurrence := List.replicate
            (((dark_image.width : Int) - 1 + ((6 : Nat) : Int)) *
              ((dark_image.height : Int) - 1 + ((6 : Nat) : Int))).toNat 0 }).map
      (fun r => (r.1, r.2.size_list, r.2.recurrence)) =
    some (0, 8, [2, 1, 1, 1, 1, 1, 1, 1] ++ List.replicate 161 0) := by
  decide

theorem synth_eq {β : Type} [LinearOrder β] (G width height fuel : Nat) (bright : List β)
    (m : β) (bitboard : List Nat) (h : synth_binarize fuel bright = some (m, bitboard)) :
    synth G width height bright fuel =
      synth_analysis G { bitboard := bitboard, width := width, height := height } fuel := by
  simp only [synth, h, Option.bind_eq_bind, Option.some_bind]

set_option maxRecDepth 1000000 in
theorem synth_map_dark_raw :
    synth_map dark_table ([2, 1, 1, 1, 1, 1, 1, 1] ++ List.replicate 161 0) 8 0 0
        (List.replicate (dark_image.width * dark_image.height) 0) =
      some [1 / ((1 : Nat) : ℚ), 1 / ((1 : Nat) : ℚ), 1 / ((2 : Nat) : ℚ), 0, 0, 0, 0, 0,
       1 / ((1 : Nat) : ℚ), 1 / ((1 : Nat) : ℚ), 1 / ((1 : Nat) : ℚ), 0, 0, 0, 0, 0,
       1 / ((1 : Nat) : ℚ), 1 / ((2 : Nat) : ℚ), 1 / ((1 : Nat) : ℚ), 0, 0, 0, 0, 0, 0, 0, 0,
       0, 0, 0, 0, 0, 0, 0, 0, 0, 0, 0, 0, 0, 0, 0, 0, 0, 0, 0, 0, 0, 0, 0, 0, 0, 0, 0, 0, 0,
       0, 0, 0, 0, 0, 0, 0, 0] := by
  rfl

set_option maxRecDepth 1000000 in
theorem synth_map_dark :
    (synth 6 8 8 dark_bright 64).map (fun t => t.recurrence_map) = some dark_map := by
  have h := synth_analysis_map 6 dark_image 64 _ _ _ sort_dark synth_walk_dark
  rw [synth_eq 6 8 8 64 dark_bright 1 dark_bits synth_binarize_dark]
  show (synth_analysis 6 dark_image 64).map (fun t => t.recurrence_map) = some dark_map
  rw [h, synth_map_dark_raw]
  norm_num [dark_map]

set_option maxRecDepth 1000000 in
theorem synth_patterns_dark :
    (synth 6 8 8 dark_bright 64).map
        (fun t => (t.size_list, t.recurrence, (t.my_list.drop (5 * 36)).take 36,
          (t.my_list.drop (7 * 36)).take 36, t.bitboard)) =
      some (8, [2, 1, 1, 1, 1, 1, 1, 1], List.replicate 36 1, List.replicate 36 1,
        dark_bits) := by
  decide

set_option maxRecDepth 1000000 in
theorem recurrence_count_dark :
    recurrence_count 6 dark_image (List.replicate 36 1) = 2 ∧
    gram_valid 6 dark_image 10 ∧
    gram_window 6 dark_image 10 = List.replicate 36 1 := by
  decide

/-! ## The pipeline on a `3 × 3` image with `G = 2`

Rows `1 1 0`, `0 1 0`, `0 1 0`.  The valid anchors are `0, 1, 3, 4`, with windows
`[1,1,0,1]`, `[1,0,1,0]`, `[0,1,0,1]`, `[1,0,1,0]`.  The first partition step leaves the
region `[1, 4, 3]` to the 3-element branch of `prv__sort`, which turns it into `[4, 3, 1]`. -/

theorem sort_three_by_three :
    sort (cmp 2 { bitboard := [1, 1, 0, 0, 1, 0, 0, 1, 0], width := 3, height := 3 }) 9
      (List.range 9) = some [4, 3, 1, 0, 5, 6, 7, 8, 2] := by
  decide

theorem synth_walk_three_by_three :
    synth_walk 2 { bitboard := [1, 1, 0, 0, 1, 0, 0, 1, 0], width := 3, height := 3 }
      [4, 3, 1, 0, 5, 6, 7, 8, 2] 9 9
      { i := 0, size_list := 0, my_list := empty_vec, recurrence := List.replicate 16 0 } =
    some (0, { i := 4, size_list := 4,
               my_list := { array := some [1, 0, 1, 0, 0, 1, 0, 1, 1, 0, 1, 0, 1, 1, 0, 1,
                              0, 0, 0, 0, 0, 0, 0, 0, 0, 0, 0, 0, 0, 0, 0, 0],
                            size := 32 },
               recurrence := [1, 1, 1, 1, 0, 0, 0, 0, 0, 0, 0, 0, 0, 0, 0, 0] }) := by
  decide

/-- C6 (code defect, failing inputs).  (1) Gram size `6`, the `8 × 8` image whose pixels
all have brightness `1` except the pixels `2` and `17` of brightness `0`: the pipeline emits
eight patterns with recurrence counts `2, 1, 1, 1, 1, 1, 1, 1`; the sixth and the eighth
pattern are both the all-ones window, each with count `1`, whereas two valid anchors
(pixels `10` and `18`) carry that window.  (2) Gram size `2`, the `3 × 3` binary image with
rows `1 1 0`, `0 1 0`, `0 1 0`: the pipeline emits four patterns, the window `[1,0,1,0]`
twice (first and third), each with count `1`, whereas two valid anchors (pixels `1` and
`4`) carry that window. -/
theorem synth_pattern_emitted_twice :
    ((synth 6 8 8 dark_bright 64).map
        (fun t => (t.size_list, t.recurrence, (t.my_list.drop (5 * 36)).take 36,
          (t.my_list.drop (7 * 36)).take 36, t.bitboard)) =
        some (8, [2, 1, 1, 1, 1, 1, 1, 1], List.replicate 36 1, List.replicate 36 1,
          dark_bits) ∧
      recurrence_count 6 dark_image (List.replicate 36 1) = 2) ∧
    ((synth_analysis 2
        { bitboard := [1, 1, 0, 0, 1, 0, 0, 1, 0], width := 3, height := 3 } 9).map
      (fun t => (t.size_list, t.my_list, t.recurrence)) =
      some (4, [1, 0, 1, 0, 0, 1, 0, 1, 1, 0, 1, 0, 1, 1, 0, 1], [1, 1, 1, 1]) ∧
    recurrence_count 2
      { bitboard := [1, 1, 0, 0, 1, 0, 0, 1, 0], width := 3, height := 3 } [1, 0, 1, 0] = 2) := by
  refine ⟨⟨synth_patterns_dark, recurrence_count_dark.1⟩, ?_, ?_⟩
  · decide
  · decide

theorem synth_map_three :
    (synth_analysis 2
        { bitboard := [1, 1, 0, 0, 1, 0, 0, 1, 0], width := 3, height := 3 } 9).map
      (fun t => t.recurrence_map) = some [1, 1, 0, 1, 1, 0, 0, 0, 0] := by
  have e : (3 : Nat) * 3 = 9 := rfl
  have m : ((((3 : Nat) : Int) - 1 + ((2 : Nat) : Int)) *
      (((3 : Nat) : Int) - 1 + ((2 : Nat) : Int))).toNat = 16 := by decide
  simp only [synth_analysis, e, m, sort_three_by_three, synth_walk_three_by_three,
    Option.bind_eq_bind, Option.some_bind, Option.pure_def, Option.map_some']
  simp [synth_map, synth_map_run, List.replicate]

/-- C7 (code defect, failing inputs).  (1) Gram size `6`, the `8 × 8` image whose pixels
all have brightness `1` except the pixels `2` and `17`: the recurrence map is `1` at the
valid anchor `10` (and at `18`), whose all-ones window has recurrence count `2`, so the
value should be `1 / 2`.  (2) Gram size `2`, the `3 × 3` image with rows `1 1 0`, `0 1 0`,
`0 1 0`: the recurrence map is `1` at the valid anchors `1` and `4`, whose common window
`[1,0,1,0]` has recurrence count `2`. -/
theorem synth_map_wrong_value :
    ((synth 6 8 8 dark_bright 64).map (fun t => t.recurrence_map) = some dark_map ∧
      dark_map[10]? = some 1 ∧ gram_valid 6 dark_image 10 ∧
      recurrence_count 6 dark_image (gram_window 6 dark_image 10) = 2) ∧
    ((synth_analysis 2
        { bitboard := [1, 1, 0, 0, 1, 0, 0, 1, 0], width := 3, height := 3 } 9).map
      (fun t => t.recurrence_map) = some [1, 1, 0, 1, 1, 0, 0, 0, 0] ∧
    gram_valid 2 { bitboard := [1, 1, 0, 0, 1, 0, 0, 1, 0], width := 3, height := 3 } 1 ∧
    recurrence_count 2 { bitboard := [1, 1, 0, 0, 1, 0, 0, 1, 0], width := 3, height := 3 }
      (gram_window 2
        { bitboard := [1, 1, 0, 0, 1, 0, 0, 1, 0], width := 3, height := 3 } 1) = 2) ∧
    (1 : ℚ) ≠ 1 / ((2 : Nat) : ℚ) := by
  refine ⟨⟨synth_map_dark, by simp [dark_map], recurrence_count_dark.2.1, ?_⟩,
    ⟨synth_map_three, by decide, by decide⟩, by norm_num⟩
  rw [recurrence_count_dark.2.2]
  exact recurrence_count_dark.1

/-! ## Binarisation -/

theorem select_half (cmp : α → α → Int) (hv : ValidCmp cmp) (vec : List α) (hne : vec ≠ []) :
    ∃ (out : List α) (ret : Nat) (x : α),
      (∀ fuel, vec.length ≤ fuel + 1 →
        select cmp fuel vec (vec.length / 2) = some (out, ret)) ∧
      out.Perm vec ∧ out[ret]? = some x := by
  have hpos : 0 < vec.length := List.length_pos.mpr hne
  by_cases h1 : vec.length = 1
  · refine ⟨vec, 0, vec[0], ?_, List.Perm.refl _, List.getElem?_eq_getElem hpos⟩
    intro fuel _
    cases fuel <;> simp [select, prv__select, h1]
  · obtain ⟨out, ret, x, h, hperm, hget, _, _⟩ :=
      select_spec cmp hv vec (vec.length / 2) (by omega) (by omega)
    exact ⟨out, ret, x, h, hperm, hget⟩

theorem synth_binarize_eq {β : Type} [LinearOrder β] (fuel : Nat) (bright cpy1 : List β)
    (ret : Nat) (m : β) (h : select std_cmp fuel bright (bright.length / 2) = some (cpy1, ret))
    (hget : cpy1[ret]? = some m) :
    synth_binarize fuel bright = some (m, bright.map (fun b => if b ≥ m then 1 else 0)) := by
  simp only [synth_binarize, h, hget, Option.bind_eq_bind, Option.some_bind, Option.pure_def]

/-- C9 (code defect, failing input): for the three brightness values `[1, 2, 3]` the
threshold computed by the pipeline (`select` with `k = 3 / 2 = 1`) is `1`, the smallest
value, whereas the value at 0-indexed position `3 / 2 = 1` of the ascending sequence
`[1, 2, 3]`, the median, is `2`; every pixel is then binarised to `1`. -/
theorem synth_binarize_threshold_not_median :
    synth_binarize 3 ([1, 2, 3] : List Int) = some (1, [1, 1, 1]) ∧
      SortedOf std_cmp ([1, 2, 3] : List Int) [1, 2, 3] ∧
      ([1, 2, 3] : List Int)[[1, 2, 3].length / 2]? = some 2 := by
  refine ⟨by decide, ⟨List.Perm.refl _, ?_⟩, by decide⟩
  intro i x y hx hy
  match i, hx, hy with
  | 0, hx, hy =>
    simp only [List.getElem?_cons_zero, List.getElem?_cons_succ, Option.some.injEq] at hx hy
    subst hx hy
    decide
  | 1, hx, hy =>
    simp only [List.getElem?_cons_zero, List.getElem?_cons_succ, Option.some.injEq] at hx hy
    subst hx hy
    decide
  | i + 2, hx, hy => simp at hy

/-- C10: for every brightness array and every pixel `i` of it, the binarisation block
returns (any recursion depth `fuel ≥ n - 1` gives the same result): the threshold
`median_bright` is the record that `select` returns from the copy (a permutation `cpy1` of
the brightness values), and the binarised value of pixel `i` is `1` if the original
brightness `bright[i]` is `≥ median_bright` and `0` otherwise; in particular it is `1`
when `bright[i]` equals the threshold. -/
theorem synth_binarize_spec {β : Type} [LinearOrder β] (bright : List β) (i : Nat)
    (hi : i < bright.length) :
    ∃ (cpy1 : List β) (ret : Nat) (median_bright : β) (bitboard : List Nat),
      (∀ fuel, bright.length ≤ fuel + 1 →
        select std_cmp fuel bright (bright.length / 2) = some (cpy1, ret) ∧
        synth_binarize fuel bright = some (median_bright, bitboard)) ∧
      cpy1.Perm bright ∧ cpy1[ret]? = some median_bright ∧
      bitboard.length = bright.length ∧
      bitboard[i]? = some (if bright[i] ≥ median_bright then 1 else 0) ∧
      (bright[i] = median_bright → bitboard[i]? = some 1) := by
  have hne : bright ≠ [] := by
    intro h
    simp [h] at hi
  obtain ⟨cpy1, ret, m, h, hperm, hget⟩ := select_half std_cmp std_cmp_valid bright hne
  have hbit : (bright.map (fun b => if b ≥ m then 1 else 0))[i]? =
      some (if bright[i] ≥ m then 1 else 0) := by
    rw [List.getElem?_map, List.getElem?_eq_getElem hi]
    rfl
  refine ⟨cpy1, ret, m, bright.map (fun b => if b ≥ m then 1 else 0), ?_, hperm, hget,
    by simp, hbit, ?_⟩
  · intro fuel hf
    exact ⟨h fuel hf, synth_binarize_eq fuel bright cpy1 ret m (h fuel hf) hget⟩
  · intro heq
    rw [hbit, heq]
    simp

/-- Witness for `synth_binarize_spec`: brightness values `[1, 2, 3]`, pixel `1`. -/
theorem synth_binarize_spec_witness :
    ∃ (cpy1 : List Int) (ret : Nat) (median_bright : Int) (bitboard : List Nat),
      (∀ fuel, [1, 2, 3].length ≤ fuel + 1 →
        select std_cmp fuel [1, 2, 3] ([1, 2, 3].length / 2) = some (cpy1, ret) ∧
        synth_binarize fuel [1, 2, 3] = some (median_bright, bitboard)) ∧
      cpy1.Perm [1, 2, 3] ∧ cpy1[ret]? = some median_bright ∧
      bitboard.length = [1, 2, 3].length ∧
      bitboard[1]? = some (if ([1, 2, 3] : List Int)[1] ≥ median_bright then 1 else 0) ∧
      (([1, 2, 3] : List Int)[1] = median_bright → bitboard[1]? = some 1) :=
  synth_binarize_spec [1, 2, 3] 1 (by decide)

/-! ## Sorting with a two-class comparator -/

theorem prv__sort_struct (cmp : α → α → Int) (hrefl : ∀ x, cmp x x = 0) (fuel : Nat)
    (vec : List α) (hlen : 3 < vec.length) (hf : vec.length ≤ fuel + 4) :
    ∃ (p : α) (out : List α) (l u : Nat) (lo up : List α), p ∈ vec ∧
      PartInv cmp p vec out l ((u : Int) - 1) u ∧ lo.Perm (out.take l) ∧
      up.Perm (out.drop u) ∧
      prv__sort cmp (fuel + 1) vec = some (lo ++ ((out.drop l).take (u - l) ++ up)) := by
  obtain ⟨p, out, l, u, hp, hinv, heq⟩ := prv__sort_unfold cmp fuel vec hlen
  obtain ⟨hlu, hul, hol⟩ := hinv.bounds
  have hmid := hinv.mid_nonempty hp (hrefl p)
  obtain ⟨lo, hlo, hlop⟩ := prv__sort_spec cmp hrefl fuel (out.take l) (by simp; omega)
  have hlol : lo.length = l := by rw [hlop.length_eq]; simp; omega
  have hdrop : (lo ++ out.drop l).drop u = out.drop u := by
    rw [List.drop_append_eq_append_drop, hlol]
    rw [List.drop_of_length_le (by omega : lo.length ≤ u), List.nil_append, List.drop_drop]
    congr 1; omega
  have htake : (out.drop u).take (vec.length - (u - l) - l) = out.drop u := by
    apply List.take_of_length_le; simp; omega
  obtain ⟨up, hup, hupp⟩ := prv__sort_spec cmp hrefl fuel (out.drop u) (by simp; omega)
  have hnil : (lo ++ out.drop l).drop (u + (vec.length - (u - l) - l)) = [] := by
    apply List.drop_of_length_le; simp; omega
  have htk : (lo ++ out.drop l).take u = lo ++ (out.drop l).take (u - l) := by
    rw [List.take_append_eq_append_take, hlol, List.take_of_length_le (by omega)]
  refine ⟨p, out, l, u, lo, up, hp, hinv, hlop, hupp, ?_⟩
  rw [heq, hlo]
  simp only [Option.some_bind, hdrop, htake, hup, hnil, htk, List.append_nil, List.append_assoc]

theorem TwoClass.refl {cmp : α → α → Int} {V : α → Prop} (h : TwoClass cmp V) (x : α) :
    cmp x x = 0 := h.eq x x Iff.rfl

theorem TwoClass.of_lt {cmp : α → α → Int} {V : α → Prop} (h : TwoClass cmp V) {x p : α}
    (hc : cmp x p < 0) : V x ∧ ¬ V p := by
  by_cases hx : V x <;> by_cases hp : V p
  · have := h.eq x p (by simp [hx, hp]); omega
  · exact ⟨hx, hp⟩
  · have := h.gt x p hx hp; omega
  · have := h.eq x p (by simp [hx, hp]); omega

theorem TwoClass.of_gt {cmp : α → α → Int} {V : α → Prop} (h : TwoClass cmp V) {x p : α}
    (hc : 0 < cmp x p) : ¬ V x ∧ V p := by
  by_cases hx : V x <;> by_cases hp : V p
  · have := h.eq x p (by simp [hx, hp]); omega
  · have := h.lt x p hx hp; omega
  · exact ⟨hx, hp⟩
  · have := h.eq x p (by simp [hx, hp]); omega

theorem TwoClass.of_eq {cmp : α → α → Int} {V : α → Prop} (h : TwoClass cmp V) {x p : α}
    (hc : cmp x p = 0) : (V x ↔ V p) := by
  by_cases hx : V x <;> by_cases hp : V p
  · simp [hx, hp]
  · have := h.lt x p hx hp; omega
  · have := h.gt x p hx hp; omega
  · simp [hx, hp]

theorem prv__sort_two_class (cmp : α → α → Int) (V : α → Prop) (h2 : TwoClass cmp V)
    (fuel : Nat) (vec : List α) (hf : vec.length ≤ fuel + 3)
    (hsmall : vec.length ≤ 3 → ∀ x ∈ vec, V x) :
    ∃ (A B : List α), prv__sort cmp fuel vec = some (A ++ B) ∧ (A ++ B).Perm vec ∧
      (∀ x ∈ A, V x) ∧ (∀ x ∈ B, ¬ V x) := by
  by_cases hlen : 3 < vec.length
  · obtain ⟨fuel, rfl⟩ : ∃ f, fuel = f + 1 := ⟨fuel - 1, by omega⟩
    obtain ⟨p, out, l, u, lo, up, hp, hinv, hlo, hup, heq⟩ :=
      prv__sort_struct cmp h2.refl fuel vec hlen (by omega)
    have hL := hinv.mem_less
    have hM := hinv.mem_equal
    have hU := hinv.mem_greater
    have hperm : (lo ++ ((out.drop l).take (u - l) ++ up)).Perm vec := by
      have h1 := (hlo.append ((List.Perm.refl ((out.drop l).take (u - l))).append hup))
      rw [← hinv.split] at h1
      exact h1.trans hinv.perm
    by_cases hVp : V p
    · have hlo0 : lo = [] := by
        apply List.eq_nil_iff_forall_not_mem.mpr
        intro x hx
        exact (h2.of_lt (hL x (hlo.subset hx))).2 hVp
      refine ⟨(out.drop l).take (u - l), up, ?_, ?_, ?_, ?_⟩
      · rw [heq, hlo0, List.nil_append]
      · simpa [hlo0] using hperm
      · intro x hx
        exact (h2.of_eq (hM x hx)).mpr hVp
      · intro x hx
        exact (h2.of_gt (hU x (hup.subset hx))).1
    · have hup0 : up = [] := by
        apply List.eq_nil_iff_forall_not_mem.mpr
        intro x hx
        exact hVp (h2.of_gt (hU x (hup.subset hx))).2
      refine ⟨lo, (out.drop l).take (u - l), ?_, ?_, ?_, ?_⟩
      · rw [heq, hup0, List.append_nil]
      · simpa [hup0] using hperm
      · intro x hx
        exact (h2.of_lt (hL x (hlo.subset hx))).1
      · intro x hx hVx
        exact hVp ((h2.of_eq (hM x hx)).mp hVx)
  · obtain ⟨out, hout, hperm⟩ := prv__sort_spec cmp h2.refl fuel vec hf
    refine ⟨out, [], by simpa using hout, by simpa using hperm, ?_, by simp⟩
    intro x hx
    exact hsmall (by omega) x (hperm.subset hx)

/-! ## The all-ones image -/

theorem ones_cell_lt (G W H p r c : Nat) (hv : gram_valid G (ones_image W H) p)
    (hr : r < G) (hc : c < G) : p + r * W + c < W * H := by
  obtain ⟨h1, h2⟩ := hv
  simp only [ones_image] at h1 h2
  have e := Nat.div_add_mod p W
  have h3 : W * (p / W + r + 1) ≤ W * H := Nat.mul_le_mul_left W (by omega)
  have h4 : W * (p / W + r + 1) = W * (p / W) + r * W + W := by ring
  omega

theorem ones_binary (W H : Nat) : binary_image (ones_image W H) := by
  intro x hx
  simp only [ones_image, List.mem_replicate] at hx
  exact Or.inr hx.2

theorem ones_window (G W H p : Nat) (hv : gram_valid G (ones_image W H) p) :
    gram_window G (ones_image W H) p = List.replicate (G * G) 1 := by
  rw [List.eq_replicate_iff]
  refine ⟨gram_window_length G _ p, ?_⟩
  intro b hb
  simp only [gram_window, gram_row, List.mem_flatMap, List.mem_map, List.mem_range] at hb
  obtain ⟨r, hr, c, hc, rfl⟩ := hb
  have hlt := ones_cell_lt G W H p r c hv hr hc
  simp only [ones_image]
  rw [List.getD_eq_getElem _ _ (by simpa using hlt)]
  simp

theorem ones_two_class (G W H : Nat) :
    TwoClass (cmp G (ones_image W H)) (gram_valid G (ones_image W H)) := by
  refine ⟨?_, ?_, ?_⟩
  · intro x y hxy
    rw [cmp_eq_cmp_ref_aux G _ (ones_binary W H)]
    unfold cmp_ref
    by_cases hx : gram_valid G (ones_image W H) x
    · have hy := hxy.mp hx
      rw [if_neg (not_not.mpr hx), if_neg (not_not.mpr hy), ones_window G W H x hx,
        ones_window G W H y hy, if_pos rfl]
    · have hy : ¬ gram_valid G (ones_image W H) y := fun h => hx (hxy.mpr h)
      rw [if_pos hx, if_pos hy]
  · intro x y hx hy
    rw [cmp_eq_cmp_ref_aux G _ (ones_binary W H)]
    unfold cmp_ref
    rw [if_neg (not_not.mpr hx), if_pos hy]
    decide
  · intro x y hx hy
    rw [cmp_eq_cmp_ref_aux G _ (ones_binary W H)]
    unfold cmp_ref
    rw [if_pos hx, if_neg (not_not.mpr hy)]
    decide

theorem ones_small_valid (G W H : Nat) (hG : 1 ≤ G) (hW : G ≤ W) (hH : G ≤ H)
    (hs : W * H ≤ 3) : ∀ p ∈ List.range (W * H), gram_valid G (ones_image W H) p := by
  intro p hp
  rw [List.mem_range] at hp
  have hG1 : G = 1 := by
    by_contra hne
    have h2 : 2 * 2 ≤ W * H := Nat.mul_le_mul (by omega) (by omega)
    omega
  subst hG1
  have hWpos : 0 < W := by omega
  refine ⟨?_, ?_⟩
  · simp only [ones_image]
    have : p / W < H := (Nat.div_lt_iff_lt_mul hWpos).mpr (by rw [Nat.mul_comm]; exact hp)
    omega
  · simp only [ones_image]
    have := Nat.mod_lt p hWpos
    omega

/-! ## Counting the valid anchors -/

theorem count_row (G W : Nat) (hG : 1 ≤ G) (hW : G ≤ W) :
    (List.range W).countP (fun c => decide (c + G ≤ W)) = W - G + 1 := by
  have e : W = (W - G + 1) + (G - 1) := by omega
  conv_lhs => rw [e, List.range_add, List.countP_append, List.countP_map]
  rw [countP_of_forall _ (List.range (W - G + 1)), countP_of_forall_not]
  · simp
  · intro t _
    simp only [Function.comp_apply, decide_eq_false_iff_not]
    omega
  · intro c hc
    rw [List.mem_range] at hc
    simp only [decide_eq_true_eq]
    omega

theorem count_rows (G W H : Nat) (hG : 1 ≤ G) (hW : G ≤ W) (hH : G ≤ H) :
    ∀ h : Nat, h ≤ H →
      (List.range (W * h)).countP (fun p => decide (gram_valid G (ones_image W H) p)) =
        (W - G + 1) * min h (H - G + 1) := by
  have hWpos : 0 < W := by omega
  intro h
  induction h with
  | zero => intro _; simp
  | succ h ih =>
    intro hh
    rw [Nat.mul_succ, List.range_add, List.countP_append, List.countP_map, ih (by omega)]
    by_cases hrow : h + G ≤ H
    · have e : (List.range W).countP
          ((fun p => decide (gram_valid G (ones_image W H) p)) ∘ fun x => W * h + x) =
          (List.range W).countP (fun c => decide (c + G ≤ W)) := by
        apply List.countP_congr
        intro c hc
        rw [List.mem_range] at hc
        simp only [Function.comp_apply, gram_valid, ones_image, decide_eq_true_eq]
        rw [Nat.mul_add_div hWpos, Nat.mul_add_mod, Nat.div_eq_of_lt hc, Nat.mod_eq_of_lt hc]
        constructor
        · intro hv; exact hv.2
        · intro hv; exact ⟨by omega, hv⟩
      rw [e, count_row G W hG hW, Nat.min_eq_left (by omega), Nat.min_eq_left (by omega)]
      ring
    · have e : (List.range W).countP
          ((fun p => decide (gram_valid G (ones_image W H) p)) ∘ fun x => W * h + x) = 0 := by
        apply countP_of_forall_not
        intro c hc
        rw [List.mem_range] at hc
        simp only [Function.comp_apply, gram_valid, ones_image, decide_eq_false_iff_not]
        rw [Nat.mul_add_div hWpos, Nat.div_eq_of_lt hc]
        omega
      rw [e, Nat.min_eq_right (by omega), Nat.min_eq_right (by omega)]
      rfl

theorem count_valid (G W H : Nat) (hG : 1 ≤ G) (hW : G ≤ W) (hH : G ≤ H) :
    (List.range (W * H)).countP (fun p => decide (gram_valid G (ones_image W H) p)) =
      (W - G + 1) * (H - G + 1) := by
  rw [count_rows G W H hG hW hH H (le_refl _), Nat.min_eq_right (by omega)]

/-! ## Writes to the growable buffer -/

theorem darr_write_grow_spec (new_len : Nat) :
    ∀ (fuel size : Nat), new_len ≤ fuel + size →
      ∃ size1, darr_write_grow new_len fuel size = some size1 ∧ size ≤ size1 ∧
        (size = 0 → size1 = 0) ∧ (size ≠ 0 → new_len ≤ size1 ∧ size1 ≠ 0) := by
  intro fuel
  induction fuel with
  | zero =>
    intro size h
    refine ⟨size, ?_, le_refl _, fun h0 => h0, fun h0 => ⟨by omega, h0⟩⟩
    rw [darr_write_grow, if_neg (by omega)]
  | succ fuel ih =>
    intro size h
    by_cases hc : size ≠ 0 ∧ new_len > size
    · rw [darr_write_grow, if_pos hc]
      have e : size <<< 2 = size * 4 := by rw [Nat.shiftLeft_eq]
      rw [e]
      obtain ⟨s1, hs1, h1, _, h3⟩ := ih (size * 4) (by omega)
      exact ⟨s1, hs1, by omega, fun h0 => absurd h0 hc.1, fun _ => h3 (by omega)⟩
    · rw [darr_write_grow, if_neg hc]
      exact ⟨size, rfl, le_refl _, fun h0 => h0, fun h0 => ⟨by omega, h0⟩⟩

theorem CPY_spec (dest : List Nat) (index : Nat) (src : List Nat) (size : Nat)
    (h1 : 1 ≤ size) (h2 : size ≤ src.length) (h3 : index + size ≤ dest.length) :
    CPY dest index src size =
      some (dest.take index ++ src.take size ++ dest.drop (index + size)) := by
  rw [CPY, if_neg (by omega), if_neg (by omega), if_neg (by omega)]

theorem darr_write_grow_zero (new_len fuel : Nat) :
    darr_write_grow new_len fuel 0 = some 0 := by
  cases fuel <;> simp [darr_write_grow]

theorem realloc_some (arr : List Nat) (s : Nat) (h : arr.length ≤ s) :
    realloc (some arr) s = arr ++ List.replicate (s - arr.length) 0 := by
  rw [realloc, List.take_of_length_le h]

theorem CPY_result (dest data P : List Nat) (index data_len : Nat)
    (hP : dest.take index = P) (h : index + data_len ≤ dest.length)
    (hd : data_len ≤ data.length) :
    (dest.take index ++ data.take data_len ++ dest.drop (index + data_len)).length =
        dest.length ∧
      (dest.take index ++ data.take data_len ++ dest.drop (index + data_len)).take
        (index + data_len) = P ++ data.take data_len := by
  have h1 : (dest.take index).length = index := by rw [List.length_take]; omega
  have h2 : (data.take data_len).length = data_len := by rw [List.length_take]; omega
  constructor
  · rw [List.length_append, List.length_append, h1, h2, List.length_drop]
    omega
  · rw [List.take_append_of_le_length (by rw [List.length_append, h1, h2])]
    rw [List.take_of_length_le (by rw [List.length_append, h1, h2]), hP]

theorem darr_write_eq (data : List Nat) (data_len index : Nat) (dv : darr_t)
    (dest : List Nat) (hlen : 1 ≤ data_len)
    (hwf : (dv = empty_vec ∧ dest = List.replicate ((index + data_len - 1) / 8 * 8 + 8) 0) ∨
      (∃ arr s1, dv = { array := some arr, size := arr.length } ∧ arr.length ≠ 0 ∧
        darr_write_grow (index + data_len) (index + data_len) arr.length = some s1 ∧
        arr.length ≤ s1 ∧ s1 ≠ 0 ∧
        dest = arr ++ List.replicate (s1 - arr.length) 0)) :
    darr_write data data_len index dv =
      (CPY dest index data data_len).bind fun array =>
        some (0, { array := some array, size := dest.length }) := by
  rcases hwf with ⟨rfl, rfl⟩ | ⟨arr, s1, rfl, harr, hs1, hle, hne, rfl⟩
  · have hnz : ¬ (index + data_len = 0) := by omega
    simp only [darr_write, empty_vec, darr_write_grow_zero, Option.bind_eq_bind,
      Option.some_bind, Option.isSome_none, Bool.false_eq_true, if_false, if_true, darr_alloc,
      if_neg hnz, Option.pure_def]
    rw [realloc_some _ _ (by simp)]
    simp
  · simp only [darr_write, hs1, Option.bind_eq_bind, Option.some_bind, if_neg hne,
      Option.pure_def]
    rw [realloc_some _ _ hle]
    have e : arr.length + (s1 - arr.length) = s1 := by omega
    simp only [List.length_append, List.length_replicate, e]

theorem darr_write_prefix (data : List Nat) (data_len index : Nat) (dv : darr_t)
    (P : List Nat) (hlen : 1 ≤ data_len) (hdata : data_len ≤ data.length)
    (hwf : (dv = empty_vec ∧ index = 0 ∧ P = []) ∨
      (∃ arr, dv = { array := some arr, size := arr.length } ∧ arr.length ≠ 0 ∧
        index ≤ arr.length ∧ arr.take index = P)) :
    ∃ arr1, darr_write data data_len index dv =
        some (0, { array := some arr1, size := arr1.length }) ∧
      arr1.length ≠ 0 ∧ index + data_len ≤ arr1.length ∧
      arr1.take (index + data_len) = P ++ data.take data_len := by
  have key : ∀ dest : List Nat, dest.take index = P → index + data_len ≤ dest.length →
      darr_write data data_len index dv =
        ((CPY dest index data data_len).bind fun array =>
          some (0, { array := some array, size := dest.length })) →
      ∃ arr1, darr_write data data_len index dv =
          some (0, { array := some arr1, size := arr1.length }) ∧
        arr1.length ≠ 0 ∧ index + data_len ≤ arr1.length ∧
        arr1.take (index + data_len) = P ++ data.take data_len := by
    intro dest hP hd heq
    obtain ⟨e1, e2⟩ := CPY_result dest data P index data_len hP hd hdata
    refine ⟨_, ?_, ?_, ?_, e2⟩
    · rw [heq, CPY_spec _ _ _ _ hlen hdata hd, Option.some_bind, e1]
    · rw [e1]; omega
    · rw [e1]; exact hd
  rcases hwf with ⟨rfl, rfl, rfl⟩ | ⟨arr, rfl, harr, hidx, hP⟩
  · apply key (List.replicate ((0 + data_len - 1) / 8 * 8 + 8) 0) (by simp)
      (by rw [List.length_replicate]; omega)
    exact darr_write_eq data data_len 0 empty_vec _ hlen (Or.inl ⟨rfl, rfl⟩)
  · obtain ⟨s1, hs1, hle, _, h1⟩ := darr_write_grow_spec (index + data_len) (index + data_len)
      arr.length (by omega)
    obtain ⟨hnl, hs1ne⟩ := h1 harr
    apply key (arr ++ List.replicate (s1 - arr.length) 0)
      (by rw [List.take_append_of_le_length hidx]; exact hP)
      (by rw [List.length_append, List.length_replicate]; omega)
    exact darr_write_eq data data_len index _ _ hlen
      (Or.inr ⟨arr, s1, rfl, harr, hs1, hle, hs1ne, rfl⟩)

/-! ## Pushing an all-ones gram -/

theorem ones_row_data (G W H index raw : Nat) (hG : 1 ≤ G)
    (hv : gram_valid G (ones_image W H) index) (hr : raw < G) :
    G ≤ ((ones_image W H).bitboard.drop (index + raw * (ones_image W H).width)).length ∧
      ((ones_image W H).bitboard.drop (index + raw * (ones_image W H).width)).take G =
        List.replicate G 1 := by
  have hlt := ones_cell_lt G W H index raw (G - 1) hv hr (by omega)
  simp only [ones_image, List.drop_replicate, List.take_replicate, List.length_replicate]
  refine ⟨by omega, ?_⟩
  congr 1
  omega

theorem synth_push_ones (G W H index : Nat) (hG : 1 ≤ G)
    (hv : gram_valid G (ones_image W H) index) :
    ∀ (n raw : Nat) (my_list : darr_t), raw + n = G →
      ((raw = 0 ∧ my_list = empty_vec) ∨
        (∃ arr, my_list = { array := some arr, size := arr.length } ∧ arr.length ≠ 0 ∧
          raw * G ≤ arr.length ∧ arr.take (raw * G) = List.replicate (raw * G) 1)) →
      ∃ arr1, synth_push G (ones_image W H) index 0 n raw my_list =
          some (0, { array := some arr1, size := arr1.length }) ∧
        G * G ≤ arr1.length ∧ arr1.take (G * G) = List.replicate (G * G) 1 := by
  intro n
  induction n with
  | zero =>
    intro raw my_list hn hwf
    have hraw : raw = G := by omega
    subst hraw
    rcases hwf with ⟨h0, _⟩ | ⟨arr, rfl, _, hle, htake⟩
    · omega
    · exact ⟨arr, rfl, hle, htake⟩
  | succ n ih =>
    intro raw my_list hn hwf
    obtain ⟨hdl, hdt⟩ := ones_row_data G W H index raw hG hv (by omega)
    have hoff : G * G * 0 + raw * G = raw * G := by simp
    obtain ⟨arr1, hw, hne, hle, htake⟩ :=
      darr_write_prefix ((ones_image W H).bitboard.drop (index + raw * (ones_image W H).width))
        G (raw * G) my_list (List.replicate (raw * G) 1) hG hdl
        (by
          rcases hwf with ⟨h0, hm⟩ | ⟨arr, hm, hne, hle, htake⟩
          · left
            subst h0
            exact ⟨hm, by simp, by simp⟩
          · right
            exact ⟨arr, hm, hne, hle, htake⟩)
    rw [synth_push, hoff, hw]
    simp only [Option.bind_eq_bind, Option.some_bind, ne_eq, not_true_eq_false, if_false]
    apply ih (raw + 1) _ (by omega)
    right
    refine ⟨arr1, rfl, hne, ?_, ?_⟩
    · rw [Nat.add_mul, Nat.one_mul]; exact hle
    · rw [Nat.add_mul, Nat.one_mul, htake, hdt, ← List.replicate_add]

/-! ## The walk over a table of one run followed by invalid anchors -/

theorem synth_run_spec (G : Nat) (image : image_t)
    (h2 : TwoClass (cmp G image) (gram_valid G image)) (a0 : Nat) (A B : List Nat) (n : Nat)
    (hn : n = A.length + B.length) (ha0 : A[0]? = some a0)
    (hA : ∀ x ∈ A, gram_valid G image x) (hB : ∀ x ∈ B, ¬ gram_valid G image x) :
    ∀ (fuel j counter : Nat), j < A.length → A.length - j ≤ fuel →
      synth_run G image (A ++ B) n 0 fuel j counter =
        some (if B = [] then n - 1 else A.length, counter + (A.length - 1 - j),
          decide (B ≠ [])) := by
  have hpos : 0 < A.length := (List.getElem?_eq_some_iff.mp ha0).1
  have ha0mem : a0 ∈ A := List.mem_iff_getElem?.mpr ⟨0, ha0⟩
  have h0 : (A ++ B)[0]? = some a0 := by rw [List.getElem?_append_left hpos]; exact ha0
  intro fuel
  induction fuel with
  | zero => intro j counter hj hf; omega
  | succ fuel ih =>
    intro j counter hj hf
    by_cases hlt : j + 1 < n
    · rw [synth_run, if_pos hlt]
      simp only [h0, Option.bind_eq_bind, Option.some_bind]
      by_cases hj1 : j + 1 < A.length
      · have hget : (A ++ B)[j + 1]? = some A[j + 1] := by
          rw [List.getElem?_append_left hj1, List.getElem?_eq_getElem hj1]
        have hc : cmp G image a0 A[j + 1] = 0 :=
          h2.eq _ _ ⟨fun _ => hA _ (List.getElem_mem _), fun _ => hA _ ha0mem⟩
        rw [hget]
        simp only [Option.some_bind, hc, ne_eq, not_true_eq_false, if_false]
        rw [ih (j + 1) (counter + 1) hj1 (by omega)]
        congr 2
        congr 1
        omega
      · have hB0 : 0 < B.length := by omega
        have hBne : B ≠ [] := List.length_pos.mp hB0
        have hget : (A ++ B)[j + 1]? = some B[0] := by
          rw [List.getElem?_append_right (by omega), List.getElem?_eq_getElem (by omega)]
          congr 2
          omega
        have hc : cmp G image a0 B[0] ≠ 0 := by
          have := h2.lt a0 B[0] (hA _ ha0mem) (hB _ (List.getElem_mem _))
          omega
        rw [hget]
        simp only [Option.some_bind, hc, ne_eq, not_false_eq_true, if_true, Option.pure_def,
          hBne, if_false, decide_True]
        congr 2
        · omega
        · congr 1
          omega
    · have hB0 : B.length = 0 := by omega
      have hBe : B = [] := List.length_eq_zero.mp hB0
      rw [synth_run, if_neg hlt]
      simp only [hBe, if_true, ne_eq, not_true_eq_false, decide_False]
      congr 2
      · omega
      · congr 1
        omega

theorem synth_walk_stop (G : Nat) (image : image_t) (index_matrix : List Nat) (n : Nat)
    (fuel : Nat) (s : walk_t)
    (h : n ≤ s.i ∨ (1 ≤ fuel ∧ ∃ index, index_matrix[s.i]? = some index ∧
      ¬ gram_valid G image index)) :
    synth_walk G image index_matrix n fuel s = some (0, s) := by
  by_cases hi : s.i < n
  · rcases h with h | ⟨hf, index, hidx, hinv⟩
    · omega
    · obtain ⟨fuel, rfl⟩ : ∃ f, fuel = f + 1 := ⟨fuel - 1, by omega⟩
      have hcond : index / image.width + G > image.height ∨
          index % image.width + G > image.width := by
        unfold gram_valid at hinv
        omega
      rw [synth_walk, if_pos hi]
      simp only [hidx, Option.bind_eq_bind, Option.some_bind, if_pos hcond, Option.pure_def]
  · cases fuel with
    | zero => rw [synth_walk, if_neg hi]
    | succ fuel => rw [synth_walk, if_neg hi]

theorem store_zero (recurrence : List Nat) (counter : Nat) (h : 0 < recurrence.length) :
    store recurrence 0 counter = some (recurrence.set 0 counter) := by
  rw [store, if_pos h]

theorem synth_walk_ones (G W H : Nat) (hG : 1 ≤ G) (a0 : Nat) (A B : List Nat) (n M : Nat)
    (hn : n = A.length + B.length) (ha0 : A[0]? = some a0) (hM : 1 ≤ M)
    (hA : ∀ x ∈ A, gram_valid G (ones_image W H) x)
    (hB : ∀ x ∈ B, ¬ gram_valid G (ones_image W H) x) :
    ∃ (arr1 : List Nat) (i2 : Nat),
      synth_walk G (ones_image W H) (A ++ B) n n
          { i := 0, size_list := 0, my_list := empty_vec, recurrence := List.replicate M 0 } =
        some (0, { i := i2, size_list := 1,
                   my_list := { array := some arr1, size := arr1.length },
                   recurrence := (List.replicate M 0).set 0 A.length }) ∧
      G * G ≤ arr1.length ∧ arr1.take (G * G) = List.replicate (G * G) 1 := by
  have hpos : 0 < A.length := (List.getElem?_eq_some_iff.mp ha0).1
  have ha0mem : a0 ∈ A := List.mem_iff_getElem?.mpr ⟨0, ha0⟩
  have h0 : (A ++ B)[0]? = some a0 := by rw [List.getElem?_append_left hpos]; exact ha0
  have hv0 := hA a0 ha0mem
  have hcond : ¬ (a0 / (ones_image W H).width + G > (ones_image W H).height ∨
      a0 % (ones_image W H).width + G > (ones_image W H).width) := by
    unfold gram_valid at hv0
    omega
  obtain ⟨arr1, hpush, hle, htake⟩ :=
    synth_push_ones G W H a0 hG hv0 G 0 empty_vec (by omega) (Or.inl ⟨rfl, rfl⟩)
  have hrun := synth_run_spec G (ones_image W H) (ones_two_class G W H) a0 A B n hn ha0 hA hB
    n 0 1 hpos (by omega)
  have hlenM : 0 < (List.replicate M 0).length := by simp; omega
  obtain ⟨fuel, hfuel⟩ : ∃ f, n = f + 1 := ⟨n - 1, by omega⟩
  have e1 : 1 + (A.length - 1 - 0) = A.length := by omega
  have e2 : n - 1 + 1 = n := by omega
  have hstep : ∀ (i2 : Nat),
      (if B = [] then n else if A.length + 1 = n then n else A.length) = i2 →
      synth_walk G (ones_image W H) (A ++ B) n n
          { i := 0, size_list := 0, my_list := empty_vec, recurrence := List.replicate M 0 } =
        synth_walk G (ones_image W H) (A ++ B) n fuel
          { i := i2, size_list := 1, my_list := { array := some arr1, size := arr1.length },
            recurrence := (List.replicate M 0).set 0 A.length } := by
    intro i2 hi2
    conv_lhs => rw [hfuel, synth_walk, ← hfuel]
    rw [if_pos (by show 0 < n; omega)]
    simp only [h0, Option.bind_eq_bind, Option.some_bind, if_neg hcond, hpush, ne_eq,
      not_true_eq_false, if_false, hrun, e1, Nat.zero_add]
    by_cases hBe : B = []
    · have hAn : A.length = n := by simp [hn, hBe]
      rw [if_pos hBe] at hi2
      subst hi2
      simp only [hBe, if_true, ne_eq, not_true_eq_false, decide_False, Bool.false_eq_true,
        if_false, Option.pure_def, Option.some_bind, e2, store_zero _ _ hlenM]
    · rw [if_neg hBe] at hi2
      simp only [hBe, if_false, ne_eq, not_false_eq_true, decide_True, if_true,
        store_zero _ _ hlenM, Option.some_bind]
      by_cases hlast : A.length + 1 = n
      · rw [if_pos hlast] at hi2
        subst hi2
        rw [if_pos hlast, if_pos hlast, store_zero _ _ (by simp; omega)]
        simp only [Option.some_bind, List.set_set, hlast]
      · rw [if_neg hlast] at hi2
        subst hi2
        rw [if_neg hlast, if_neg hlast]
        simp only [Option.pure_def, Option.some_bind]
  by_cases hBe : B = []
  · refine ⟨arr1, n, ?_, hle, htake⟩
    rw [hstep n (by rw [if_pos hBe])]
    exact synth_walk_stop _ _ _ _ _ _ (Or.inl (le_refl _))
  · have hBpos : 0 < B.length := List.length_pos.mpr hBe
    by_cases hlast : A.length + 1 = n
    · refine ⟨arr1, n, ?_, hle, htake⟩
      rw [hstep n (by rw [if_neg hBe, if_pos hlast])]
      exact synth_walk_stop _ _ _ _ _ _ (Or.inl (le_refl _))
    · refine ⟨arr1, A.length, ?_, hle, htake⟩
      rw [hstep A.length (by rw [if_neg hBe, if_neg hlast])]
      apply synth_walk_stop
      right
      refine ⟨by omega, B[0], ?_, hB _ (List.getElem_mem _)⟩
      show (A ++ B)[A.length]? = some B[0]
      rw [List.getElem?_append_right (le_refl _), Nat.sub_self, List.getElem?_eq_getElem hBpos]

/-! ## Filling the recurrence map -/

theorem synth_map_run_spec (index_matrix : List Nat) (curr_ric : Nat) :
    ∀ (m curr_index : Nat) (recurrence_map : List ℚ),
      (∀ k, k < m → ∃ p, index_matrix[curr_index + k]? = some p ∧ p < recurrence_map.length) →
      ∃ map1, synth_map_run index_matrix curr_ric m curr_index recurrence_map =
          some (curr_index + m, map1) ∧ map1.length = recurrence_map.length ∧
        ∀ q : Nat, map1[q]? =
          if q ∈ (index_matrix.drop curr_index).take m then some (1 / (curr_ric : ℚ))
          else recurrence_map[q]? := by
  intro m
  induction m with
  | zero =>
    intro ci map _
    exact ⟨map, rfl, rfl, fun q => by simp⟩
  | succ m ih =>
    intro ci map h
    obtain ⟨p, hp, hpl⟩ := h 0 (by omega)
    rw [Nat.add_zero] at hp
    have hci : ci < index_matrix.length := (List.getElem?_eq_some_iff.mp hp).1
    have hpe : index_matrix[ci] = p := by
      have := List.getElem?_eq_getElem hci
      rw [hp] at this
      exact (Option.some.inj this).symm
    obtain ⟨map1, hrun, hlen, hget⟩ := ih (ci + 1) (map.set p (1 / (curr_ric : ℚ)))
      (fun k hk => by
        obtain ⟨p1, hp1, hp1l⟩ := h (k + 1) (by omega)
        refine ⟨p1, ?_, by rw [List.length_set]; exact hp1l⟩
        rw [← hp1]
        congr 1
        omega)
    refine ⟨map1, ?_, by rw [hlen, List.length_set], ?_⟩
    · rw [synth_map_run]
      simp only [hp, Option.bind_eq_bind, Option.some_bind, if_pos hpl, hrun]
      congr 2
      omega
    · intro q
      rw [hget q, List.drop_eq_getElem_cons hci, List.take_succ_cons]
      by_cases hq : q = p
      · subst hq
        by_cases hm : q ∈ List.take m (List.drop (ci + 1) index_matrix)
        · rw [if_pos hm, if_pos (List.mem_cons_of_mem _ hm)]
        · rw [if_neg hm, if_pos (by rw [hpe]; exact List.mem_cons_self _ _),
            List.getElem?_set, if_pos rfl, if_pos hpl]
      · have hq2 : ¬ p = q := fun h => hq h.symm
        by_cases hm : q ∈ List.take m (List.drop (ci + 1) index_matrix)
        · rw [if_pos hm, if_pos (List.mem_cons_of_mem _ hm)]
        · rw [if_neg hm, if_neg (by
            rw [hpe, List.mem_cons]
            exact fun h => h.elim hq hm), List.getElem?_set, if_neg hq2]

theorem synth_map_one (index_matrix recurrence : List Nat) (c : Nat) (map0 : List ℚ)
    (hrec : recurrence[0]? = some c)
    (hidx : ∀ k, k < c → ∃ p, index_matrix[k]? = some p ∧ p < map0.length) :
    ∃ map1, synth_map index_matrix recurrence 1 0 0 map0 = some map1 ∧
      map1.length = map0.length ∧
      ∀ q : Nat, map1[q]? =
        if q ∈ index_matrix.take c then some (1 / (c : ℚ)) else map0[q]? := by
  obtain ⟨map1, hrun, hlen, hget⟩ := synth_map_run_spec index_matrix c c 0 map0
    (fun k hk => by simpa using hidx k hk)
  refine ⟨map1, ?_, hlen, fun q => by simpa using hget q⟩
  rw [synth_map]
  simp only [hrec, Option.bind_eq_bind, Option.some_bind, hrun, synth_map]

/-! ## The analysis of the all-ones image -/

theorem sort_ones (G W H : Nat) (hG : 1 ≤ G) (hW : G ≤ W) (hH : G ≤ H) :
    ∃ (A B : List Nat),
      (∀ fuel, W * H ≤ fuel + 3 →
        sort (cmp G (ones_image W H)) fuel (List.range (W * H)) = some (A ++ B)) ∧
      (A ++ B).Perm (List.range (W * H)) ∧
      (∀ x ∈ A, gram_valid G (ones_image W H) x) ∧
      (∀ x ∈ B, ¬ gram_valid G (ones_image W H) x) ∧
      A.length = (W - G + 1) * (H - G + 1) := by
  obtain ⟨A, B, hsort, hperm, hA, hB⟩ :=
    prv__sort_two_class (cmp G (ones_image W H)) (gram_valid G (ones_image W H))
      (ones_two_class G W H) (W * H - 3) (List.range (W * H))
      (by rw [List.length_range]; omega)
      (fun hs => ones_small_valid G W H hG hW hH (by rw [List.length_range] at hs; exact hs))
  refine ⟨A, B, ?_, hperm, hA, hB, ?_⟩
  · intro fuel hf
    exact prv__sort_fuel_mono _ _ fuel _ _ hsort (by omega)
  · have h1 := hperm.countP_eq (fun p => decide (gram_valid G (ones_image W H) p))
    rw [count_valid G W H hG hW hH, List.countP_append,
      countP_of_forall _ A (fun y hy => by simpa using hA y hy),
      countP_of_forall_not _ B (fun y hy => by simpa using hB y hy)] at h1
    omega

theorem synth_analysis_ones (G W H : Nat) (hG : 1 ≤ G) (hW : G ≤ W) (hH : G ≤ H) :
    ∃ t : synth_t,
      (∀ fuel, W * H ≤ fuel + 3 → synth_analysis G (ones_image W H) fuel = some t) ∧
      t.gram_size = G ∧ t.size_list = 1 ∧ t.my_list = List.replicate (G * G) 1 ∧
      t.recurrence = [(W - G + 1) * (H - G + 1)] ∧ t.width = W ∧ t.height = H ∧
      t.bitboard = List.replicate (W * H) 1 ∧
      ∀ p, p < W * H → t.recurrence_map[p]? =
        some (if gram_valid G (ones_image W H) p then
          1 / (((W - G + 1) * (H - G + 1) : Nat) : ℚ) else 0) := by
  obtain ⟨A, B, hsort, hperm, hA, hB, hAlen⟩ := sort_ones G W H hG hW hH
  have hn : W * H = A.length + B.length := by
    have := hperm.length_eq
    rw [List.length_append, List.length_range] at this
    exact this.symm
  have hNpos : 0 < (W - G + 1) * (H - G + 1) := Nat.mul_pos (by omega) (by omega)
  have hpos : 0 < A.length := by rw [hAlen]; exact hNpos
  have ha0 : A[0]? = some A[0] := List.getElem?_eq_getElem hpos
  have hMpos : 0 < ((W : Int) - 1 + (G : Int)) * ((H : Int) - 1 + (G : Int)) :=
    Int.mul_pos (by omega) (by omega)
  have hM : 1 ≤ (((W : Int) - 1 + (G : Int)) * ((H : Int) - 1 + (G : Int))).toNat := by
    omega
  obtain ⟨arr1, i2, hwalk, hle, htake⟩ :=
    synth_walk_ones G W H hG A[0] A B (W * H) _ hn ha0 hM hA hB
  have hrec : ((List.replicate
      (((W : Int) - 1 + (G : Int)) * ((H : Int) - 1 + (G : Int))).toNat 0).set 0 A.length)[0]? =
      some A.length := by
    rw [List.getElem?_set, if_pos rfl, if_pos (by rw [List.length_replicate]; omega)]
  obtain ⟨map1, hmap, hmlen, hget⟩ :=
    synth_map_one (A ++ B) _ A.length (List.replicate (W * H) 0) hrec
      (fun k hk => by
        refine ⟨A[k], ?_, ?_⟩
        · rw [List.getElem?_append_left hk, List.getElem?_eq_getElem hk]
        · have hmem : A[k] ∈ List.range (W * H) :=
            hperm.subset (List.mem_append_left _ (List.getElem_mem _))
          rw [List.length_replicate]
          exact List.mem_range.mp hmem)
  refine ⟨{ gram_size := G, size_list := 1, my_list := arr1.take (1 * G * G),
            recurrence := ((List.replicate
              (((W : Int) - 1 + (G : Int)) * ((H : Int) - 1 + (G : Int))).toNat 0).set 0
                A.length).take 1,
            width := W, height := H, recurrence_map := map1,
            bitboard := List.replicate (W * H) 1 }, ?_, rfl, rfl, ?_, ?_, rfl, rfl, rfl, ?_⟩
  · intro fuel hf
    simp only [synth_analysis, ones_image, Option.bind_eq_bind, Option.pure_def]
    simp only [ones_image] at hsort hwalk
    rw [hsort fuel hf]
    simp only [Option.some_bind, hwalk, ne_eq, not_true_eq_false, if_false, hmap,
      Option.getD_some]
  · show arr1.take (1 * G * G) = List.replicate (G * G) 1
    rw [Nat.one_mul, htake]
  · show ((List.replicate _ 0).set 0 A.length).take 1 = [(W - G + 1) * (H - G + 1)]
    obtain ⟨M1, hM1⟩ : ∃ m, (((W : Int) - 1 + (G : Int)) * ((H : Int) - 1 + (G : Int))).toNat =
        m + 1 := ⟨_, (Nat.sub_add_cancel hM).symm⟩
    rw [hM1, List.replicate_succ, List.set_cons_zero, List.take_succ_cons, List.take_zero, hAlen]
  · intro p hp
    show map1[p]? = _
    rw [hget p, List.take_left]
    have hp0 : (List.replicate (W * H) (0 : ℚ))[p]? = some 0 := by
      rw [List.getElem?_replicate, if_pos hp]
    by_cases hv : gram_valid G (ones_image W H) p
    · have hmem : p ∈ A := by
        have : p ∈ A ++ B := hperm.symm.subset (List.mem_range.mpr hp)
        rcases List.mem_append.mp this with h | h
        · exact h
        · exact absurd hv (hB p h)
      rw [if_pos hmem, if_pos hv, hAlen]
    · have hmem : ¬ p ∈ A := fun h => hv (hA p h)
      rw [if_neg hmem, if_neg hv, hp0]

/-! ## The pipeline on an image of uniform brightness -/

theorem synth_binarize_uniform {β : Type} [LinearOrder β] (n : Nat) (b : β) (hn : 1 ≤ n) :
    ∀ fuel, n ≤ fuel + 1 →
      synth_binarize fuel (List.replicate n b) = some (b, List.replicate n 1) := by
  have hne : List.replicate n b ≠ [] := by
    intro h
    have := congrArg List.length h
    simp at this
    omega
  obtain ⟨cpy1, ret, m, h, hperm, hget⟩ :=
    select_half std_cmp std_cmp_valid (List.replicate n b) hne
  have hm : m = b := by
    have hmem : m ∈ List.replicate n b := hperm.subset (List.mem_iff_getElem?.mpr ⟨ret, hget⟩)
    exact (List.mem_replicate.mp hmem).2
  subst hm
  intro fuel hf
  rw [synth_binarize_eq fuel _ cpy1 ret m (h fuel (by rw [List.length_replicate]; exact hf)) hget]
  simp

/-- C8 (counterexample): with gram size `G = 0` on a `2 × 2` image of uniform brightness
(`G ≤ W`, `G ≤ H` hold) the pipeline yields one (empty) pattern with recurrence count `4`,
the number of pixels, not `(W - G + 1) * (H - G + 1) = 9`. -/
theorem synth_monochrome_gram_zero :
    (synth 0 2 2 (List.replicate (2 * 2) (1 : Int)) 4).map
        (fun t => (t.size_list, t.my_list, t.recurrence)) = some (1, [], [4]) ∧
      (4 : Nat) ≠ (2 - 0 + 1) * (2 - 0 + 1) := by
  constructor
  · decide
  · decide

/-- C8 (amended): for every `W × H` image whose pixels all have the same brightness `b`
and every gram size `G` with `1 ≤ G`, `G ≤ W` and `G ≤ H`, the pipeline returns (with any
recursion depth `fuel ≥ W * H - 1`) exactly one pattern, the all-ones `G × G` block, with
recurrence count `(W - G + 1) * (H - G + 1)`; the bitboard is all ones and the recurrence
map is `1 / ((W - G + 1) * (H - G + 1))` at every valid-anchor pixel and `0` at every
other pixel. -/
theorem synth_monochrome {β : Type} [LinearOrder β] (W H G : Nat) (b : β) (hG : 1 ≤ G)
    (hW : G ≤ W) (hH : G ≤ H) :
    ∃ t : synth_t,
      (∀ fuel, W * H ≤ fuel + 1 →
        synth G W H (List.replicate (W * H) b) fuel = some t) ∧
      t.gram_size = G ∧ t.size_list = 1 ∧ t.my_list = List.replicate (G * G) 1 ∧
      t.recurrence = [(W - G + 1) * (H - G + 1)] ∧ t.width = W ∧ t.height = H ∧
      t.bitboard = List.replicate (W * H) 1 ∧
      ∀ p, p < W * H → t.recurrence_map[p]? =
        some (if gram_valid G (ones_image W H) p then
          1 / (((W - G + 1) * (H - G + 1) : Nat) : ℚ) else 0) := by
  obtain ⟨t, ht, hrest⟩ := synth_analysis_ones G W H hG hW hH
  refine ⟨t, ?_, hrest⟩
  intro fuel hf
  have hn : 1 ≤ W * H := Nat.mul_pos (by omega) (by omega)
  rw [synth, synth_binarize_uniform (W * H) b hn fuel hf]
  exact ht fuel (by omega)

/-- Witness for `synth_monochrome`, the scenario of the specification: a `4 × 4` image,
all pixels of brightness `1`, `G = 2`; one pattern, recurrence `9`, map `1 / 9` at the
valid anchors. -/
theorem synth_monochrome_witness :
    ∃ t : synth_t,
      (∀ fuel, 4 * 4 ≤ fuel + 1 →
        synth 2 4 4 (List.replicate (4 * 4) (1 : ℚ)) fuel = some t) ∧
      t.gram_size = 2 ∧ t.size_list = 1 ∧ t.my_list = List.replicate (2 * 2) 1 ∧
      t.recurrence = [9] ∧ t.width = 4 ∧ t.height = 4 ∧
      t.bitboard = List.replicate (4 * 4) 1 ∧
      ∀ p, p < 4 * 4 → t.recurrence_map[p]? =
        some (if gram_valid 2 (ones_image 4 4) p then 1 / ((9 : Nat) : ℚ) else 0) :=
  synth_monochrome 4 4 2 (1 : ℚ) (by decide) (by decide) (by decide)

/-! ## The growable buffer: growth, failure, frame -/

/-- On `size_t` values the mask `x & ~(size_t)7` is `x / 8 * 8`, the form `darr_alloc`
uses. -/
theorem land_clear_low (x : Nat) (h : x < 2 ^ 64) : x &&& (2 ^ 64 - 8) = x / 8 * 8 := by
  have e1 : (2 : Nat) ^ 64 - 8 = (2 ^ 61 - 1) <<< 3 := by decide
  have e2 : x / 8 * 8 = (x >>> 3) <<< 3 := by
    rw [Nat.shiftLeft_eq, Nat.shiftRight_eq_div_pow]
  rw [e1, e2]
  apply Nat.eq_of_testBit_eq
  intro i
  rw [Nat.testBit_and, Nat.testBit_shiftLeft, Nat.testBit_shiftLeft, Nat.testBit_shiftRight,
    Nat.testBit_two_pow_sub_one]
  by_cases h3 : 3 ≤ i
  · have e3 : 3 + (i - 3) = i := by omega
    rw [e3]
    by_cases h64 : i < 64
    · have : i - 3 < 61 := by omega
      simp [h3, this]
    · have hx : x.testBit i = false :=
        Nat.testBit_lt_two_pow (lt_of_lt_of_le h (Nat.pow_le_pow_right (by decide) (by omega)))
      simp [hx]
  · simp [h3]

theorem realloc_length (array : Option (List Nat)) (size : Nat) :
    (realloc array size).length = size := by
  cases array with
  | none => simp [realloc]
  | some old =>
    simp only [realloc, List.length_append, List.length_take, List.length_replicate]
    omega

theorem darr_write_grow_pow (new_len : Nat) :
    ∀ (fuel size : Nat), size ≠ 0 → new_len ≤ fuel + size →
      ∃ k, darr_write_grow new_len fuel size = some (size * 4 ^ k) ∧
        new_len ≤ size * 4 ^ k ∧ ∀ j, j < k → size * 4 ^ j < new_len := by
  intro fuel
  induction fuel with
  | zero =>
    intro size h0 h
    refine ⟨0, ?_, by omega, fun j hj => absurd hj (Nat.not_lt_zero j)⟩
    rw [darr_write_grow, if_neg (by omega), pow_zero, Nat.mul_one]
  | succ fuel ih =>
    intro size h0 h
    by_cases hc : size ≠ 0 ∧ new_len > size
    · rw [darr_write_grow, if_pos hc, Nat.shiftLeft_eq]
      obtain ⟨k, hk, hle, hmin⟩ := ih (size * 2 ^ 2) (by omega) (by omega)
      refine ⟨k + 1, ?_, ?_, ?_⟩
      · rw [hk]
        congr 1
        rw [pow_succ]
        ring
      · calc new_len ≤ size * 2 ^ 2 * 4 ^ k := hle
          _ = size * 4 ^ (k + 1) := by rw [pow_succ]; ring
      · intro j hj
        cases j with
        | zero => rw [pow_zero, Nat.mul_one]; exact hc.2
        | succ j =>
          have := hmin j (by omega)
          calc size * 4 ^ (j + 1) = size * 2 ^ 2 * 4 ^ j := by rw [pow_succ]; ring
            _ < new_len := this
    · rw [darr_write_grow, if_neg hc]
      refine ⟨0, by rw [pow_zero, Nat.mul_one], by omega,
        fun j hj => absurd hj (Nat.not_lt_zero j)⟩

/-- The bytes of the block after `CPY(dv->array + index, data, data_len)`. -/
theorem CPY_bytes (dest data : List Nat) (index data_len : Nat)
    (h : index + data_len ≤ dest.length) (hd : data_len ≤ data.length) :
    (∀ t, t < data_len →
      (dest.take index ++ data.take data_len ++ dest.drop (index + data_len))[index + t]? =
        data[t]?) ∧
    (∀ p, (p < index ∨ index + data_len ≤ p) →
      (dest.take index ++ data.take data_len ++ dest.drop (index + data_len))[p]? =
        dest[p]?) := by
  have h1 : (dest.take index).length = index := by rw [List.length_take]; omega
  have h2 : (data.take data_len).length = data_len := by rw [List.length_take]; omega
  constructor
  · intro t ht
    rw [List.append_assoc, List.getElem?_append_right (by omega), h1,
      List.getElem?_append_left (by omega)]
    rw [show index + t - index = t by omega, List.getElem?_take]
    simp [ht]
  · intro p hp
    rcases hp with hp | hp
    · rw [List.append_assoc, List.getElem?_append_left (by omega), List.getElem?_take]
      simp [hp]
    · rw [List.getElem?_append_right (by rw [List.length_append]; omega),
        List.length_append, h1, h2, List.getElem?_drop]
      congr 1
      omega

theorem darr_write_fail (data : List Nat) (data_len index : Nat) (dv : darr_t)
    (h0 : dv.size = 0) (ha : dv.array.isSome = true) :
    darr_write data data_len index dv = some (1, dv) := by
  obtain ⟨array, size⟩ := dv
  simp only at h0 ha
  subst h0
  simp [darr_write, darr_write_grow_zero, ha]

theorem darr_write_empty (data : List Nat) (data_len index : Nat) (dv : darr_t)
    (h0 : dv.size = 0) (ha : dv.array = none) (hlen : 1 ≤ data_len)
    (hdata : data_len ≤ data.length) :
    darr_write data data_len index dv =
      some (0, darr_t.mk
        (some ((List.replicate ((index + data_len - 1) / 8 * 8 + 8) 0).take index ++
          data.take data_len ++
          (List.replicate ((index + data_len - 1) / 8 * 8 + 8) 0).drop (index + data_len)))
        ((index + data_len - 1) / 8 * 8 + 8)) := by
  obtain ⟨array, size⟩ := dv
  simp only at h0 ha
  subst h0 ha
  have e := darr_write_eq data data_len index empty_vec _ hlen (Or.inl ⟨rfl, rfl⟩)
  rw [empty_vec] at e
  rw [e, CPY_spec _ _ _ _ hlen hdata (by rw [List.length_replicate]; omega)]
  simp

theorem darr_write_grown (data : List Nat) (data_len index : Nat) (dv : darr_t)
    (h0 : dv.size ≠ 0) (hlen : 1 ≤ data_len) (hdata : data_len ≤ data.length) :
    ∃ k, index + data_len ≤ dv.size * 4 ^ k ∧
      (∀ j, j < k → dv.size * 4 ^ j < index + data_len) ∧
      darr_write data data_len index dv =
        some (0, darr_t.mk
          (some ((realloc dv.array (dv.size * 4 ^ k)).take index ++ data.take data_len ++
            (realloc dv.array (dv.size * 4 ^ k)).drop (index + data_len)))
          (dv.size * 4 ^ k)) := by
  obtain ⟨k, hk, hle, hmin⟩ :=
    darr_write_grow_pow (index + data_len) (index + data_len) dv.size h0 (by omega)
  refine ⟨k, hle, hmin, ?_⟩
  have hne : dv.size * 4 ^ k ≠ 0 := by
    have : 0 < 4 ^ k := Nat.pow_pos (by decide)
    exact Nat.ne_of_gt (Nat.mul_pos (by omega) this)
  simp only [darr_write, hk, Option.bind_eq_bind, Option.some_bind, if_neg hne]
  rw [CPY_spec _ _ _ _ hlen hdata (by rw [realloc_length]; exact hle)]
  rfl

theorem darr_write_undefined (data : List Nat) (data_len index : Nat) (dv : darr_t)
    (hv : ¬ (dv.size = 0 ∧ dv.array.isSome = true))
    (hbad : data_len = 0 ∨ data.length < data_len) :
    darr_write data data_len index dv = none := by
  have hcpy : ∀ dest, CPY dest index data data_len = none := by
    intro dest
    rw [CPY]
    rcases hbad with h | h
    · rw [if_pos h]
    · by_cases h1 : data_len = 0
      · rw [if_pos h1]
      · rw [if_neg h1, if_pos h]
  by_cases h0 : dv.size = 0
  · have ha : dv.array = none := by
      cases hx : dv.array with
      | none => rfl
      | some a => exact absurd ⟨h0, by rw [hx]; rfl⟩ hv
    simp [darr_write, h0, ha, darr_write_grow_zero, hcpy]
  · obtain ⟨k, hk, _, _⟩ :=
      darr_write_grow_pow (index + data_len) (index + data_len) dv.size h0 (by omega)
    have hne : dv.size * 4 ^ k ≠ 0 := by
      have : 0 < 4 ^ k := Nat.pow_pos (by decide)
      exact Nat.ne_of_gt (Nat.mul_pos (by omega) this)
    simp [darr_write, hk, hne, hcpy]

/-- Every way `darr_write` can return, read off its result. -/
theorem darr_write_inv (data : List Nat) (data_len index : Nat) (dv dv1 : darr_t) (r : Nat)
    (h : darr_write data data_len index dv = some (r, dv1)) :
    (r = 1 ∧ dv1 = dv ∧ dv.size = 0 ∧ dv.array.isSome = true) ∨
    (r = 0 ∧ 1 ≤ data_len ∧ data_len ≤ data.length ∧
      ¬ (dv.size = 0 ∧ dv.array.isSome = true) ∧
      index + data_len ≤ dv1.size ∧
      dv1.array = some ((realloc dv.array dv1.size).take index ++ data.take data_len ++
        (realloc dv.array dv1.size).drop (index + data_len)) ∧
      (dv.size = 0 → dv1.size = (index + data_len - 1) / 8 * 8 + 8) ∧
      (dv.size ≠ 0 → ∃ k, dv1.size = dv.size * 4 ^ k ∧
        ∀ j, j < k → dv.size * 4 ^ j < index + data_len)) := by
  by_cases hv : dv.size = 0 ∧ dv.array.isSome = true
  · rw [darr_write_fail data data_len index dv hv.1 hv.2] at h
    simp only [Option.some.injEq, Prod.mk.injEq] at h
    exact Or.inl ⟨h.1.symm, h.2.symm, hv.1, hv.2⟩
  · by_cases hbad : data_len = 0 ∨ data.length < data_len
    · rw [darr_write_undefined data data_len index dv hv hbad] at h
      exact Option.noConfusion h
    · have hlen : 1 ≤ data_len := by omega
      have hdata : data_len ≤ data.length := by omega
      right
      by_cases h0 : dv.size = 0
      · have ha : dv.array = none := by
          cases hx : dv.array with
          | none => rfl
          | some a => exact absurd ⟨h0, by rw [hx]; rfl⟩ hv
        rw [darr_write_empty data data_len index dv h0 ha hlen hdata] at h
        simp only [Option.some.injEq, Prod.mk.injEq] at h
        obtain ⟨hr, hd⟩ := h
        subst hd
        refine ⟨hr.symm, hlen, hdata, hv, ?_, ?_, fun _ => rfl, fun hne => absurd h0 hne⟩
        · show index + data_len ≤ (index + data_len - 1) / 8 * 8 + 8
          omega
        · simp only [ha, realloc]
      · obtain ⟨k, hle, hmin, hw⟩ := darr_write_grown data data_len index dv h0 hlen hdata
        rw [hw] at h
        simp only [Option.some.injEq, Prod.mk.injEq] at h
        obtain ⟨hr, hd⟩ := h
        subst hd
        exact ⟨hr.symm, hlen, hdata, hv, hle, rfl, fun h00 => absurd h00 h0,
          fun _ => ⟨k, rfl, hmin⟩⟩

/-- When `darr_write` returns: always, unless it has to copy zero bytes or more bytes than
`data` holds. -/
theorem darr_write_total (data : List Nat) (data_len index : Nat) (dv : darr_t)
    (hlen : 1 ≤ data_len) (hdata : data_len ≤ data.length) :
    ∃ r dv1, darr_write data data_len index dv = some (r, dv1) ∧
      (r = 1 ↔ (dv.size = 0 ∧ dv.array.isSome = true)) ∧
      (r = 0 ↔ ¬ (dv.size = 0 ∧ dv.array.isSome = true)) := by
  by_cases hv : dv.size = 0 ∧ dv.array.isSome = true
  · exact ⟨1, dv, darr_write_fail data data_len index dv hv.1 hv.2,
      ⟨fun _ => hv, fun _ => rfl⟩, ⟨fun h => absurd h (by decide), fun h => absurd hv h⟩⟩
  · by_cases h0 : dv.size = 0
    · have ha : dv.array = none := by
        cases hx : dv.array with
        | none => rfl
        | some a => exact absurd ⟨h0, by rw [hx]; rfl⟩ hv
      exact ⟨0, _, darr_write_empty data data_len index dv h0 ha hlen hdata,
        ⟨fun h => absurd h (by decide), fun h => absurd h hv⟩, ⟨fun _ => hv, fun _ => rfl⟩⟩
    · obtain ⟨k, _, _, hw⟩ := darr_write_grown data data_len index dv h0 hlen hdata
      exact ⟨0, _, hw, ⟨fun h => absurd h (by decide), fun h => absurd h hv⟩,
        ⟨fun _ => hv, fun _ => rfl⟩⟩

/-! ## Claims on the growable buffer -/

theorem darr_alloc_size (len : Nat) (h : 1 ≤ len) :
    darr_alloc len =
      { array := some (List.replicate ((len - 1) / 8 * 8 + 8) 0),
        size := (len - 1) / 8 * 8 + 8 } := by
  rw [darr_alloc, if_neg (by omega)]

theorem cap_ok_alloc (len : Nat) : cap_ok (darr_alloc len).size := by
  by_cases h : len = 0
  · subst h
    exact Or.inl rfl
  · rw [darr_alloc_size len (by omega)]
    exact Or.inr ⟨by show 0 < (len - 1) / 8 * 8 + 8; omega,
      by show 8 ∣ (len - 1) / 8 * 8 + 8; omega⟩

theorem cap_ok_write (data : List Nat) (data_len index : Nat) (dv dv1 : darr_t) (r : Nat)
    (hc : cap_ok dv.size) (h : darr_write data data_len index dv = some (r, dv1)) :
    cap_ok dv1.size := by
  rcases darr_write_inv data data_len index dv dv1 r h with
    ⟨_, hd, _, _⟩ | ⟨_, hlen, _, _, hle, _, hz, hnz⟩
  · rw [hd]; exact hc
  · by_cases h0 : dv.size = 0
    · rw [hz h0]
      exact Or.inr ⟨by omega, by omega⟩
    · obtain ⟨k, hk, _⟩ := hnz h0
      rcases hc with hc | ⟨_, hc⟩
      · exact absurd hc h0
      · refine Or.inr ⟨by omega, ?_⟩
        rw [hk]
        exact Dvd.dvd.mul_right hc _

theorem cap_ok_reachable (dv : darr_t) (h : darr_reachable dv) : cap_ok dv.size := by
  induction h with
  | empty => exact Or.inl rfl
  | alloc len => exact cap_ok_alloc len
  | write data data_len index dv dv1 _ hw ih =>
    exact cap_ok_write data data_len index dv dv1 0 ih hw

/-- A reachable buffer is never in the state "capacity `0`, data pointer non-null". -/
theorem darr_reachable_valid (dv : darr_t) (h : darr_reachable dv) :
    ¬ (dv.size = 0 ∧ dv.array.isSome = true) := by
  induction h with
  | empty => rintro ⟨_, h⟩; exact Bool.noConfusion h
  | alloc len =>
    by_cases h : len = 0
    · subst h
      rintro ⟨_, h⟩
      exact Bool.noConfusion h
    · rw [darr_alloc_size len (by omega)]
      rintro ⟨h, _⟩
      have : (len - 1) / 8 * 8 + 8 = 0 := h
      omega
  | write data data_len index dv dv1 _ hw _ =>
    rcases darr_write_inv data data_len index dv dv1 0 hw with
      ⟨h, _⟩ | ⟨_, hlen, _, _, hle, _⟩
    · exact absurd h (by decide)
    · rintro ⟨h, _⟩
      omega

/-- C12: capacity invariant of the growable buffer.  The empty buffer and every buffer
returned by `darr_alloc` have capacity `0` or a positive multiple of `8`; every returning
`darr_write` (whatever its return code) preserves this; hence every reachable buffer has
capacity `0` or a positive multiple of `8`. -/
theorem darr_capacity_invariant :
    cap_ok empty_vec.size ∧
    (∀ len, cap_ok (darr_alloc len).size) ∧
    (∀ (data : List Nat) (data_len index : Nat) (dv dv1 : darr_t) (r : Nat),
      cap_ok dv.size → darr_write data data_len index dv = some (r, dv1) →
      cap_ok dv1.size) ∧
    (∀ dv, darr_reachable dv → cap_ok dv.size) :=
  ⟨Or.inl rfl, cap_ok_alloc, fun data data_len index dv dv1 r hc h =>
    cap_ok_write data data_len index dv dv1 r hc h, cap_ok_reachable⟩

/-- Witness for `darr_capacity_invariant`: the write of three bytes at offset `7` of
`darr_alloc 3` takes the capacity from `8` to `32`. -/
theorem darr_capacity_invariant_witness :
    cap_ok (darr_alloc 3).size ∧
    darr_write [1, 2, 3] 3 7 (darr_alloc 3) =
      some (0, darr_t.mk (some (List.replicate 7 0 ++ [1, 2, 3] ++ List.replicate 22 0)) 32) ∧
    cap_ok 32 :=
  ⟨darr_capacity_invariant.2.1 3, by decide,
    darr_capacity_invariant.2.2.1 [1, 2, 3] 3 7 (darr_alloc 3)
      (darr_t.mk (some (List.replicate 7 0 ++ [1, 2, 3] ++ List.replicate 22 0)) 32) 0
      (darr_capacity_invariant.2.1 3) (by decide)⟩

theorem realloc_getElem (old : List Nat) (size p : Nat) (x : Nat) (hp : p < size)
    (hx : old[p]? = some x) : (realloc (some old) size)[p]? = some x := by
  have hlt : p < old.length := by
    by_contra hc
    rw [List.getElem?_eq_none (by omega)] at hx
    exact Option.noConfusion hx
  rw [realloc, List.getElem?_append_left (by rw [List.length_take]; omega),
    List.getElem?_take, if_pos hp, hx]

/-- The capacity never shrinks in a returning write. -/
theorem darr_write_size_le (data : List Nat) (data_len index : Nat) (dv dv1 : darr_t)
    (r : Nat) (h : darr_write data data_len index dv = some (r, dv1)) :
    dv.size ≤ dv1.size := by
  rcases darr_write_inv data data_len index dv dv1 r h with
    ⟨_, hd, _, _⟩ | ⟨_, _, _, _, _, _, hz, hnz⟩
  · rw [hd]
  · by_cases h0 : dv.size = 0
    · omega
    · obtain ⟨k, hk, _⟩ := hnz h0
      rw [hk]
      exact Nat.le_mul_of_pos_right _ (Nat.pow_pos (by decide))

/-- C13: for every buffer (old capacity `dv.size`), every `index` and every data of length
`data_len` (a successful write has `data_len ≥ 1`), after a successful `darr_write` the
bytes at the positions `index .. index + data_len - 1` are the bytes of `data`, and every
byte at a position `p < dv.size` outside `[index, index + data_len)` is unchanged. -/
theorem darr_write_frame (data : List Nat) (data_len index : Nat) (dv dv1 : darr_t)
    (h : darr_write data data_len index dv = some (0, dv1)) :
    ∃ arr1, dv1.array = some arr1 ∧ arr1.length = dv1.size ∧
      (∀ t, t < data_len → ∃ x, data[t]? = some x ∧ arr1[index + t]? = some x) ∧
      ∀ (old : List Nat) (p x : Nat), dv.array = some old → p < dv.size →
        (p < index ∨ index + data_len ≤ p) → old[p]? = some x → arr1[p]? = some x := by
  have hsz := darr_write_size_le data data_len index dv dv1 0 h
  rcases darr_write_inv data data_len index dv dv1 0 h with
    ⟨h1, _⟩ | ⟨_, _, hdata, _, hle, harr, _, _⟩
  · exact absurd h1 (by decide)
  · have hl := realloc_length dv.array dv1.size
    obtain ⟨hin, hout⟩ := CPY_bytes (realloc dv.array dv1.size) data index data_len
      (by rw [hl]; exact hle) hdata
    refine ⟨_, harr, ?_, ?_, ?_⟩
    · rw [(CPY_result (realloc dv.array dv1.size) data _ index data_len rfl
        (by rw [hl]; exact hle) hdata).1, hl]
    · intro t ht
      have hlt : t < data.length := by omega
      exact ⟨data[t], List.getElem?_eq_getElem hlt, by
        rw [hin t ht, List.getElem?_eq_getElem hlt]⟩
    · intro old p x hold hp hrange hx
      rw [hout p hrange, hold]
      exact realloc_getElem old dv1.size p x (by omega) hx

/-- Witness for `darr_write_frame`: the buffer `[9, 8, 7, 6, 5, 4, 3, 2]` of capacity `8`
receives the bytes `[1, 1]` at offset `7`; the capacity becomes `32`, the bytes `7` and `8`
are `1`, and the bytes `0 .. 6` are unchanged. -/
theorem darr_write_frame_witness :
    darr_write [1, 1] 2 7 (darr_t.mk (some [9, 8, 7, 6, 5, 4, 3, 2]) 8) =
      some (0, darr_t.mk
        (some ([9, 8, 7, 6, 5, 4, 3, 1, 1] ++ List.replicate 23 0)) 32) ∧
    ∃ arr1, (darr_t.mk (some ([9, 8, 7, 6, 5, 4, 3, 1, 1] ++ List.replicate 23 0)) 32).array =
        some arr1 ∧ arr1.length = 32 ∧
      (∀ t, t < 2 → ∃ x, [1, 1][t]? = some x ∧ arr1[7 + t]? = some x) ∧
      ∀ (old : List Nat) (p x : Nat), some [9, 8, 7, 6, 5, 4, 3, 2] = some old → p < 8 →
        (p < 7 ∨ 7 + 2 ≤ p) → old[p]? = some x → arr1[p]? = some x :=
  ⟨by decide,
    darr_write_frame [1, 1] 2 7 (darr_t.mk (some [9, 8, 7, 6, 5, 4, 3, 2]) 8)
      (darr_t.mk (some ([9, 8, 7, 6, 5, 4, 3, 1, 1] ++ List.replicate 23 0)) 32)
      (by decide)⟩

/-- On natural numbers: for every buffer, every `index` and every `data_len ≥ 1` (with
`data` holding at least `data_len` bytes), `darr_write` returns, its return code is `0` or `1`,
it is `1` exactly when on entry the capacity is `0` while the data pointer is non-null, in
that case the buffer is left unchanged, and in every other case the return code is `0`. -/
theorem darr_write_fails_iff (data : List Nat) (data_len index : Nat) (dv : darr_t)
    (hlen : 1 ≤ data_len) (hdata : data_len ≤ data.length) :
    ∃ r dv1, darr_write data data_len index dv = some (r, dv1) ∧
      (r = 1 ↔ (dv.size = 0 ∧ dv.array.isSome = true)) ∧
      (r = 1 → dv1 = dv) ∧
      (r = 0 ↔ ¬ (dv.size = 0 ∧ dv.array.isSome = true)) ∧
      (r = 0 ∨ r = 1) := by
  obtain ⟨r, dv1, hw, h1, h0⟩ := darr_write_total data data_len index dv hlen hdata
  refine ⟨r, dv1, hw, h1, ?_, h0, ?_⟩
  · intro hr
    rcases darr_write_inv data data_len index dv dv1 r hw with ⟨_, hd, _⟩ | ⟨hr0, _⟩
    · exact hd
    · omega
  · by_cases hv : dv.size = 0 ∧ dv.array.isSome = true
    · exact Or.inr (h1.mpr hv)
    · exact Or.inl (h0.mpr hv)

/-! ## Pushing the gram of a valid anchor -/

theorem gram_cell_lt (G : Nat) (image : image_t) (p r c : Nat) (hv : gram_valid G image p)
    (hr : r < G) (hc : c < G) : p + r * image.width + c < image.width * image.height := by
  obtain ⟨h1, h2⟩ := hv
  have e := Nat.div_add_mod p image.width
  have h3 : image.width * (p / image.width + r + 1) ≤ image.width * image.height :=
    Nat.mul_le_mul_left image.width (by omega)
  have h4 : image.width * (p / image.width + r + 1) =
      image.width * (p / image.width) + r * image.width + image.width := by ring
  omega

theorem drop_take_eq_map (l : List Nat) (k G : Nat) (h : k + G ≤ l.length) :
    (l.drop k).take G = (List.range G).map fun c => l.getD (k + c) 0 := by
  apply List.ext_getElem?
  intro c
  by_cases hc : c < G
  · rw [List.getElem?_take, if_pos hc, List.getElem?_drop, List.getElem?_map,
      List.getElem?_range hc, Option.map_some', List.getD_eq_getElem?_getD,
      List.getElem?_eq_getElem (by omega)]
    rfl
  · rw [List.getElem?_eq_none (by rw [List.length_take, List.length_drop]; omega),
      List.getElem?_eq_none (by rw [List.length_map, List.length_range]; omega)]

theorem gram_row_data (G : Nat) (image : image_t) (index raw : Nat) (hG : 1 ≤ G)
    (hl : image.bitboard.length = image.width * image.height)
    (hv : gram_valid G image index) (hr : raw < G) :
    G ≤ (image.bitboard.drop (index + raw * image.width)).length ∧
      (image.bitboard.drop (index + raw * image.width)).take G =
        gram_row G image index raw := by
  have hlt := gram_cell_lt G image index raw (G - 1) hv hr (by omega)
  have hle : index + raw * image.width + G ≤ image.bitboard.length := by omega
  refine ⟨by rw [List.length_drop]; omega, ?_⟩
  rw [drop_take_eq_map _ _ _ hle]
  rfl

theorem flatMap_window_length (G : Nat) (image : image_t) (heads : List Nat) :
    (heads.flatMap (gram_window G image)).length = G * G * heads.length := by
  induction heads with
  | nil => simp
  | cons a t ih =>
    rw [List.flatMap_cons, List.length_append, ih, gram_window_length, List.length_cons]
    ring

theorem range_flatMap_succ {β : Type} (f : Nat → List β) (n : Nat) :
    (List.range (n + 1)).flatMap f = (List.range n).flatMap f ++ f n := by
  rw [List.range_succ, List.flatMap_append]
  simp

theorem synth_push_spec (G : Nat) (image : image_t) (index size_list : Nat) (P : List Nat)
    (hG : 1 ≤ G) (hl : image.bitboard.length = image.width * image.height)
    (hv : gram_valid G image index) (hP : P.length = G * G * size_list) :
    ∀ (n raw : Nat) (my_list : darr_t), raw + n = G →
      darr_holds my_list (P ++ (List.range raw).flatMap (gram_row G image index)) →
      ∃ my_list1, synth_push G image index size_list n raw my_list = some (0, my_list1) ∧
        darr_holds my_list1 (P ++ gram_window G image index) := by
  have hrows : ∀ raw, raw ≤ G →
      ((List.range raw).flatMap (gram_row G image index)).length = raw * G := by
    intro raw _
    induction raw with
    | zero => simp
    | succ r ih =>
      rw [range_flatMap_succ, List.length_append, ih (by omega)]
      simp only [gram_row, List.length_map, List.length_range]
      ring
  intro n
  induction n with
  | zero =>
    intro raw my_list hn hwf
    have hraw : raw = G := by omega
    subst hraw
    exact ⟨my_list, rfl, hwf⟩
  | succ n ih =>
    intro raw my_list hn hwf
    obtain ⟨hdl, hdt⟩ := gram_row_data G image index raw hG hl hv (by omega)
    have hQ : (P ++ (List.range raw).flatMap (gram_row G image index)).length =
        G * G * size_list + raw * G := by
      rw [List.length_append, hP, hrows raw (by omega)]
    obtain ⟨arr1, hw, hne, hle, htake⟩ :=
      darr_write_prefix (image.bitboard.drop (index + raw * image.width))
        G (G * G * size_list + raw * G) my_list
        (P ++ (List.range raw).flatMap (gram_row G image index)) hG hdl
        (by
          rcases hwf with ⟨hm, hq⟩ | ⟨arr, hm, hne, hle, htake⟩
          · left
            have : (P ++ (List.range raw).flatMap (gram_row G image index)).length = 0 := by
              rw [hq]; rfl
            exact ⟨hm, by omega, hq⟩
          · right
            rw [hQ] at hle htake
            exact ⟨arr, hm, hne, hle, htake⟩)
    rw [synth_push, hw]
    simp only [Option.bind_eq_bind, Option.some_bind, ne_eq, not_true_eq_false, if_false]
    apply ih (raw + 1) _ (by omega)
    right
    have hQ1 : (P ++ (List.range (raw + 1)).flatMap (gram_row G image index)).length =
        G * G * size_list + raw * G + G := by
      rw [List.length_append, hP, hrows (raw + 1) (by omega)]
      ring
    refine ⟨arr1, rfl, hne, ?_, ?_⟩
    · rw [hQ1]; exact hle
    · rw [hQ1, htake, hdt, range_flatMap_succ, List.append_assoc]

/-! ## The walk on an arbitrary table -/

theorem synth_push_window (G : Nat) (image : image_t) (index size_list : Nat)
    (heads : List Nat) (my_list : darr_t)
    (hl : image.bitboard.length = image.width * image.height)
    (hv : gram_valid G image index) (hh : heads.length = size_list)
    (hb : darr_holds my_list (heads.flatMap (gram_window G image))) :
    ∃ my_list1, synth_push G image index size_list G 0 my_list = some (0, my_list1) ∧
      darr_holds my_list1 ((heads ++ [index]).flatMap (gram_window G image)) := by
  have e : (heads ++ [index]).flatMap (gram_window G image) =
      heads.flatMap (gram_window G image) ++ gram_window G image index := by
    rw [List.flatMap_append]
    simp
  rw [e]
  by_cases hG : 1 ≤ G
  · exact synth_push_spec G image index size_list _ hG hl hv
      (by rw [flatMap_window_length, hh]) G 0 my_list (by omega) (by simpa using hb)
  · have h0 : G = 0 := by omega
    subst h0
    refine ⟨my_list, rfl, ?_⟩
    have : gram_window 0 image index = [] := rfl
    rw [this, List.append_nil]
    exact hb

theorem synth_run_bounds (G : Nat) (image : image_t) (index_matrix : List Nat) (n i : Nat) :
    ∀ (fuel j counter j1 counter1 : Nat) (broke : Bool), i ≤ j → j < n →
      synth_run G image index_matrix n i fuel j counter = some (j1, counter1, broke) →
      i ≤ j1 ∧ j1 < n ∧ (broke = true → i < j1) ∧ (broke = false → j1 + 1 = n) := by
  intro fuel
  induction fuel with
  | zero =>
    intro j counter j1 counter1 broke hij hjn h
    rw [synth_run] at h
    by_cases hc : j + 1 < n
    · rw [if_pos hc] at h
      exact Option.noConfusion h
    · rw [if_neg hc] at h
      simp only [Option.some.injEq, Prod.mk.injEq] at h
      obtain ⟨rfl, _, rfl⟩ := h
      exact ⟨hij, hjn, fun hb => Bool.noConfusion hb, fun _ => by omega⟩
  | succ fuel ih =>
    intro j counter j1 counter1 broke hij hjn h
    rw [synth_run] at h
    by_cases hc : j + 1 < n
    · rw [if_pos hc] at h
      cases ha : index_matrix[i]? with
      | none => simp [ha] at h
      | some a =>
        cases hb : index_matrix[j + 1]? with
        | none => simp [ha, hb] at h
        | some b =>
          simp only [ha, hb, Option.bind_eq_bind, Option.some_bind, Option.pure_def] at h
          by_cases hcmp : cmp G image a b ≠ 0
          · rw [if_pos hcmp] at h
            simp only [Option.some.injEq, Prod.mk.injEq] at h
            obtain ⟨rfl, _, rfl⟩ := h
            exact ⟨by omega, hc, fun _ => by omega, fun hb => Bool.noConfusion hb⟩
          · rw [if_neg hcmp] at h
            exact ih (j + 1) (counter + 1) j1 counter1 broke (by omega) hc h
    · rw [if_neg hc] at h
      simp only [Option.some.injEq, Prod.mk.injEq] at h
      obtain ⟨rfl, _, rfl⟩ := h
      exact ⟨hij, hjn, fun hb => Bool.noConfusion hb, fun _ => by omega⟩

theorem store_length (recurrence : List Nat) (size_list counter : Nat) (r : List Nat)
    (h : store recurrence size_list counter = some r) :
    r.length = recurrence.length ∧ size_list < recurrence.length := by
  rw [store] at h
  by_cases hc : size_list < recurrence.length
  · rw [if_pos hc] at h
    simp only [Option.some.injEq] at h
    subst h
    exact ⟨List.length_set _ _ _, hc⟩
  · rw [if_neg hc] at h
    exact Option.noConfusion h

/-- The count the loop `while (j + 1 < num_of_pixels)` leaves: the entries it passed over
compare equal to the entry at `i`, and the count is their number, the entry at `i`
included. -/
theorem synth_run_equal (G : Nat) (image : image_t) (index_matrix : List Nat) (n i a : Nat)
    (ha : index_matrix[i]? = some a) :
    ∀ (fuel j counter j1 counter1 : Nat) (broke : Bool), i ≤ j → counter = j - i + 1 →
      (∀ q, i < q → q ≤ j → ∃ b, index_matrix[q]? = some b ∧ cmp G image a b = 0) →
      synth_run G image index_matrix n i fuel j counter = some (j1, counter1, broke) →
      1 ≤ counter1 ∧ (broke = true → counter1 = j1 - i) ∧
      (broke = false → counter1 = j1 - i + 1) ∧
      ∀ q, i < q → q < i + counter1 → ∃ b, index_matrix[q]? = some b ∧ cmp G image a b = 0 := by
  intro fuel
  induction fuel with
  | zero =>
    intro j counter j1 counter1 broke hij hc heq h
    rw [synth_run] at h
    by_cases hlt : j + 1 < n
    · rw [if_pos hlt] at h
      exact Option.noConfusion h
    · rw [if_neg hlt] at h
      simp only [Option.some.injEq, Prod.mk.injEq] at h
      obtain ⟨rfl, rfl, rfl⟩ := h
      exact ⟨by omega, fun hb => Bool.noConfusion hb, fun _ => hc,
        fun q h1 h2 => heq q h1 (by omega)⟩
  | succ fuel ih =>
    intro j counter j1 counter1 broke hij hc heq h
    rw [synth_run] at h
    by_cases hlt : j + 1 < n
    · rw [if_pos hlt] at h
      cases hb : index_matrix[j + 1]? with
      | none => simp [ha, hb] at h
      | some b =>
        simp only [ha, hb, Option.bind_eq_bind, Option.some_bind, Option.pure_def] at h
        by_cases hcmp : cmp G image a b ≠ 0
        · rw [if_pos hcmp] at h
          simp only [Option.some.injEq, Prod.mk.injEq] at h
          obtain ⟨rfl, rfl, rfl⟩ := h
          exact ⟨by omega, fun _ => by omega, fun hb => Bool.noConfusion hb,
            fun q h1 h2 => heq q h1 (by omega)⟩
        · rw [if_neg hcmp] at h
          exact ih (j + 1) (counter + 1) j1 counter1 broke (by omega) (by omega)
            (fun q h1 h2 => by
              by_cases hq : q ≤ j
              · exact heq q h1 hq
              · have : q = j + 1 := by omega
                subst this
                exact ⟨b, hb, by simpa using hcmp⟩)
            h
    · rw [if_neg hlt] at h
      simp only [Option.some.injEq, Prod.mk.injEq] at h
      obtain ⟨rfl, rfl, rfl⟩ := h
      exact ⟨by omega, fun hb => Bool.noConfusion hb, fun _ => hc,
        fun q h1 h2 => heq q h1 (by omega)⟩

theorem store_take (recurrence : List Nat) (size_list counter : Nat) (r : List Nat)
    (h : store recurrence size_list counter = some r) :
    r.take size_list = recurrence.take size_list ∧ r[size_list]? = some counter := by
  rw [store] at h
  by_cases hc : size_list < recurrence.length
  · rw [if_pos hc] at h
    simp only [Option.some.injEq] at h
    subst h
    constructor
    · apply List.ext_getElem?
      intro k
      rw [List.getElem?_take, List.getElem?_take]
      by_cases hk : k < size_list
      · rw [if_pos hk, if_pos hk, List.getElem?_set_ne (by omega)]
      · rw [if_neg hk, if_neg hk]
    · rw [List.getElem?_set_self hc]
  · rw [if_neg hc] at h
    exact Option.noConfusion h

theorem WalkInv.stop (G : Nat) (image : image_t) (index_matrix : List Nat) (s : walk_t)
    (runs : List run_t) (h : WalkInv G image index_matrix s runs) :
    (runs.map run_t.anchor).Sublist index_matrix :=
  h.sublist.trans (List.take_sublist _ _)

/-- The invariant `WalkInv` holds all along the walk; the walk never returns `1`. -/
theorem synth_walk_inv (G : Nat) (image : image_t) (index_matrix : List Nat) (n : Nat)
    (hl : image.bitboard.length = image.width * image.height) :
    ∀ (fuel : Nat) (s : walk_t) (runs : List run_t) (err : Nat) (s1 : walk_t),
      WalkInv G image index_matrix s runs →
      synth_walk G image index_matrix n fuel s = some (err, s1) →
      err = 0 ∧ ∃ runs1 : List run_t, WalkInv G image index_matrix s1 runs1 ∧
        s1.recurrence.length = s.recurrence.length := by
  intro fuel
  induction fuel with
  | zero =>
    intro s runs err s1 hi h
    rw [synth_walk] at h
    by_cases hc : s.i < n
    · rw [if_pos hc] at h
      exact Option.noConfusion h
    · rw [if_neg hc] at h
      simp only [Option.some.injEq, Prod.mk.injEq] at h
      obtain ⟨rfl, rfl⟩ := h
      exact ⟨rfl, runs, hi, rfl⟩
  | succ fuel ih =>
    intro s runs err s1 hi h
    rw [synth_walk] at h
    by_cases hc : s.i < n
    · rw [if_pos hc] at h
      cases hidx : index_matrix[s.i]? with
      | none => simp [hidx] at h
      | some index =>
        simp only [hidx, Option.bind_eq_bind, Option.some_bind, Option.pure_def] at h
        by_cases hinv : index / image.width + G > image.height ∨
            index % image.width + G > image.width
        · rw [if_pos hinv] at h
          simp only [Option.some.injEq, Prod.mk.injEq] at h
          obtain ⟨rfl, rfl⟩ := h
          exact ⟨rfl, runs, hi, rfl⟩
        · rw [if_neg hinv] at h
          have hv : gram_valid G image index := by
            constructor <;> omega
          obtain ⟨my_list1, hpush, hholds⟩ :=
            synth_push_window G image index s.size_list (runs.map run_t.anchor) s.my_list hl hv
              (by rw [List.length_map]; exact hi.length_eq) hi.holds
          simp only [hpush, Option.some_bind, ne_eq, not_true_eq_false, if_false] at h
          cases hrun : synth_run G image index_matrix n s.i n s.i 1 with
          | none => simp [hrun] at h
          | some r =>
            obtain ⟨j, counter, broke⟩ := r
            obtain ⟨hb1, hb2, hb3, hb4⟩ :=
              synth_run_bounds G image index_matrix n s.i n s.i 1 j counter broke
                (le_refl _) hc hrun
            obtain ⟨hq1, hq2, hq3, hq4⟩ :=
              synth_run_equal G image index_matrix n s.i index hidx n s.i 1 j counter broke
                (le_refl _) (by omega) (fun q h1 h2 => by omega) hrun
            simp only [hrun, Option.some_bind] at h
            have hnext : s.i + counter ≤
                (if j + 1 = n then j + 1 else if broke = true then j else s.i) := by
              by_cases hjn : j + 1 = n
              · rw [if_pos hjn]
                cases broke with
                | true => have := hq2 rfl; omega
                | false => have := hq3 rfl; omega
              · rw [if_neg hjn]
                cases broke with
                | true => have := hq2 rfl; simp only [if_true]; omega
                | false => exact absurd (hb4 rfl) hjn
            generalize (if j + 1 = n then j + 1 else if broke = true then j else s.i) = i2
              at h hnext
            have key : ∃ rec2 : List Nat, rec2.length = s.recurrence.length ∧
                s.size_list < s.recurrence.length ∧
                rec2.take s.size_list = s.recurrence.take s.size_list ∧
                rec2[s.size_list]? = some counter ∧
                synth_walk G image index_matrix n fuel
                  { i := i2, size_list := s.size_list + 1, my_list := my_list1,
                    recurrence := rec2 } = some (err, s1) := by
              by_cases hbk : broke = true
              · rw [if_pos hbk] at h
                cases hs1 : store s.recurrence s.size_list counter with
                | none => rw [hs1] at h; exact Option.noConfusion h
                | some rec1 =>
                  rw [hs1, Option.some_bind] at h
                  obtain ⟨l1, r1⟩ := store_length _ _ _ _ hs1
                  obtain ⟨t1, g1⟩ := store_take _ _ _ _ hs1
                  by_cases hjn : j + 1 = n
                  · rw [if_pos hjn] at h
                    cases hs2 : store rec1 s.size_list counter with
                    | none => rw [hs2] at h; exact Option.noConfusion h
                    | some rec2 =>
                      rw [hs2, Option.some_bind] at h
                      obtain ⟨l2, _⟩ := store_length _ _ _ _ hs2
                      obtain ⟨t2, g2⟩ := store_take _ _ _ _ hs2
                      exact ⟨rec2, by omega, r1, t2.trans t1, g2, h⟩
                  · rw [if_neg hjn] at h
                    exact ⟨rec1, l1, r1, t1, g1, h⟩
              · rw [if_neg hbk] at h
                have hjn : j + 1 = n := hb4 (by cases broke <;> simp_all)
                rw [if_pos hjn] at h
                cases hs2 : store s.recurrence s.size_list counter with
                | none => rw [hs2] at h; exact Option.noConfusion h
                | some rec2 =>
                  rw [hs2, Option.some_bind] at h
                  obtain ⟨l2, r2⟩ := store_length _ _ _ _ hs2
                  obtain ⟨t2, g2⟩ := store_take _ _ _ _ hs2
                  exact ⟨rec2, l2, r2, t2, g2, h⟩
            obtain ⟨rec2, hl2, hroom, htake, hget, hw⟩ := key
            have hmap : (runs ++ [run_t.mk s.i index counter]).map run_t.anchor =
                runs.map run_t.anchor ++ [index] := by
              rw [List.map_append]
              rfl
            have hinv1 : WalkInv G image index_matrix
                { i := i2, size_list := s.size_list + 1, my_list := my_list1,
                  recurrence := rec2 } (runs ++ [run_t.mk s.i index counter]) := by
              refine ⟨?_, ?_, ?_, ?_, ?_, ?_, ?_⟩
              · rw [List.length_append, hi.length_eq]
                rfl
              · rw [hmap]
                have e : index_matrix.take (s.i + 1) =
                    index_matrix.take s.i ++ [index] := by
                  rw [List.take_succ, hidx]
                  rfl
                have hs : (runs.map run_t.anchor ++ [index]).Sublist
                    (index_matrix.take (s.i + 1)) := by
                  rw [e]
                  exact List.Sublist.append hi.sublist (List.Sublist.refl _)
                exact hs.trans (List.take_sublist_take_left _ (by show s.i + 1 ≤ i2; omega))
              · intro r hr
                rcases List.mem_append.mp hr with hr | hr
                · exact hi.valid r hr
                · rw [List.mem_singleton] at hr
                  rw [hr]
                  exact hv
              · rw [hmap]
                exact hholds
              · show s.size_list + 1 ≤ rec2.length
                omega
              · show rec2.take (s.size_list + 1) = _
                rw [List.take_succ, htake, hi.counts, hget, List.map_append]
                rfl
              · intro r hr
                rcases List.mem_append.mp hr with hr | hr
                · obtain ⟨g1, g2, g3, g4⟩ := hi.run r hr
                  exact ⟨g1, g2, Nat.le_trans g3 (by omega : s.i ≤ i2), g4⟩
                · rw [List.mem_singleton] at hr
                  rw [hr]
                  exact ⟨hidx, hq1, hnext, hq4⟩
            obtain ⟨herr, runs1, g1, g2⟩ := ih _ _ err s1 hinv1 hw
            exact ⟨herr, runs1, g1, by rw [g2]; exact hl2⟩
    · rw [if_neg hc] at h
      simp only [Option.some.injEq, Prod.mk.injEq] at h
      obtain ⟨rfl, rfl⟩ := h
      exact ⟨rfl, runs, hi, rfl⟩

/-! ## The fields written to the `.bin` file -/

theorem synth_map_run_length (index_matrix : List Nat) (curr_ric : Nat) :
    ∀ (m curr_index : Nat) (recurrence_map : List ℚ) (c1 : Nat) (map1 : List ℚ),
      synth_map_run index_matrix curr_ric m curr_index recurrence_map = some (c1, map1) →
      map1.length = recurrence_map.length := by
  intro m
  induction m with
  | zero =>
    intro curr_index recurrence_map c1 map1 h
    rw [synth_map_run] at h
    simp only [Option.some.injEq, Prod.mk.injEq] at h
    rw [← h.2]
  | succ m ih =>
    intro curr_index recurrence_map c1 map1 h
    rw [synth_map_run] at h
    cases hp : index_matrix[curr_index]? with
    | none => simp [hp] at h
    | some p =>
      simp only [hp, Option.bind_eq_bind, Option.some_bind] at h
      by_cases hc : p < recurrence_map.length
      · rw [if_pos hc] at h
        rw [ih _ _ _ _ h, List.length_set]
      · rw [if_neg hc] at h
        exact Option.noConfusion h

theorem synth_map_length (index_matrix recurrence : List Nat) :
    ∀ (m i curr_index : Nat) (recurrence_map map1 : List ℚ),
      synth_map index_matrix recurrence m i curr_index recurrence_map = some map1 →
      map1.length = recurrence_map.length := by
  intro m
  induction m with
  | zero =>
    intro i curr_index recurrence_map map1 h
    rw [synth_map] at h
    simp only [Option.some.injEq] at h
    rw [← h]
  | succ m ih =>
    intro i curr_index recurrence_map map1 h
    rw [synth_map] at h
    cases hr : recurrence[i]? with
    | none => simp [hr] at h
    | some curr_ric =>
      simp only [hr, Option.bind_eq_bind, Option.some_bind] at h
      cases hrun : synth_map_run index_matrix curr_ric curr_ric curr_index recurrence_map with
      | none => simp [hrun] at h
      | some r =>
        obtain ⟨c1, m1⟩ := r
        simp only [hrun, Option.some_bind] at h
        rw [ih _ _ _ _ h, synth_map_run_length _ _ _ _ _ _ _ hrun]

theorem darr_holds_take (dv : darr_t) (Q : List Nat) (h : darr_holds dv Q) :
    (dv.array.getD []).take Q.length = Q := by
  rcases h with ⟨rfl, rfl⟩ | ⟨arr, rfl, _, _, ht⟩
  · rfl
  · exact ht

/-- What a returning analysis leaves in the fields it writes. -/
theorem synth_analysis_fields (G : Nat) (image : image_t) (fuel : Nat) (t : synth_t)
    (hl : image.bitboard.length = image.width * image.height)
    (h : synth_analysis G image fuel = some t) :
    ∃ (index_matrix : List Nat) (runs : List run_t),
      sort (cmp G image) fuel (List.range (image.width * image.height)) = some index_matrix ∧
      runs.length = t.size_list ∧
      t.my_list = (runs.map run_t.anchor).flatMap (gram_window G image) ∧
      t.recurrence = runs.map run_t.count ∧
      (runs.map run_t.anchor).Sublist index_matrix ∧
      (∀ r ∈ runs, gram_valid G image r.anchor ∧
        index_matrix[r.start]? = some r.anchor ∧ 1 ≤ r.count ∧
        ∀ q, r.start < q → q < r.start + r.count →
          ∃ b, index_matrix[q]? = some b ∧ cmp G image r.anchor b = 0) ∧
      t.recurrence_map.length = image.width * image.height ∧
      t.gram_size = G ∧ t.width = image.width ∧ t.height = image.height ∧
      t.bitboard = image.bitboard := by
  rw [synth_analysis] at h
  cases hsort : sort (cmp G image) fuel (List.range (image.width * image.height)) with
  | none => simp [hsort] at h
  | some index_matrix =>
    simp only [hsort, Option.bind_eq_bind, Option.some_bind] at h
    cases hwalk : synth_walk G image index_matrix (image.width * image.height)
        (image.width * image.height)
        { i := 0, size_list := 0, my_list := empty_vec,
          recurrence := List.replicate
            (((image.width : Int) - 1 + G) * ((image.height : Int) - 1 + G)).toNat 0 } with
    | none => simp [hwalk] at h
    | some r =>
      obtain ⟨err, s⟩ := r
      simp only [hwalk, Option.some_bind] at h
      have h0 : WalkInv G image index_matrix
          { i := 0, size_list := 0, my_list := empty_vec,
            recurrence := List.replicate
              (((image.width : Int) - 1 + G) * ((image.height : Int) - 1 + G)).toNat 0 } [] :=
        ⟨rfl, List.nil_sublist _, fun r hr => absurd hr (List.not_mem_nil r),
          Or.inl ⟨rfl, rfl⟩, Nat.zero_le _, rfl, fun r hr => absurd hr (List.not_mem_nil r)⟩
      obtain ⟨herr, runs, hi, _⟩ := synth_walk_inv G image index_matrix _ hl _ _ [] err s h0 hwalk
      subst herr
      simp only [ne_eq, not_true_eq_false, if_false] at h
      cases hmap : synth_map index_matrix s.recurrence s.size_list 0 0
          (List.replicate (image.width * image.height) 0) with
      | none => simp [hmap] at h
      | some recurrence_map =>
        simp only [hmap, Option.some_bind, Option.pure_def, Option.some.injEq] at h
        subst h
        refine ⟨index_matrix, runs, rfl, hi.length_eq, ?_, hi.counts, hi.stop, ?_, ?_,
          rfl, rfl, rfl, rfl⟩
        · have := darr_holds_take _ _ hi.holds
          rw [flatMap_window_length, List.length_map, hi.length_eq] at this
          show (s.my_list.array.getD []).take (s.size_list * G * G) = _
          rw [← this]
          congr 1
          ring
        · intro r hr
          obtain ⟨g1, g2, _, g4⟩ := hi.run r hr
          exact ⟨hi.valid r hr, g1, g2, g4⟩
        · show recurrence_map.length = image.width * image.height
          rw [synth_map_length _ _ _ _ _ _ _ hmap, List.length_replicate]

theorem synth_fields {β : Type} [LinearOrder β] (G width height : Nat) (bright : List β)
    (fuel : Nat) (t : synth_t) (h : synth G width height bright fuel = some t) :
    ∃ m : β, synth_analysis G
      { bitboard := bright.map (fun b => if b ≥ m then 1 else 0),
        width := width, height := height } fuel = some t := by
  rw [synth] at h
  cases hb : synth_binarize fuel bright with
  | none => simp [hb] at h
  | some r =>
    obtain ⟨m, bitboard⟩ := r
    simp only [hb, Option.bind_eq_bind, Option.some_bind] at h
    refine ⟨m, ?_⟩
    rw [synth_binarize] at hb
    cases hs : select std_cmp fuel bright (bright.length / 2) with
    | none => simp [hs] at hb
    | some r1 =>
      obtain ⟨cpy1, ret⟩ := r1
      simp only [hs, Option.bind_eq_bind, Option.some_bind] at hb
      cases hg : cpy1[ret]? with
      | none => simp [hg] at hb
      | some m1 =>
        simp only [hg, Option.some_bind, Option.pure_def, Option.some.injEq,
          Prod.mk.injEq] at hb
        obtain ⟨rfl, rfl⟩ := hb
        exact h

theorem bytes_uint8 (l : List Nat) : file_bytes (l.map datum.uint8) = l.length := by
  induction l with
  | nil => rfl
  | cons a t ih =>
    simp only [file_bytes, List.map_cons, List.sum_cons, List.length_cons] at ih ⊢
    rw [ih, datum.bytes]
    omega

theorem bytes_int32 (l : List Nat) : file_bytes (l.map datum.int32) = 4 * l.length := by
  induction l with
  | nil => rfl
  | cons a t ih =>
    simp only [file_bytes, List.map_cons, List.sum_cons, List.length_cons] at ih ⊢
    rw [ih, datum.bytes]
    omega

theorem bytes_float (l : List ℚ) : file_bytes (l.map datum.float) = 4 * l.length := by
  induction l with
  | nil => rfl
  | cons a t ih =>
    simp only [file_bytes, List.map_cons, List.sum_cons, List.length_cons] at ih ⊢
    rw [ih, datum.bytes]
    omega

theorem file_bytes_append (a b : List datum) :
    file_bytes (a ++ b) = file_bytes a + file_bytes b := by
  simp [file_bytes]

/-- How a call of `synth` that returns `0` went through its blocks. -/
theorem synth_file_returns (G : Nat) (src : Option source_t) (opened : Bool) (fuel : Nat)
    (h : (synth_file G src opened fuel).output = some 0) :
    ∃ (W H : Nat) (pixels : List Nat) (t : synth_t),
      src = some { header := some (W, H), pixels := pixels } ∧
      3 * (W * H) ≤ pixels.length ∧ opened = true ∧
      synth G W H (synth_bright (W * H) (pixels.take (3 * (W * H)))) fuel = some t ∧
      synth_file G src opened fuel =
        { stderr := [], output := some 0, binary := (synth_save true t).2 } := by
  cases src with
  | none => simp [synth_file, synth_read] at h
  | some f =>
    obtain ⟨header, pixels⟩ := f
    cases header with
    | none => simp [synth_file, synth_read] at h
    | some wh =>
      obtain ⟨W, H⟩ := wh
      by_cases hp : pixels.length < 3 * (W * H)
      · simp [synth_file, synth_read, hp] at h
      · cases ht : synth G W H (synth_bright (W * H) (pixels.take (3 * (W * H)))) fuel with
        | none => simp [synth_file, synth_read, hp, ht] at h
        | some t =>
          cases opened with
          | false => simp [synth_file, synth_read, hp, ht, synth_save] at h
          | true =>
            refine ⟨W, H, pixels, t, rfl, by omega, rfl, ht, ?_⟩
            simp [synth_file, synth_read, hp, ht, synth_save]

/-- Layout of the file: for every call of `synth` that returns `0` (width `W`, height `H`,
gram size `G`, `P` patterns emitted), the file written is exactly the concatenation, in this
order, of `G` as `int32`, `P` as `int32`, the `P * G * G` pattern bytes (each `0` or `1`),
`P` recurrence counts as `int32`, `W` and `H` as `int32`, `W * H` floats of the recurrence
map and the `W * H` bytes (`0`/`1`) of the bitboard; its length is
`16 + P * (G * G + 4) + 5 * W * H` bytes.  The pattern blocks and the counts belong to the
same list `runs` and come in the same order: block `k` is the `G × G` window, row-major, of
the valid anchor at which run `k` starts in the sorted index table, count `k` is the number
of adjacent table entries of that run, all comparing equal to the anchor; the anchors
appear in table order. -/
theorem synth_file_artifact (G : Nat) (src : Option source_t) (opened : Bool) (fuel : Nat)
    (h : (synth_file G src opened fuel).output = some 0) :
    ∃ (W H P : Nat) (patterns recurrence bitboard : List Nat) (recurrence_map : List ℚ),
      (∃ pixels, src = some { header := some (W, H), pixels := pixels }) ∧
      (synth_file G src opened fuel).binary =
        some ([datum.int32 G, datum.int32 P] ++ patterns.map datum.uint8 ++
          recurrence.map datum.int32 ++ [datum.int32 W, datum.int32 H] ++
          recurrence_map.map datum.float ++ bitboard.map datum.uint8) ∧
      patterns.length = P * (G * G) ∧ (∀ b ∈ patterns, b = 0 ∨ b = 1) ∧
      recurrence.length = P ∧ recurrence_map.length = W * H ∧
      bitboard.length = W * H ∧ (∀ b ∈ bitboard, b = 0 ∨ b = 1) ∧
      (∃ (index_matrix : List Nat) (runs : List run_t),
        sort (cmp G { bitboard := bitboard, width := W, height := H }) fuel
          (List.range (W * H)) = some index_matrix ∧
        runs.length = P ∧
        patterns = (runs.map run_t.anchor).flatMap
          (gram_window G { bitboard := bitboard, width := W, height := H }) ∧
        recurrence = runs.map run_t.count ∧
        (runs.map run_t.anchor).Sublist index_matrix ∧
        ∀ r ∈ runs, gram_valid G { bitboard := bitboard, width := W, height := H } r.anchor ∧
          index_matrix[r.start]? = some r.anchor ∧ 1 ≤ r.count ∧
          ∀ q, r.start < q → q < r.start + r.count →
            ∃ b, index_matrix[q]? = some b ∧
              cmp G { bitboard := bitboard, width := W, height := H } r.anchor b = 0) ∧
      ∀ file, (synth_file G src opened fuel).binary = some file →
        file_bytes file = 16 + P * (G * G + 4) + 5 * (W * H) := by
  obtain ⟨W, H, pixels, t, hsrc, _, _, ht, hfile⟩ := synth_file_returns G src opened fuel h
  obtain ⟨m, ha⟩ := synth_fields G W H _ fuel t ht
  have hbl : ((synth_bright (W * H) (pixels.take (3 * (W * H)))).map
      (fun b => if b ≥ m then 1 else 0)).length = W * H := by
    rw [List.length_map, synth_bright, List.length_map, List.length_range]
  have hbin : ∀ b ∈ (synth_bright (W * H) (pixels.take (3 * (W * H)))).map
      (fun b => if b ≥ m then 1 else 0), b = 0 ∨ b = 1 := by
    intro b hb
    obtain ⟨q, _, rfl⟩ := List.mem_map.mp hb
    by_cases hq : q ≥ m
    · rw [if_pos hq]; exact Or.inr rfl
    · rw [if_neg hq]; exact Or.inl rfl
  obtain ⟨index_matrix, runs, f1, f2, f3, f4, f5, f6, f7, f8, f9, f10, f11⟩ :=
    synth_analysis_fields G _ fuel t hbl ha
  have hpl : t.my_list.length = t.size_list * (G * G) := by
    rw [f3, flatMap_window_length, List.length_map, f2]
    ring
  have hrl : t.recurrence.length = t.size_list := by
    rw [f4, List.length_map, f2]
  have hbinary : (synth_file G src opened fuel).binary =
      some ([datum.int32 G, datum.int32 t.size_list] ++ t.my_list.map datum.uint8 ++
        t.recurrence.map datum.int32 ++ [datum.int32 W, datum.int32 H] ++
        t.recurrence_map.map datum.float ++ t.bitboard.map datum.uint8) := by
    rw [hfile]
    simp only [synth_save, if_true, f8, f9, f10, List.append_assoc, List.cons_append,
      List.nil_append]
  refine ⟨W, H, t.size_list, t.my_list, t.recurrence, t.bitboard, t.recurrence_map,
    ⟨pixels, hsrc⟩, hbinary, hpl, ?_, hrl, f7, ?_, ?_, ?_, ?_⟩
  · intro b hb
    rw [f3] at hb
    obtain ⟨a, _, hb⟩ := List.mem_flatMap.mp hb
    simp only [gram_window, gram_row, List.mem_flatMap, List.mem_map, List.mem_range] at hb
    obtain ⟨r, _, c, _, rfl⟩ := hb
    exact getD_binary
      { bitboard := (synth_bright (W * H) (pixels.take (3 * (W * H)))).map
          (fun b => if b ≥ m then 1 else 0), width := W, height := H } hbin _
  · rw [f11]; exact hbl
  · rw [f11]; exact hbin
  · rw [f11]
    exact ⟨index_matrix, runs, f1, f2, f3, f4, f5, f6⟩
  · intro file hf
    rw [hbinary] at hf
    simp only [Option.some.injEq] at hf
    rw [← hf]
    simp only [file_bytes_append, bytes_uint8, bytes_int32, bytes_float, hpl, hrl, f7, f11,
      hbl]
    simp only [file_bytes, List.map_cons, List.map_nil, List.sum_cons, List.sum_nil,
      datum.bytes]
    ring

/-- The call of `synth` on the `2 × 2` image `plain_source` returns `0`. -/
theorem synth_file_plain : (synth_file 2 (some plain_source) true 3).output = some 0 := by
  have hb : synth_bright (2 * 2) (plain_source.pixels.take (3 * (2 * 2))) =
      List.replicate 4 (brightness 10 20 30) := rfl
  obtain ⟨t, ht, _⟩ := synth_analysis_ones 2 2 2 (by decide) (by decide) (by decide)
  have hs : synth 2 2 2 (List.replicate 4 (brightness 10 20 30)) 3 = some t := by
    rw [synth_eq 2 2 2 3 _ (brightness 10 20 30) (List.replicate 4 1)
      (synth_binarize_uniform 4 _ (by decide) 3 (by decide))]
    exact ht 3 (by decide)
  have hr : synth_read (some plain_source) =
      ([], flow.go (2, 2, plain_source.pixels.take (3 * (2 * 2)))) := rfl
  simp only [synth_file, hr, hb, hs, synth_save, if_true]

/-- Witness for `synth_file_artifact`: the `2 × 2` image whose pixels are all
`(10, 20, 30)`, with gram size `2`; the call returns `0`. -/
theorem synth_file_artifact_witness :
    (synth_file 2 (some plain_source) true 3).output = some 0 ∧
    ∃ (W H P : Nat) (patterns recurrence bitboard : List Nat) (recurrence_map : List ℚ),
      (∃ pixels, some plain_source = some { header := some (W, H), pixels := pixels }) ∧
      (synth_file 2 (some plain_source) true 3).binary =
        some ([datum.int32 2, datum.int32 P] ++ patterns.map datum.uint8 ++
          recurrence.map datum.int32 ++ [datum.int32 W, datum.int32 H] ++
          recurrence_map.map datum.float ++ bitboard.map datum.uint8) ∧
      patterns.length = P * (2 * 2) ∧ (∀ b ∈ patterns, b = 0 ∨ b = 1) ∧
      recurrence.length = P ∧ recurrence_map.length = W * H ∧
      bitboard.length = W * H ∧ (∀ b ∈ bitboard, b = 0 ∨ b = 1) ∧
      (∃ (index_matrix : List Nat) (runs : List run_t),
        sort (cmp 2 { bitboard := bitboard, width := W, height := H }) 3
          (List.range (W * H)) = some index_matrix ∧
        runs.length = P ∧
        patterns = (runs.map run_t.anchor).flatMap
          (gram_window 2 { bitboard := bitboard, width := W, height := H }) ∧
        recurrence = runs.map run_t.count ∧
        (runs.map run_t.anchor).Sublist index_matrix ∧
        ∀ r ∈ runs, gram_valid 2 { bitboard := bitboard, width := W, height := H } r.anchor ∧
          index_matrix[r.start]? = some r.anchor ∧ 1 ≤ r.count ∧
          ∀ q, r.start < q → q < r.start + r.count →
            ∃ b, index_matrix[q]? = some b ∧
              cmp 2 { bitboard := bitboard, width := W, height := H } r.anchor b = 0) ∧
      ∀ file, (synth_file 2 (some plain_source) true 3).binary = some file →
        file_bytes file = 16 + P * (2 * 2 + 4) + 5 * (W * H) :=
  ⟨synth_file_plain, synth_file_artifact 2 (some plain_source) true 3 synth_file_plain⟩

/-! ## Files that cannot be opened -/

/-- C19 (code defect, failing inputs).  (1) A job whose source image cannot be opened:
`synth` prints the "file not found" line and goes on to `fscanf` on the null stream; it has
no defined return, in particular it does not return `1`.  (2) A job whose destination file
cannot be opened (the `2 × 2` image `plain_source`, gram size `2`): `synth` prints the
"file not found" line and goes on to `fwrite` on the null stream; again no defined return.
(3) For comparison, the sibling error paths return `1` after their message: a malformed
header, or too few pixel bytes. -/
theorem synth_file_unopened :
    (∀ (G : Nat) (opened : Bool) (fuel : Nat),
      (synth_file G none opened fuel).stderr = [message.source_not_found] ∧
      (synth_file G none opened fuel).output = none) ∧
    ((synth_file 2 (some plain_source) false 3).stderr = [message.binary_not_found] ∧
      (synth_file 2 (some plain_source) false 3).output = none) ∧
    (∀ (G : Nat) (pixels : List Nat) (opened : Bool) (fuel : Nat),
      (synth_file G (some { header := none, pixels := pixels }) opened fuel).stderr =
        [message.image_format_error] ∧
      (synth_file G (some { header := none, pixels := pixels }) opened fuel).output =
        some 1) ∧
    ((synth_file 2 (some { header := some (2, 2), pixels := [10, 20, 30] }) true 3).stderr =
        [message.pixels_reading_error] ∧
      (synth_file 2 (some { header := some (2, 2), pixels := [10, 20, 30] }) true 3).output =
        some 1) := by
  refine ⟨fun G opened fuel => ⟨rfl, rfl⟩, ?_, fun G pixels opened fuel => ⟨rfl, rfl⟩,
    ⟨rfl, rfl⟩⟩
  have hb : synth_bright (2 * 2) (plain_source.pixels.take (3 * (2 * 2))) =
      List.replicate 4 (brightness 10 20 30) := rfl
  obtain ⟨t, ht, _⟩ := synth_analysis_ones 2 2 2 (by decide) (by decide) (by decide)
  have hs : synth 2 2 2 (List.replicate 4 (brightness 10 20 30)) 3 = some t := by
    rw [synth_eq 2 2 2 3 _ (brightness 10 20 30) (List.replicate 4 1)
      (synth_binarize_uniform 4 _ (by decide) 3 (by decide))]
    exact ht 3 (by decide)
  have hr : synth_read (some plain_source) =
      ([], flow.go (2, 2, plain_source.pixels.take (3 * (2 * 2)))) := rfl
  simp only [synth_file, hr, hb, hs, synth_save]
  exact ⟨rfl, rfl⟩

/-! ## The pool of workers -/

theorem set_perm_cons {β : Type} (b : β) :
    ∀ (l : List β) (w : Nat) (a : β), l[w]? = some a →
      ∃ rest, l.Perm (a :: rest) ∧ (l.set w b).Perm (b :: rest) := by
  intro l
  induction l with
  | nil => intro w a h; simp at h
  | cons x t ih =>
    intro w a h
    cases w with
    | zero =>
      simp only [List.getElem?_cons_zero, Option.some.injEq] at h
      subst h
      exact ⟨t, List.Perm.refl _, List.Perm.refl _⟩
    | succ w =>
      simp only [List.getElem?_cons_succ] at h
      obtain ⟨rest, h1, h2⟩ := ih w a h
      refine ⟨x :: rest, ?_, ?_⟩
      · exact (List.Perm.cons x h1).trans (List.Perm.swap a x rest)
      · rw [List.set_cons_succ]
        exact (List.Perm.cons x h2).trans (List.Perm.swap b x rest)

theorem activation_flag (output : Nat → Nat) (s : pool_state) (w : Nat)
    (h : s.flag = false) : (activation output s w).flag = false := by
  rw [activation]
  cases hpc : s.threads[w]? with
  | none => exact h
  | some pc =>
    cases pc with
    | test => simp only [h]; rfl
    | pop => simp only; split <;> exact h
    | call index => simp only; split <;> exact h
    | fail index => rfl
    | done => exact h

theorem pool_run_flag (output : Nat → Nat) :
    ∀ (schedule : List Nat) (s : pool_state), s.flag = false →
      (pool_run output s schedule).flag = false := by
  intro schedule
  induction schedule with
  | nil => intro s h; exact h
  | cons w t ih => intro s h; exact ih _ (activation_flag output s w h)

theorem pool_run_append (output : Nat → Nat) :
    ∀ (sched1 sched2 : List Nat) (s : pool_state),
      pool_run output s (sched1 ++ sched2) =
        pool_run output (pool_run output s sched1) sched2 := by
  intro sched1
  induction sched1 with
  | nil => intro sched2 s; rfl
  | cons w t ih => intro sched2 s; exact ih sched2 _

theorem main_start_inv (output : Nat → Nat) (count : Nat) :
    PoolInv output (main_start count) where
  index_le := Nat.zero_le _
  popped_eq := rfl
  perm := by
    have : (List.replicate THREAD_COUNT pc_t.test).filterMap pc_t.inflight = [] := by decide
    show ([] ++ (List.replicate THREAD_COUNT pc_t.test).filterMap pc_t.inflight).Perm
      (List.range 0)
    rw [this]
    exact List.Perm.refl _
  flag_false := fun h => Bool.noConfusion h
  failed := fun j hj => absurd hj (List.not_mem_nil j)
  fail_called := fun j hj => by
    have : pc_t.fail j ∈ List.replicate THREAD_COUNT pc_t.test := hj
    rw [List.mem_replicate] at this
    exact pc_t.noConfusion this.2
  done_reason := fun hd => by
    have : pc_t.done ∈ List.replicate THREAD_COUNT pc_t.test := hd
    rw [List.mem_replicate] at this
    exact pc_t.noConfusion this.2

/-- A step that moves worker `w` from `a` to `b` without a call in flight on either side
and leaves the shared variables alone. -/
theorem PoolInv.move (output : Nat → Nat) (s : pool_state) (w : Nat) (a b : pc_t)
    (hi : PoolInv output s) (ha : s.threads[w]? = some a)
    (hia : a.inflight = none) (hib : b.inflight = none)
    (hfa : ∀ j, a ≠ pc_t.fail j) (hfb : ∀ j, b ≠ pc_t.fail j)
    (hd : b = pc_t.done → s.flag = false ∨ s.main_list.index = s.main_list.count) :
    PoolInv output { s with threads := s.threads.set w b } := by
  obtain ⟨rest, h1, h2⟩ := set_perm_cons b s.threads w a ha
  have e1 : (s.threads.filterMap pc_t.inflight).Perm (rest.filterMap pc_t.inflight) := by
    have := h1.filterMap pc_t.inflight
    rwa [List.filterMap_cons, hia] at this
  have e2 : ((s.threads.set w b).filterMap pc_t.inflight).Perm
      (rest.filterMap pc_t.inflight) := by
    have := h2.filterMap pc_t.inflight
    rwa [List.filterMap_cons, hib] at this
  refine ⟨hi.index_le, hi.popped_eq, ?_, hi.flag_false, ?_, ?_, ?_⟩
  · exact (List.Perm.append_left _ (e2.trans e1.symm)).trans hi.perm
  · intro j hj ho
    rcases hi.failed j hj ho with h | h
    · exact Or.inl h
    · right
      rcases List.mem_cons.mp (h1.mem_iff.mp h) with h | h
      · exact absurd h.symm (hfa j)
      · exact h2.mem_iff.mpr (List.mem_cons_of_mem _ h)
  · intro j hj
    have hj : pc_t.fail j ∈ s.threads.set w b := hj
    rcases List.mem_cons.mp (h2.mem_iff.mp hj) with h | h
    · exact absurd h.symm (hfb j)
    · exact hi.fail_called j (h1.mem_iff.mpr (List.mem_cons_of_mem _ h))
  · intro hdone
    have hdone : pc_t.done ∈ s.threads.set w b := hdone
    rcases List.mem_cons.mp (h2.mem_iff.mp hdone) with h | h
    · exact hd h.symm
    · exact hi.done_reason (h1.mem_iff.mpr (List.mem_cons_of_mem _ h))

/-- The step that pops the next index. -/
theorem PoolInv.pop (output : Nat → Nat) (s : pool_state) (w : Nat)
    (hi : PoolInv output s) (ha : s.threads[w]? = some pc_t.pop)
    (hlt : s.main_list.index < s.main_list.count) :
    PoolInv output
      { s with
        main_list := { s.main_list with index := s.main_list.index + 1 }
        threads := s.threads.set w (pc_t.call s.main_list.index)
        popped := s.popped ++ [(w, s.main_list.index)] } := by
  obtain ⟨rest, h1, h2⟩ :=
    set_perm_cons (pc_t.call s.main_list.index) s.threads w pc_t.pop ha
  have e1 : (s.threads.filterMap pc_t.inflight).Perm (rest.filterMap pc_t.inflight) :=
    h1.filterMap pc_t.inflight
  have e2 : ((s.threads.set w (pc_t.call s.main_list.index)).filterMap pc_t.inflight).Perm
      (s.main_list.index :: rest.filterMap pc_t.inflight) :=
    h2.filterMap pc_t.inflight
  refine ⟨?_, ?_, ?_, hi.flag_false, ?_, ?_, ?_⟩
  · exact hlt
  · show (s.popped ++ [(w, s.main_list.index)]).map Prod.snd =
      List.range (s.main_list.index + 1)
    rw [List.map_append, hi.popped_eq, List.range_succ]
    rfl
  · show (s.called ++ (s.threads.set w (pc_t.call s.main_list.index)).filterMap
      pc_t.inflight).Perm (List.range (s.main_list.index + 1))
    rw [List.range_succ]
    have p1 : (s.called ++ (s.threads.set w (pc_t.call s.main_list.index)).filterMap
        pc_t.inflight).Perm
        (s.called ++ (s.main_list.index :: rest.filterMap pc_t.inflight)) :=
      List.Perm.append_left _ e2
    have p2 : (s.called ++ (s.main_list.index :: rest.filterMap pc_t.inflight)).Perm
        ((s.called ++ rest.filterMap pc_t.inflight) ++ [s.main_list.index]) := by
      rw [List.append_assoc]
      exact List.Perm.append_left _ (List.perm_append_singleton _ _).symm
    have p3 : ((s.called ++ rest.filterMap pc_t.inflight) ++ [s.main_list.index]).Perm
        (List.range s.main_list.index ++ [s.main_list.index]) :=
      List.Perm.append_right _ ((List.Perm.append_left _ e1.symm).trans hi.perm)
    exact p1.trans (p2.trans p3)
  · intro j hj ho
    rcases hi.failed j hj ho with h | h
    · exact Or.inl h
    · right
      rcases List.mem_cons.mp (h1.mem_iff.mp h) with h | h
      · exact pc_t.noConfusion h
      · exact h2.mem_iff.mpr (List.mem_cons_of_mem _ h)
  · intro j hj
    have hj : pc_t.fail j ∈ s.threads.set w (pc_t.call s.main_list.index) := hj
    rcases List.mem_cons.mp (h2.mem_iff.mp hj) with h | h
    · exact pc_t.noConfusion h
    · exact hi.fail_called j (h1.mem_iff.mpr (List.mem_cons_of_mem _ h))
  · intro hdone
    have hdone : pc_t.done ∈ s.threads.set w (pc_t.call s.main_list.index) := hdone
    rcases List.mem_cons.mp (h2.mem_iff.mp hdone) with h | h
    · exact pc_t.noConfusion h
    · rcases hi.done_reason (h1.mem_iff.mpr (List.mem_cons_of_mem _ h)) with h | h
      · exact Or.inl h
      · omega

/-- The step that runs `synth` on a popped index. -/
theorem PoolInv.call (output : Nat → Nat) (s : pool_state) (w index : Nat) (b : pc_t)
    (hi : PoolInv output s) (ha : s.threads[w]? = some (pc_t.call index))
    (hb : (output index ≠ 0 ∧ b = pc_t.fail index) ∨ (output index = 0 ∧ b = pc_t.test)) :
    PoolInv output
      { s with threads := s.threads.set w b, called := s.called ++ [index] } := by
  obtain ⟨rest, h1, h2⟩ := set_perm_cons b s.threads w (pc_t.call index) ha
  have hib : b.inflight = none := by
    rcases hb with ⟨_, rfl⟩ | ⟨_, rfl⟩ <;> rfl
  have e1 : (s.threads.filterMap pc_t.inflight).Perm
      (index :: rest.filterMap pc_t.inflight) := h1.filterMap pc_t.inflight
  have e2 : ((s.threads.set w b).filterMap pc_t.inflight).Perm
      (rest.filterMap pc_t.inflight) := by
    have := h2.filterMap pc_t.inflight
    rwa [List.filterMap_cons, hib] at this
  refine ⟨hi.index_le, hi.popped_eq, ?_, ?_, ?_, ?_, ?_⟩
  · show ((s.called ++ [index]) ++ (s.threads.set w b).filterMap pc_t.inflight).Perm
      (List.range s.main_list.index)
    have p1 : ((s.called ++ [index]) ++ (s.threads.set w b).filterMap pc_t.inflight).Perm
        ((s.called ++ [index]) ++ rest.filterMap pc_t.inflight) :=
      List.Perm.append_left _ e2
    have p2 : ((s.called ++ [index]) ++ rest.filterMap pc_t.inflight) =
        s.called ++ (index :: rest.filterMap pc_t.inflight) := by
      rw [List.append_assoc]
      rfl
    rw [p2] at p1
    exact p1.trans ((List.Perm.append_left _ e1.symm).trans hi.perm)
  · intro hf
    obtain ⟨j, hj, ho⟩ := hi.flag_false hf
    exact ⟨j, List.mem_append_left _ hj, ho⟩
  · intro j hj ho
    have hj : j ∈ s.called ++ [index] := hj
    rcases List.mem_append.mp hj with hj | hj
    · rcases hi.failed j hj ho with h | h
      · exact Or.inl h
      · right
        rcases List.mem_cons.mp (h1.mem_iff.mp h) with h | h
        · exact pc_t.noConfusion h
        · exact h2.mem_iff.mpr (List.mem_cons_of_mem _ h)
    · rw [List.mem_singleton] at hj
      subst hj
      right
      rcases hb with ⟨_, rfl⟩ | ⟨h0, _⟩
      · exact h2.mem_iff.mpr (List.mem_cons_self _ _)
      · exact absurd h0 ho
  · intro j hj
    have hj : pc_t.fail j ∈ s.threads.set w b := hj
    show j ∈ s.called ++ [index] ∧ output j ≠ 0
    rcases List.mem_cons.mp (h2.mem_iff.mp hj) with h | h
    · rcases hb with ⟨ho, rfl⟩ | ⟨_, rfl⟩
      · have : j = index := by injection h
        subst this
        exact ⟨List.mem_append_right _ (List.mem_singleton.mpr rfl), ho⟩
      · exact pc_t.noConfusion h
    · obtain ⟨g1, g2⟩ := hi.fail_called j (h1.mem_iff.mpr (List.mem_cons_of_mem _ h))
      exact ⟨List.mem_append_left _ g1, g2⟩
  · intro hdone
    have hdone : pc_t.done ∈ s.threads.set w b := hdone
    rcases List.mem_cons.mp (h2.mem_iff.mp hdone) with h | h
    · rcases hb with ⟨_, rfl⟩ | ⟨_, rfl⟩ <;> exact pc_t.noConfusion h
    · exact hi.done_reason (h1.mem_iff.mpr (List.mem_cons_of_mem _ h))

/-- The step that clears `flag` after a failed call. -/
theorem PoolInv.fail (output : Nat → Nat) (s : pool_state) (w index : Nat)
    (hi : PoolInv output s) (ha : s.threads[w]? = some (pc_t.fail index)) :
    PoolInv output { s with flag := false, threads := s.threads.set w pc_t.done } := by
  obtain ⟨rest, h1, h2⟩ := set_perm_cons pc_t.done s.threads w (pc_t.fail index) ha
  have e1 : (s.threads.filterMap pc_t.inflight).Perm (rest.filterMap pc_t.inflight) :=
    h1.filterMap pc_t.inflight
  have e2 : ((s.threads.set w pc_t.done).filterMap pc_t.inflight).Perm
      (rest.filterMap pc_t.inflight) := h2.filterMap pc_t.inflight
  have hmem : pc_t.fail index ∈ s.threads := h1.mem_iff.mpr (List.mem_cons_self _ _)
  refine ⟨hi.index_le, hi.popped_eq, ?_, ?_, ?_, ?_, ?_⟩
  · exact (List.Perm.append_left _ (e2.trans e1.symm)).trans hi.perm
  · intro _
    obtain ⟨g1, g2⟩ := hi.fail_called index hmem
    exact ⟨index, g1, g2⟩
  · intro j _ _
    exact Or.inl rfl
  · intro j hj
    have hj : pc_t.fail j ∈ s.threads.set w pc_t.done := hj
    rcases List.mem_cons.mp (h2.mem_iff.mp hj) with h | h
    · exact pc_t.noConfusion h
    · exact hi.fail_called j (h1.mem_iff.mpr (List.mem_cons_of_mem _ h))
  · intro _
    exact Or.inl rfl

theorem activation_inv (output : Nat → Nat) (s : pool_state) (w : Nat)
    (hi : PoolInv output s) : PoolInv output (activation output s w) := by
  rw [activation]
  cases hpc : s.threads[w]? with
  | none => exact hi
  | some pc =>
    cases pc with
    | test =>
      simp only
      by_cases hf : s.flag = true
      · rw [if_pos hf]
        exact PoolInv.move output s w pc_t.test pc_t.pop hi hpc rfl rfl
          (fun j h => pc_t.noConfusion h) (fun j h => pc_t.noConfusion h)
          (fun h => pc_t.noConfusion h)
      · rw [if_neg hf]
        exact PoolInv.move output s w pc_t.test pc_t.done hi hpc rfl rfl
          (fun j h => pc_t.noConfusion h) (fun j h => pc_t.noConfusion h)
          (fun _ => Or.inl (by simpa using hf))
    | pop =>
      simp only
      by_cases hlt : s.main_list.index < s.main_list.count
      · rw [if_pos hlt]
        exact PoolInv.pop output s w hi hpc hlt
      · rw [if_neg hlt]
        exact PoolInv.move output s w pc_t.pop pc_t.done hi hpc rfl rfl
          (fun j h => pc_t.noConfusion h) (fun j h => pc_t.noConfusion h)
          (fun _ => Or.inr (by have := hi.index_le; omega))
    | call index =>
      simp only
      by_cases ho : output index ≠ 0
      · rw [if_pos ho]
        exact PoolInv.call output s w index _ hi hpc (Or.inl ⟨ho, rfl⟩)
      · rw [if_neg ho]
        exact PoolInv.call output s w index _ hi hpc (Or.inr ⟨by simpa using ho, rfl⟩)
    | fail index => exact PoolInv.fail output s w index hi hpc
    | done => exact hi

theorem pool_run_inv (output : Nat → Nat) :
    ∀ (schedule : List Nat) (s : pool_state), PoolInv output s →
      PoolInv output (pool_run output s schedule) := by
  intro schedule
  induction schedule with
  | nil => intro s h; exact h
  | cons w t ih => intro s h; exact ih _ (activation_inv output s w h)

theorem activation_threads (output : Nat → Nat) (s : pool_state) (w : Nat) :
    (activation output s w).threads = s.threads ∨
      ∃ b, (activation output s w).threads = s.threads.set w b := by
  rw [activation]
  cases hpc : s.threads[w]? with
  | none => exact Or.inl rfl
  | some pc =>
    cases pc with
    | test => simp only; split <;> exact Or.inr ⟨_, rfl⟩
    | pop => simp only; split <;> exact Or.inr ⟨_, rfl⟩
    | call index => simp only; split <;> exact Or.inr ⟨_, rfl⟩
    | fail index => exact Or.inr ⟨_, rfl⟩
    | done => exact Or.inl rfl

theorem activation_length (output : Nat → Nat) (s : pool_state) (w : Nat) :
    (activation output s w).threads.length = s.threads.length := by
  rcases activation_threads output s w with h | ⟨b, h⟩
  · rw [h]
  · rw [h, List.length_set]

theorem activation_count (output : Nat → Nat) (s : pool_state) (w : Nat) :
    (activation output s w).main_list.count = s.main_list.count := by
  rw [activation]
  cases hpc : s.threads[w]? with
  | none => rfl
  | some pc =>
    cases pc with
    | test => simp only; split <;> rfl
    | pop => simp only; split <;> rfl
    | call index => simp only; split <;> rfl
    | fail index => rfl
    | done => rfl

theorem pool_run_length (output : Nat → Nat) :
    ∀ (schedule : List Nat) (s : pool_state),
      (pool_run output s schedule).threads.length = s.threads.length ∧
      (pool_run output s schedule).main_list.count = s.main_list.count := by
  intro schedule
  induction schedule with
  | nil => intro s; exact ⟨rfl, rfl⟩
  | cons w t ih =>
    intro s
    obtain ⟨h1, h2⟩ := ih (activation output s w)
    exact ⟨h1.trans (activation_length output s w), h2.trans (activation_count output s w)⟩

theorem activation_other (output : Nat → Nat) (s : pool_state) (w v : Nat) (h : v ≠ w) :
    (activation output s v).threads[w]? = s.threads[w]? := by
  rcases activation_threads output s v with e | ⟨b, e⟩
  · rw [e]
  · rw [e, List.getElem?_set_ne h]

theorem activation_popped (output : Nat → Nat) (s : pool_state) (v : Nat) :
    (activation output s v).popped = s.popped ∨
      (s.threads[v]? = some pc_t.pop ∧
        (activation output s v).popped = s.popped ++ [(v, s.main_list.index)]) := by
  rw [activation]
  cases hpc : s.threads[v]? with
  | none => exact Or.inl rfl
  | some pc =>
    cases pc with
    | test => simp only; split <;> exact Or.inl rfl
    | pop =>
      simp only
      split
      · exact Or.inr ⟨trivial, rfl⟩
      · exact Or.inl rfl
    | call index => simp only; split <;> exact Or.inl rfl
    | fail index => exact Or.inl rfl
    | done => exact Or.inl rfl

/-- A worker standing before the test `while (flag)` with `flag` cleared, or returned, stays
so and pops nothing, whoever takes the next step. -/
theorem activation_stopped (output : Nat → Nat) (s : pool_state) (w v : Nat)
    (hf : s.flag = false)
    (hw : s.threads[w]? = some pc_t.test ∨ s.threads[w]? = some pc_t.done) :
    ((activation output s v).threads[w]? = some pc_t.test ∨
      (activation output s v).threads[w]? = some pc_t.done) ∧
    (activation output s v).popped.filter (fun e => decide (e.1 = w)) =
      s.popped.filter (fun e => decide (e.1 = w)) := by
  by_cases hv : v = w
  · subst hv
    rcases hw with hw | hw
    · have hlt : v < s.threads.length := by
        by_contra hc
        rw [List.getElem?_eq_none (by omega)] at hw
        exact Option.noConfusion hw
      have e : activation output s v = { s with threads := s.threads.set v pc_t.done } := by
        rw [activation]
        simp only [hw, hf]
        rfl
      rw [e]
      refine ⟨Or.inr ?_, rfl⟩
      show (s.threads.set v pc_t.done)[v]? = some pc_t.done
      rw [List.getElem?_set_self hlt]
    · have e : activation output s v = s := by
        rw [activation]
        simp only [hw]
      rw [e]
      exact ⟨Or.inr hw, rfl⟩
  · rw [activation_other output s w v hv]
    refine ⟨hw, ?_⟩
    rcases activation_popped output s v with e | ⟨_, e⟩
    · rw [e]
    · rw [e, List.filter_append]
      have : ([(v, s.main_list.index)] : List (Nat × Nat)).filter
          (fun e => decide (e.1 = w)) = [] := by
        simp [hv]
      rw [this, List.append_nil]

theorem pool_run_stopped (output : Nat → Nat) (w : Nat) :
    ∀ (schedule : List Nat) (s : pool_state), s.flag = false →
      (s.threads[w]? = some pc_t.test ∨ s.threads[w]? = some pc_t.done) →
      (pool_run output s schedule).popped.filter (fun e => decide (e.1 = w)) =
        s.popped.filter (fun e => decide (e.1 = w)) := by
  intro schedule
  induction schedule with
  | nil => intro s _ _; rfl
  | cons v t ih =>
    intro s hf hw
    obtain ⟨h1, h2⟩ := activation_stopped output s w v hf hw
    exact (ih _ (activation_flag output s v hf) h1).trans h2

theorem all_done_inflight (s : pool_state) (h : all_done s) :
    s.threads.filterMap pc_t.inflight = [] := by
  rw [List.filterMap_eq_nil_iff]
  intro pc hpc
  rw [h pc hpc]
  rfl

/-- C17: in every interleaving of the workers, the abort flag, once cleared, stays cleared
(`flag` never returns from aborted to running); and when all workers have returned, `main`
reports failure if and only if at least one executed job returned an error, and success if
and only if the flag was never cleared on the way. -/
theorem pool_abort_flag (output : Nat → Nat) (count : Nat) (schedule : List Nat)
    (s : pool_state) (hs : pool_run output (main_start count) schedule = s) :
    (s.flag = false → ∀ sched2, (pool_run output s sched2).flag = false) ∧
    (all_done s →
      (main_exit s = 1 ↔ ∃ j ∈ s.called, output j ≠ 0) ∧
      (main_exit s = 0 ↔ ∀ sched1 sched2, schedule = sched1 ++ sched2 →
        (pool_run output (main_start count) sched1).flag = true)) := by
  have hi : PoolInv output s := by
    rw [← hs]
    exact pool_run_inv output schedule _ (main_start_inv output count)
  refine ⟨fun hf sched2 => pool_run_flag output sched2 s hf, ?_⟩
  intro hd
  constructor
  · constructor
    · intro he
      apply hi.flag_false
      rw [main_exit] at he
      cases hfl : s.flag with
      | false => rfl
      | true => rw [hfl] at he; exact absurd he (by decide)
    · rintro ⟨j, hj, ho⟩
      rcases hi.failed j hj ho with h | h
      · rw [main_exit, h]
        rfl
      · exact pc_t.noConfusion (hd _ h)
  · constructor
    · intro he sched1 sched2 hsplit
      cases hfl : (pool_run output (main_start count) sched1).flag with
      | true => rfl
      | false =>
        have := pool_run_flag output sched2 _ hfl
        rw [← pool_run_append, ← hsplit, hs] at this
        rw [main_exit, this] at he
        exact absurd he (by decide)
    · intro hall
      have := hall schedule [] (List.append_nil _).symm
      rw [hs] at this
      rw [main_exit, this]
      rfl

/-- Witness for `pool_abort_flag`: two jobs, the second of which fails; worker `0` runs both
and clears the flag, then the five other workers see the flag cleared and return. -/
theorem pool_abort_flag_witness :
    pool_run (fun j => if j = 1 then 1 else 0) (main_start 2)
        [0, 0, 0, 0, 0, 0, 0, 1, 2, 3, 4, 5] =
      pool_state.mk (pool_t.mk 2 2) false (List.replicate 6 pc_t.done) [(0, 0), (0, 1)]
        [0, 1] ∧
    all_done (pool_state.mk (pool_t.mk 2 2) false (List.replicate 6 pc_t.done)
      [(0, 0), (0, 1)] [0, 1]) ∧
    (main_exit (pool_state.mk (pool_t.mk 2 2) false (List.replicate 6 pc_t.done)
        [(0, 0), (0, 1)] [0, 1]) = 1 ↔
      ∃ j ∈ ([0, 1] : List Nat), (fun j => if j = 1 then 1 else 0) j ≠ 0) ∧
    (main_exit (pool_state.mk (pool_t.mk 2 2) false (List.replicate 6 pc_t.done)
        [(0, 0), (0, 1)] [0, 1]) = 0 ↔
      ∀ sched1 sched2, [0, 0, 0, 0, 0, 0, 0, 1, 2, 3, 4, 5] = sched1 ++ sched2 →
        (pool_run (fun j => if j = 1 then 1 else 0) (main_start 2) sched1).flag = true) :=
  ⟨by decide, by decide,
    (pool_abort_flag (fun j => if j = 1 then 1 else 0) 2 [0, 0, 0, 0, 0, 0, 0, 1, 2, 3, 4, 5]
      (pool_state.mk (pool_t.mk 2 2) false (List.replicate 6 pc_t.done) [(0, 0), (0, 1)]
        [0, 1]) (by decide)).2 (by decide)⟩

/-- C18: in every interleaving of the `THREAD_COUNT` workers over `count` jobs, the pops
hand out the indices `0, 1, 2, ...` in increasing order, each at most once; the cursor
never exceeds `count`; a worker that finds `flag` cleared at its test returns and pops no
further index; and if no job fails, then once all workers have returned every job has been
executed exactly once. -/
theorem pool_claims (output : Nat → Nat) (count : Nat) (schedule : List Nat)
    (s : pool_state) (hs : pool_run output (main_start count) schedule = s) :
    s.popped.map Prod.snd = List.range s.main_list.index ∧
    (s.popped.map Prod.snd).Nodup ∧
    s.main_list.index ≤ count ∧
    (∀ w, s.threads[w]? = some pc_t.test → s.flag = false →
      (activation output s w).threads[w]? = some pc_t.done ∧
      ∀ sched2, (pool_run output s sched2).popped.filter (fun e => decide (e.1 = w)) =
        s.popped.filter (fun e => decide (e.1 = w))) ∧
    ((∀ j, j < count → output j = 0) → all_done s → s.called.Perm (List.range count)) := by
  have hi : PoolInv output s := by
    rw [← hs]
    exact pool_run_inv output schedule _ (main_start_inv output count)
  obtain ⟨hlen, hcount⟩ := pool_run_length output schedule (main_start count)
  rw [hs] at hlen hcount
  have hcount : s.main_list.count = count := hcount
  have hlen : s.threads.length = THREAD_COUNT := by
    rw [hlen]
    exact List.length_replicate _ _
  refine ⟨hi.popped_eq, ?_, ?_, ?_, ?_⟩
  · rw [hi.popped_eq]
    exact List.nodup_range _
  · rw [← hcount]
    exact hi.index_le
  · intro w hw hf
    constructor
    · have hlt : w < s.threads.length := by
        by_contra hc
        rw [List.getElem?_eq_none (by omega)] at hw
        exact Option.noConfusion hw
      have e : activation output s w = { s with threads := s.threads.set w pc_t.done } := by
        rw [activation]
        simp only [hw, hf]
        rfl
      rw [e]
      show (s.threads.set w pc_t.done)[w]? = some pc_t.done
      rw [List.getElem?_set_self hlt]
    · intro sched2
      exact pool_run_stopped output w sched2 s hf (Or.inl hw)
  · intro hok hd
    have hperm := hi.perm
    rw [all_done_inflight s hd, List.append_nil] at hperm
    have hne : s.threads ≠ [] := by
      intro h
      rw [h] at hlen
      exact absurd hlen (by decide)
    obtain ⟨pc, hpc⟩ := List.exists_mem_of_ne_nil _ hne
    have hdone : pc_t.done ∈ s.threads := by
      rw [← hd pc hpc]
      exact hpc
    rcases hi.done_reason hdone with hf | he
    · obtain ⟨j, hj, ho⟩ := hi.flag_false hf
      have hjr : j ∈ List.range s.main_list.index := hperm.mem_iff.mp hj
      rw [List.mem_range] at hjr
      have := hi.index_le
      exact absurd (hok j (by omega)) ho
    · rw [he, hcount] at hperm
      exact hperm

set_option maxRecDepth 100000 in
theorem pool_run_rounds :
    pool_run (fun _ => 0) (main_start 3)
        [0, 1, 2, 3, 4, 5, 0, 1, 2, 3, 4, 5, 0, 1, 2, 3, 4, 5, 0, 1, 2, 3, 4, 5,
          0, 1, 2, 3, 4, 5] =
      pool_state.mk (pool_t.mk 3 3) true (List.replicate 6 pc_t.done)
        [(0, 0), (1, 1), (2, 2)] [0, 1, 2] := by
  decide

/-- Witness for `pool_claims`: three jobs that all succeed, the six workers taking their
steps in turn for five rounds; the workers `0`, `1`, `2` pop and execute the jobs `0`, `1`,
`2`, and all workers return. -/
theorem pool_claims_witness :
    pool_run (fun _ => 0) (main_start 3)
        [0, 1, 2, 3, 4, 5, 0, 1, 2, 3, 4, 5, 0, 1, 2, 3, 4, 5, 0, 1, 2, 3, 4, 5,
          0, 1, 2, 3, 4, 5] =
      pool_state.mk (pool_t.mk 3 3) true (List.replicate 6 pc_t.done)
        [(0, 0), (1, 1), (2, 2)] [0, 1, 2] ∧
    (∀ j, j < 3 → (fun _ => 0) j = 0) ∧
    all_done (pool_state.mk (pool_t.mk 3 3) true (List.replicate 6 pc_t.done)
      [(0, 0), (1, 1), (2, 2)] [0, 1, 2]) ∧
    ([0, 1, 2] : List Nat).Perm (List.range 3) :=
  ⟨pool_run_rounds, fun _ _ => rfl, by decide,
    (pool_claims (fun _ => 0) 3
      [0, 1, 2, 3, 4, 5, 0, 1, 2, 3, 4, 5, 0, 1, 2, 3, 4, 5, 0, 1, 2, 3, 4, 5,
        0, 1, 2, 3, 4, 5]
      (pool_state.mk (pool_t.mk 3 3) true (List.replicate 6 pc_t.done)
        [(0, 0), (1, 1), (2, 2)] [0, 1, 2]) pool_run_rounds).2.2.2.2
      (fun _ _ => rfl) (by decide)⟩

/-! ## The base cases of `prv__sort` -/

/-- The two-element base case: one compare-and-swap, which leaves the pair in order. -/
theorem prv__sort_pair (cmp : α → α → Int) (hv : ValidCmp cmp) (fuel : Nat) (a b : α) :
    prv__sort cmp fuel [a, b] = some (if cmp a b > 0 then [b, a] else [a, b]) ∧
    NonDecreasing cmp (if cmp a b > 0 then [b, a] else [a, b]) := by
  constructor
  · rw [prv__sort_le_three _ _ _ (by simp)]
    simp only [prv__sort_small, List.length_cons, List.length_nil]
    by_cases hc : cmp a b > 0
    · simp [SWAP, hc]
    · simp [SWAP, hc]
  · by_cases hc : cmp a b > 0
    · rw [if_pos hc]
      intro i x y hx hy
      match i, hx, hy with
      | 0, hx, hy =>
        simp only [List.getElem?_cons_zero, List.getElem?_cons_succ, Option.some.injEq]
          at hx hy
        subst hx hy
        exact le_of_lt ((hv.antisymm b a).mpr hc)
      | i + 1, hx, hy => simp at hy
    · rw [if_neg hc]
      intro i x y hx hy
      match i, hx, hy with
      | 0, hx, hy =>
        simp only [List.getElem?_cons_zero, List.getElem?_cons_succ, Option.some.injEq]
          at hx hy
        subst hx hy
        omega
      | i + 1, hx, hy => simp at hy

/-- C20 (code defect, failing inputs): the three-element base case of `prv__sort` is not a
sorting network.  On `[2, 3, 1]` (branch `cmp(a, b) ≤ 0`, `cmp(b, c) > 0`) it swaps `b, c`
and then `a, c` where `a, b` is needed, and leaves `[3, 1, 2]`; on `[3, 2, 1]` (branch
`cmp(a, b) > 0`) its third swap is `b, c` where `a, b` is needed, and it leaves
`[2, 3, 1]`.  Neither result is non-decreasing under `std_cmp`. -/
theorem prv__sort_three_unsorted :
    (∀ fuel, prv__sort (std_cmp : Int → Int → Int) fuel [2, 3, 1] = some [3, 1, 2]) ∧
    ¬ NonDecreasing (std_cmp : Int → Int → Int) [3, 1, 2] ∧
    (∀ fuel, prv__sort (std_cmp : Int → Int → Int) fuel [3, 2, 1] = some [2, 3, 1]) ∧
    ¬ NonDecreasing (std_cmp : Int → Int → Int) [2, 3, 1] := by
  refine ⟨?_, ?_, ?_, ?_⟩
  · intro fuel
    rw [prv__sort_le_three _ _ _ (by decide)]
    decide
  · intro h
    have := h 0 3 1 (by decide) (by decide)
    revert this
    decide
  · intro fuel
    rw [prv__sort_le_three _ _ _ (by decide)]
    decide
  · intro h
    have := h 1 3 1 (by decide) (by decide)
    revert this
    decide

/-! ## The pivot rule -/

/-- The value of `sort_pivot` as a decision table over the three comparisons. -/
theorem sort_pivot_cases (cmp : α → α → Int) (vec : List α) (b m l : α)
    (hb : vec[0]? = some b) (hm : vec[vec.length / 2]? = some m)
    (hl : vec[vec.length - 1]? = some l) :
    sort_pivot cmp vec = some
      (if cmp b m > 0 then
        if cmp m l > 0 then vec.length / 2
        else if cmp b l > 0 then vec.length - 1
        else 0
      else if cmp b l > 0 then 0
      else if cmp m l > 0 then vec.length - 1
      else vec.length / 2) := by
  simp only [sort_pivot, hb, hm, hl, Option.bind_eq_bind, Option.some_bind, Option.pure_def]
  split_ifs <;> rfl

theorem ValidCmp.nonneg_iff {cmp : α → α → Int} (hv : ValidCmp cmp) (x y : α) :
    0 ≤ cmp y x ↔ cmp x y ≤ 0 := by
  have := hv.antisymm y x
  constructor
  · intro h
    by_contra hc
    have : cmp y x < 0 := this.mpr (by omega)
    omega
  · intro h
    by_contra hc
    have : 0 < cmp x y := this.mp (by omega)
    omega

theorem ValidCmp.neg_of_pos {cmp : α → α → Int} (hv : ValidCmp cmp) (x y : α)
    (h : 0 < cmp x y) : cmp y x < 0 :=
  (hv.antisymm y x).mpr h

theorem three_records (vec : List α) (h : 1 ≤ vec.length) :
    ∃ b m l, vec[0]? = some b ∧ vec[vec.length / 2]? = some m ∧
      vec[vec.length - 1]? = some l := by
  have hmb : vec.length / 2 < vec.length := by omega
  have hlb : vec.length - 1 < vec.length := by omega
  exact ⟨vec[0], vec[vec.length / 2], vec[vec.length - 1],
    List.getElem?_eq_getElem (by omega), List.getElem?_eq_getElem hmb,
    List.getElem?_eq_getElem hlb⟩

/-- C21: for every sequence of length `≥ 1` and every valid comparator, `sort_pivot` and
`select_pivot` return the same record, which is the first, the middle (index `len / 2`) or
the last record and is a median of those three: one of the other two compares `≤` it and
the other one compares `≥` it. -/
theorem pivot_median (cmp : α → α → Int) (hv : ValidCmp cmp) (vec : List α)
    (hlen : 1 ≤ vec.length) :
    ∃ (p : Nat) (b m l : α), vec[0]? = some b ∧ vec[vec.length / 2]? = some m ∧
      vec[vec.length - 1]? = some l ∧
      sort_pivot cmp vec = some p ∧ select_pivot cmp vec = some p ∧
      ((p = vec.length / 2 ∧ median3 cmp m b l) ∨ (p = 0 ∧ median3 cmp b m l) ∨
        (p = vec.length - 1 ∧ median3 cmp l b m)) := by
  obtain ⟨b, m, l, hb, hm, hl⟩ := three_records vec hlen
  refine ⟨_, b, m, l, hb, hm, hl, sort_pivot_cases cmp vec b m l hb hm hl,
    (select_pivot_eq cmp vec).trans (sort_pivot_cases cmp vec b m l hb hm hl), ?_⟩
  by_cases h1 : cmp b m > 0
  · rw [if_pos h1]
    by_cases h2 : cmp m l > 0
    · rw [if_pos h2]
      exact Or.inl ⟨rfl, Or.inr ⟨le_of_lt (hv.neg_of_pos m l h2), le_of_lt h1⟩⟩
    · rw [if_neg h2]
      by_cases h3 : cmp b l > 0
      · rw [if_pos h3]
        exact Or.inr (Or.inr ⟨rfl, Or.inr ⟨by omega, le_of_lt h3⟩⟩)
      · rw [if_neg h3]
        exact Or.inr (Or.inl ⟨rfl, Or.inl ⟨le_of_lt (hv.neg_of_pos b m h1),
          (hv.nonneg_iff b l).mpr (by omega)⟩⟩)
  · rw [if_neg h1]
    by_cases h3 : cmp b l > 0
    · rw [if_pos h3]
      exact Or.inr (Or.inl ⟨rfl, Or.inr ⟨le_of_lt (hv.neg_of_pos b l h3),
        (hv.nonneg_iff b m).mpr (by omega)⟩⟩)
    · rw [if_neg h3]
      by_cases h2 : cmp m l > 0
      · rw [if_pos h2]
        exact Or.inr (Or.inr ⟨rfl, Or.inl ⟨by omega, le_of_lt h2⟩⟩)
      · rw [if_neg h2]
        exact Or.inl ⟨rfl, Or.inl ⟨by omega, (hv.nonneg_iff m l).mpr (by omega)⟩⟩

/-- Witness for `pivot_median`: the integers `[5, 9, 7, 1, 3]`; first `5`, middle `7`, last
`3`, and the pivot is the first record. -/
theorem pivot_median_witness :
    ∃ (p : Nat) (b m l : Int), ([5, 9, 7, 1, 3] : List Int)[0]? = some b ∧
      ([5, 9, 7, 1, 3] : List Int)[([5, 9, 7, 1, 3] : List Int).length / 2]? = some m ∧
      ([5, 9, 7, 1, 3] : List Int)[([5, 9, 7, 1, 3] : List Int).length - 1]? = some l ∧
      sort_pivot std_cmp ([5, 9, 7, 1, 3] : List Int) = some p ∧
      select_pivot std_cmp ([5, 9, 7, 1, 3] : List Int) = some p ∧
      ((p = ([5, 9, 7, 1, 3] : List Int).length / 2 ∧ median3 std_cmp m b l) ∨
        (p = 0 ∧ median3 std_cmp b m l) ∨
        (p = ([5, 9, 7, 1, 3] : List Int).length - 1 ∧ median3 std_cmp l b m)) :=
  pivot_median std_cmp std_cmp_valid ([5, 9, 7, 1, 3] : List Int) (by decide)

/-- C22 (counterexample): on `[3, 1, 1]` the middle record (index `1`) is a median of
(first, middle, last), yet the pivot functions return the last record (index `2`), which is
not the unique median; on `[1, 2, 1]` the middle record is not a median and the first record
is one, yet the pivot functions return the last record (index `2`). -/
theorem pivot_tie_counterexample :
    (sort_pivot (std_cmp : Int → Int → Int) [3, 1, 1] = some 2 ∧
      select_pivot (std_cmp : Int → Int → Int) [3, 1, 1] = some 2 ∧
      median3 (std_cmp : Int → Int → Int) 1 3 1 ∧ (2 : Nat) ≠ 3 / 2) ∧
    (sort_pivot (std_cmp : Int → Int → Int) [1, 2, 1] = some 2 ∧
      select_pivot (std_cmp : Int → Int → Int) [1, 2, 1] = some 2 ∧
      ¬ median3 (std_cmp : Int → Int → Int) 2 1 1 ∧
      median3 (std_cmp : Int → Int → Int) 1 2 1 ∧ (2 : Nat) ≠ 0) := by
  decide

/-- C22 (amended): the pivot rule with its ties.  For every sequence of length `≥ 1` and
every valid comparator, with `b`, `m`, `l` the first, middle and last record, the pivot
functions return the middle record when `b ≤ m ≤ l` or `b > m > l`; the first record when
`m < b ≤ l` or `l < b ≤ m`; the last record when `m ≤ l < b` or `b ≤ l < m`; and one of these
six cases always holds. -/
theorem pivot_rule (cmp : α → α → Int) (hv : ValidCmp cmp) (vec : List α)
    (hlen : 1 ≤ vec.length) :
    ∃ (p : Nat) (b m l : α), vec[0]? = some b ∧ vec[vec.length / 2]? = some m ∧
      vec[vec.length - 1]? = some l ∧
      sort_pivot cmp vec = some p ∧ select_pivot cmp vec = some p ∧
      (((cmp b m ≤ 0 ∧ cmp m l ≤ 0) ∨ (0 < cmp b m ∧ 0 < cmp m l)) → p = vec.length / 2) ∧
      (((0 < cmp b m ∧ cmp b l ≤ 0) ∨ (0 < cmp b l ∧ cmp b m ≤ 0)) → p = 0) ∧
      (((cmp m l ≤ 0 ∧ 0 < cmp b l ∧ 0 < cmp b m) ∨
        (cmp b l ≤ 0 ∧ 0 < cmp m l ∧ cmp b m ≤ 0)) → p = vec.length - 1) ∧
      (((cmp b m ≤ 0 ∧ cmp m l ≤ 0) ∨ (0 < cmp b m ∧ 0 < cmp m l)) ∨
        ((0 < cmp b m ∧ cmp b l ≤ 0) ∨ (0 < cmp b l ∧ cmp b m ≤ 0)) ∨
        ((cmp m l ≤ 0 ∧ 0 < cmp b l ∧ 0 < cmp b m) ∨
          (cmp b l ≤ 0 ∧ 0 < cmp m l ∧ cmp b m ≤ 0))) := by
  obtain ⟨b, m, l, hb, hm, hl⟩ := three_records vec hlen
  refine ⟨_, b, m, l, hb, hm, hl, sort_pivot_cases cmp vec b m l hb hm hl,
    (select_pivot_eq cmp vec).trans (sort_pivot_cases cmp vec b m l hb hm hl), ?_, ?_, ?_, ?_⟩
  · rintro (⟨h1, h2⟩ | ⟨h1, h2⟩)
    · have h3 : cmp b l ≤ 0 := hv.trans b m l h1 h2
      rw [if_neg (by omega), if_neg (by omega), if_neg (by omega)]
    · rw [if_pos h1, if_pos h2]
  · rintro (⟨h1, h3⟩ | ⟨h3, h1⟩)
    · have h2 : cmp m l ≤ 0 :=
        hv.trans m b l (le_of_lt (hv.neg_of_pos b m h1)) h3
      rw [if_pos h1, if_neg (by omega), if_neg (by omega)]
    · rw [if_neg (by omega), if_pos h3]
  · rintro (⟨h2, h3, h1⟩ | ⟨h3, h2, h1⟩)
    · rw [if_pos h1, if_neg (by omega), if_pos h3]
    · rw [if_neg (by omega), if_neg (by omega), if_pos h2]
  · by_cases h1 : 0 < cmp b m <;> by_cases h2 : 0 < cmp m l <;> by_cases h3 : 0 < cmp b l
    all_goals first
      | exact Or.inl (Or.inl ⟨by omega, by omega⟩)
      | exact Or.inl (Or.inr ⟨h1, h2⟩)
      | exact Or.inr (Or.inl (Or.inl ⟨h1, by omega⟩))
      | exact Or.inr (Or.inl (Or.inr ⟨h3, by omega⟩))
      | exact Or.inr (Or.inr (Or.inl ⟨by omega, h3, h1⟩))
      | exact Or.inr (Or.inr (Or.inr ⟨by omega, h2, by omega⟩))

/-- Witness for `pivot_rule`: the integers `[3, 1, 1]`, where `m ≤ l < b` and the pivot is
the last record. -/
theorem pivot_rule_witness :
    ∃ (p : Nat) (b m l : Int), ([3, 1, 1] : List Int)[0]? = some b ∧
      ([3, 1, 1] : List Int)[([3, 1, 1] : List Int).length / 2]? = some m ∧
      ([3, 1, 1] : List Int)[([3, 1, 1] : List Int).length - 1]? = some l ∧
      sort_pivot std_cmp ([3, 1, 1] : List Int) = some p ∧
      select_pivot std_cmp ([3, 1, 1] : List Int) = some p ∧
      (((std_cmp b m ≤ 0 ∧ std_cmp m l ≤ 0) ∨ (0 < std_cmp b m ∧ 0 < std_cmp m l)) →
        p = ([3, 1, 1] : List Int).length / 2) ∧
      (((0 < std_cmp b m ∧ std_cmp b l ≤ 0) ∨ (0 < std_cmp b l ∧ std_cmp b m ≤ 0)) → p = 0) ∧
      (((std_cmp m l ≤ 0 ∧ 0 < std_cmp b l ∧ 0 < std_cmp b m) ∨
        (std_cmp b l ≤ 0 ∧ 0 < std_cmp m l ∧ std_cmp b m ≤ 0)) →
          p = ([3, 1, 1] : List Int).length - 1) ∧
      (((std_cmp b m ≤ 0 ∧ std_cmp m l ≤ 0) ∨ (0 < std_cmp b m ∧ 0 < std_cmp m l)) ∨
        ((0 < std_cmp b m ∧ std_cmp b l ≤ 0) ∨ (0 < std_cmp b l ∧ std_cmp b m ≤ 0)) ∨
        ((std_cmp m l ≤ 0 ∧ 0 < std_cmp b l ∧ 0 < std_cmp b m) ∨
          (std_cmp b l ≤ 0 ∧ 0 < std_cmp m l ∧ std_cmp b m ≤ 0))) :=
  pivot_rule std_cmp std_cmp_valid ([3, 1, 1] : List Int) (by decide)

/-- Growth rule of `darr_write` on natural numbers.  Every write that returns changes the
capacity as follows: from a capacity `c > 0` the write returns `0` and the capacity becomes
`c * 4 ^ k` for the least `k` with `c * 4 ^ k ≥ index + data_len` (so it is unchanged when
`c ≥ index + data_len`); from the empty buffer (null data, capacity `0`) the write returns
`0` and the capacity becomes the least multiple of `8` that is `≥ index + data_len`.  The
write does return whenever `data_len ≥ 1` bytes are supplied. -/
theorem darr_write_growth (data : List Nat) (data_len index : Nat) (dv : darr_t) :
    (1 ≤ data_len → data_len ≤ data.length →
      ∃ r dv1, darr_write data data_len index dv = some (r, dv1)) ∧
    ∀ r dv1, darr_write data data_len index dv = some (r, dv1) →
      (0 < dv.size → r = 0 ∧ ∃ k, dv1.size = dv.size * 4 ^ k ∧
        index + data_len ≤ dv.size * 4 ^ k ∧
        (∀ j, j < k → dv.size * 4 ^ j < index + data_len) ∧
        (index + data_len ≤ dv.size → dv1.size = dv.size)) ∧
      (dv.size = 0 → dv.array = none → r = 0 ∧ 8 ∣ dv1.size ∧
        index + data_len ≤ dv1.size ∧
        ∀ m, 8 ∣ m → index + data_len ≤ m → dv1.size ≤ m) := by
  constructor
  · intro hlen hdata
    obtain ⟨r, dv1, h, _⟩ := darr_write_total data data_len index dv hlen hdata
    exact ⟨r, dv1, h⟩
  · intro r dv1 h
    rcases darr_write_inv data data_len index dv dv1 r h with
      ⟨_, _, h0, ha⟩ | ⟨hr, hlen, _, _, hle, _, hz, hnz⟩
    · constructor
      · intro hpos
        omega
      · intro _ hnone
        rw [hnone] at ha
        exact Bool.noConfusion ha
    · constructor
      · intro hpos
        obtain ⟨k, hk, hmin⟩ := hnz (by omega)
        refine ⟨hr, k, hk, by rw [← hk]; exact hle, hmin, ?_⟩
        intro hsuff
        cases k with
        | zero => rw [hk, pow_zero, Nat.mul_one]
        | succ k =>
          have := hmin 0 (by omega)
          rw [pow_zero, Nat.mul_one] at this
          omega
      · intro h0 _
        rw [hz h0]
        refine ⟨hr, by omega, by omega, ?_⟩
        intro m hm hle2
        omega

/-- C25: `select` treats `k` as a 1-based rank.  For every sequence, every valid comparator
and every `k` with `1 ≤ k ≤ len` (so the sequence is non-empty), `select` returns (any
recursion depth `fuel ≥ len - 1` gives the same result) a record `x` of the sequence as it
stands afterwards, which is a permutation of the input, and `x` compares equal to the
record at 0-indexed position `k - 1` of every fully sorted sequence of the input. -/
theorem select_one_based (cmp : α → α → Int) (hv : ValidCmp cmp) (vec : List α) (k : Nat)
    (hk1 : 1 ≤ k) (hk2 : k ≤ vec.length) :
    ∃ (out : List α) (ret : Nat) (x : α),
      (∀ fuel, vec.length ≤ fuel + 1 → select cmp fuel vec k = some (out, ret)) ∧
      out.Perm vec ∧ out[ret]? = some x ∧
      (∃ s, SortedOf cmp s vec) ∧
      ∀ s, SortedOf cmp s vec → ∃ y, s[k - 1]? = some y ∧ cmp x y = 0 := by
  obtain ⟨out, ret, x, hsel, hperm, hget, h1, h2⟩ := select_spec cmp hv vec k hk1 hk2
  refine ⟨out, ret, x, hsel, hperm, hget, sortedOf_exists cmp hv vec, ?_⟩
  intro s hs
  have hlen : s.length = vec.length := hs.1.length_eq
  have hlt : k - 1 < s.length := by omega
  exact ⟨s[k - 1], List.getElem?_eq_getElem hlt,
    rank_position cmp hv s vec x s[k - 1] k hs hk1 h1 h2 (List.getElem?_eq_getElem hlt)⟩

/-- Witness for `select_one_based`: the integers `[4, 1, 3, 2]` with `k = 2`; the record
returned is `2`, the record at position `1` of the sorted sequence `[1, 2, 3, 4]`. -/
theorem select_one_based_witness :
    ∃ (out : List Int) (ret : Nat) (x : Int),
      (∀ fuel, ([4, 1, 3, 2] : List Int).length ≤ fuel + 1 →
        select std_cmp fuel ([4, 1, 3, 2] : List Int) 2 = some (out, ret)) ∧
      out.Perm [4, 1, 3, 2] ∧ out[ret]? = some x ∧
      (∃ s, SortedOf std_cmp s ([4, 1, 3, 2] : List Int)) ∧
      ∀ s, SortedOf std_cmp s ([4, 1, 3, 2] : List Int) →
        ∃ y, s[2 - 1]? = some y ∧ std_cmp x y = 0 :=
  select_one_based std_cmp std_cmp_valid ([4, 1, 3, 2] : List Int) 2 (by decide) (by decide)

/-- C26: for every valid comparator (in particular `cmp x x = 0`), a partition step of
`prv__sort` / `prv__select` on a non-empty region, around the pivot the pivot function
picks in that region, yields a non-empty "equal" region `[l_mid, u_mid)`, so both regions
handed to the recursive calls are strictly shorter, and the rank passed on by `prv__select`
stays within `1 .. length` of the region it is passed with; hence `sort` returns on every
input (any recursion depth `fuel ≥ len - 3`) and `select` returns for every `1 ≤ k ≤ len`
(any `fuel ≥ len - 1`). -/
theorem sort_select_terminate (cmp : α → α → Int) (hv : ValidCmp cmp) (vec : List α) :
    (1 ≤ vec.length →
      ∃ (pivot : Nat) (buf : α) (out : List α) (l_mid u_mid : Nat),
        sort_pivot cmp vec = some pivot ∧ select_pivot cmp vec = some pivot ∧
        vec[pivot]? = some buf ∧
        sort_partition cmp buf vec = some (out, l_mid, u_mid) ∧
        select_partition cmp buf vec = some (out, l_mid, u_mid) ∧
        l_mid < u_mid ∧ u_mid ≤ vec.length ∧
        l_mid < vec.length ∧ vec.length - (u_mid - l_mid) - l_mid < vec.length ∧
        ∀ k, 1 ≤ k → k ≤ vec.length →
          (k ≤ l_mid → 1 ≤ k ∧ k ≤ l_mid) ∧
          (¬ k ≤ l_mid → ¬ k - l_mid ≤ u_mid - l_mid →
            1 ≤ k - l_mid - (u_mid - l_mid) ∧
            k - l_mid - (u_mid - l_mid) ≤ vec.length - (u_mid - l_mid) - l_mid)) ∧
    (∃ out, ∀ fuel, vec.length ≤ fuel + 3 → sort cmp fuel vec = some out) ∧
    (∀ k, 1 ≤ k → k ≤ vec.length →
      ∃ r, ∀ fuel, vec.length ≤ fuel + 1 → select cmp fuel vec k = some r) := by
  refine ⟨?_, ?_, ?_⟩
  · intro hlen
    have hne : vec ≠ [] := by
      intro h
      rw [h, List.length_nil] at hlen
      omega
    obtain ⟨pivot, hp, hlt⟩ := sort_pivot_spec cmp vec hne
    obtain ⟨out, l, u, hpart, hinv⟩ := sort_partition_spec cmp vec[pivot] vec
    have hmem : vec[pivot] ∈ vec := List.getElem_mem hlt
    have hmid := hinv.mid_nonempty hmem (hv.refl _)
    obtain ⟨_, hu, _⟩ := hinv.bounds
    refine ⟨pivot, vec[pivot], out, l, u, hp, (select_pivot_eq cmp vec).trans hp,
      List.getElem?_eq_getElem hlt, hpart,
      (select_partition_eq cmp vec[pivot] vec).trans hpart, hmid, hu, by omega, by omega, ?_⟩
    intro k hk1 hk2
    exact ⟨fun h => ⟨hk1, h⟩, fun h1 h2 => ⟨by omega, by omega⟩⟩
  · obtain ⟨out, h, _⟩ := prv__sort_spec cmp hv.refl (vec.length - 3) vec (by omega)
    exact ⟨out, fun fuel hf => prv__sort_fuel_mono cmp _ fuel vec out h (by omega)⟩
  · intro k hk1 hk2
    obtain ⟨out, ret, x, hsel, _⟩ := select_spec cmp hv vec k hk1 hk2
    exact ⟨(out, ret), hsel⟩

/-- Witness for `sort_select_terminate`: the integers `[4, 1, 3, 2, 5]`. -/
theorem sort_select_terminate_witness :
    (∃ out, ∀ fuel, ([4, 1, 3, 2, 5] : List Int).length ≤ fuel + 3 →
      sort std_cmp fuel ([4, 1, 3, 2, 5] : List Int) = some out) ∧
    (∃ r, ∀ fuel, ([4, 1, 3, 2, 5] : List Int).length ≤ fuel + 1 →
      select std_cmp fuel ([4, 1, 3, 2, 5] : List Int) 3 = some r) ∧
    ∃ (pivot : Nat) (buf : Int) (out : List Int) (l_mid u_mid : Nat),
      sort_pivot std_cmp ([4, 1, 3, 2, 5] : List Int) = some pivot ∧
      select_pivot std_cmp ([4, 1, 3, 2, 5] : List Int) = some pivot ∧
      ([4, 1, 3, 2, 5] : List Int)[pivot]? = some buf ∧
      sort_partition std_cmp buf ([4, 1, 3, 2, 5] : List Int) = some (out, l_mid, u_mid) ∧
      select_partition std_cmp buf ([4, 1, 3, 2, 5] : List Int) = some (out, l_mid, u_mid) ∧
      l_mid < u_mid ∧ u_mid ≤ ([4, 1, 3, 2, 5] : List Int).length ∧
      l_mid < ([4, 1, 3, 2, 5] : List Int).length ∧
      ([4, 1, 3, 2, 5] : List Int).length - (u_mid - l_mid) - l_mid <
        ([4, 1, 3, 2, 5] : List Int).length ∧
      ∀ k, 1 ≤ k → k ≤ ([4, 1, 3, 2, 5] : List Int).length →
        (k ≤ l_mid → 1 ≤ k ∧ k ≤ l_mid) ∧
        (¬ k ≤ l_mid → ¬ k - l_mid ≤ u_mid - l_mid →
          1 ≤ k - l_mid - (u_mid - l_mid) ∧
          k - l_mid - (u_mid - l_mid) ≤
            ([4, 1, 3, 2, 5] : List Int).length - (u_mid - l_mid) - l_mid) :=
  ⟨(sort_select_terminate std_cmp std_cmp_valid ([4, 1, 3, 2, 5] : List Int)).2.1,
    (sort_select_terminate std_cmp std_cmp_valid ([4, 1, 3, 2, 5] : List Int)).2.2 3
      (by decide) (by decide),
    (sort_select_terminate std_cmp std_cmp_valid ([4, 1, 3, 2, 5] : List Int)).1 (by decide)⟩

/-! ## The gram comparator is a total preorder -/

theorem first_diff_neg : ∀ (a b : List Nat), first_diff a b = - first_diff b a := by
  intro a
  induction a with
  | nil => intro b; cases b <;> simp [first_diff]
  | cons x ta ih =>
    intro b
    cases b with
    | nil => simp [first_diff]
    | cons y tb =>
      simp only [first_diff]
      by_cases hxy : x = y
      · subst hxy
        simp only [if_true]
        exact ih tb
      · have hyx : ¬ y = x := fun h => hxy h.symm
        rw [if_neg hxy, if_neg hyx]
        by_cases hlt : x < y
        · rw [if_pos hlt, if_neg (by omega)]
        · rw [if_neg hlt, if_pos (by omega)]
          rfl

theorem first_diff_sign : ∀ (a b : List Nat),
    first_diff a b = -1 ∨ first_diff a b = 0 ∨ first_diff a b = 1 := by
  intro a
  induction a with
  | nil => intro b; cases b <;> simp [first_diff]
  | cons x ta ih =>
    intro b
    cases b with
    | nil => simp [first_diff]
    | cons y tb =>
      simp only [first_diff]
      by_cases hxy : x = y
      · rw [if_pos hxy]
        exact ih tb
      · rw [if_neg hxy]
        by_cases hlt : x < y
        · rw [if_pos hlt]; exact Or.inl rfl
        · rw [if_neg hlt]; exact Or.inr (Or.inr rfl)

theorem first_diff_trans : ∀ (a b c : List Nat), a.length = b.length → b.length = c.length →
    first_diff a b ≤ 0 → first_diff b c ≤ 0 → first_diff a c ≤ 0 := by
  intro a
  induction a with
  | nil => intro b c _ _ _ _; cases c <;> simp [first_diff]
  | cons x ta ih =>
    intro b c h1 h2 hab hbc
    cases b with
    | nil => simp at h1
    | cons y tb =>
      cases c with
      | nil => simp at h2
      | cons z tc =>
        simp only [List.length_cons, Nat.add_right_cancel_iff] at h1 h2
        simp only [first_diff] at hab hbc ⊢
        have hxy : x ≤ y := by
          by_contra hc
          rw [if_neg (by omega), if_neg (by omega)] at hab
          omega
        have hyz : y ≤ z := by
          by_contra hc
          rw [if_neg (by omega), if_neg (by omega)] at hbc
          omega
        by_cases hxz : x = z
        · have e1 : x = y := by omega
          have e2 : y = z := by omega
          rw [if_pos hxz]
          rw [if_pos e1] at hab
          rw [if_pos e2] at hbc
          exact ih tb tc h1 h2 hab hbc
        · rw [if_neg hxz, if_pos (by omega)]
          omega

theorem cmp_ref_valid (G : Nat) (image : image_t) (i j : Nat) (hi : gram_valid G image i)
    (hj : gram_valid G image j) :
    cmp_ref G image i j = first_diff (gram_window G image i) (gram_window G image j) := by
  rw [cmp_ref, if_neg (by simpa using hi), if_neg (by simpa using hj)]
  by_cases h : gram_window G image i = gram_window G image j
  · rw [if_pos h, h, first_diff_self]
  · rw [if_neg h]

theorem cmp_ref_preorder (G : Nat) (image : image_t) (i j k : Nat) :
    cmp_ref G image i i = 0 ∧ cmp_ref G image i j = - cmp_ref G image j i ∧
    (cmp_ref G image i j ≤ 0 → cmp_ref G image j k ≤ 0 → cmp_ref G image i k ≤ 0) ∧
    (cmp_ref G image i j = -1 ∨ cmp_ref G image i j = 0 ∨ cmp_ref G image i j = 1) := by
  by_cases hi : gram_valid G image i <;> by_cases hj : gram_valid G image j
  · rw [cmp_ref_valid G image i j hi hj, cmp_ref_valid G image j i hj hi,
      cmp_ref_valid G image i i hi hi]
    refine ⟨first_diff_self _, first_diff_neg _ _, ?_, first_diff_sign _ _⟩
    intro h1 h2
    by_cases hk : gram_valid G image k
    · rw [cmp_ref_valid G image j k hj hk] at h2
      rw [cmp_ref_valid G image i k hi hk]
      exact first_diff_trans _ _ _
        (by rw [gram_window_length, gram_window_length])
        (by rw [gram_window_length, gram_window_length]) h1 h2
    · simp [cmp_ref, hi, hk]
  · refine ⟨by rw [cmp_ref_valid G image i i hi hi, first_diff_self],
      by simp [cmp_ref, hi, hj], ?_, by simp [cmp_ref, hi, hj]⟩
    intro _ h2
    by_cases hk : gram_valid G image k
    · simp [cmp_ref, hj, hk] at h2
    · simp [cmp_ref, hi, hk]
  · refine ⟨by simp [cmp_ref, hi], by simp [cmp_ref, hi, hj], ?_, by simp [cmp_ref, hi, hj]⟩
    intro h1
    simp [cmp_ref, hi, hj] at h1
  · refine ⟨by simp [cmp_ref, hi], by simp [cmp_ref, hi, hj], ?_, by simp [cmp_ref, hi, hj]⟩
    intro _ h2
    by_cases hk : gram_valid G image k
    · simp [cmp_ref, hj, hk] at h2
    · simp [cmp_ref, hi, hk]

/-- On a binary image the gram comparator is a valid comparator. -/
theorem cmp_valid (G : Nat) (image : image_t) (hb : binary_image image) :
    ValidCmp (cmp G image) where
  refl := fun x => by
    rw [cmp_eq_cmp_ref_aux G image hb]
    exact (cmp_ref_preorder G image x x x).1
  antisymm := fun x y => by
    rw [cmp_eq_cmp_ref_aux G image hb, cmp_eq_cmp_ref_aux G image hb,
      (cmp_ref_preorder G image x y x).2.1]
    omega
  trans := fun x y z => by
    rw [cmp_eq_cmp_ref_aux G image hb, cmp_eq_cmp_ref_aux G image hb,
      cmp_eq_cmp_ref_aux G image hb]
    exact (cmp_ref_preorder G image x y z).2.2.1

/-- C27: the gram comparator satisfies the precondition of `sort` and `select`.  For every
binary image, every gram size and all pixel indices `i`, `j`, `k` (in particular for
`width ≥ 1`, `G ≥ 1` and indices in range): `cmp i i = 0`, `cmp i j = - cmp j i`,
`cmp i j ≤ 0` and `cmp j k ≤ 0` imply `cmp i k ≤ 0`, and `cmp i j` is `-1`, `0` or `1`. -/
theorem cmp_total_preorder (G : Nat) (image : image_t) (hb : binary_image image)
    (i j k : Nat) :
    cmp G image i i = 0 ∧ cmp G image i j = - cmp G image j i ∧
    (cmp G image i j ≤ 0 → cmp G image j k ≤ 0 → cmp G image i k ≤ 0) ∧
    (cmp G image i j = -1 ∨ cmp G image i j = 0 ∨ cmp G image i j = 1) := by
  rw [cmp_eq_cmp_ref_aux G image hb, cmp_eq_cmp_ref_aux G image hb,
    cmp_eq_cmp_ref_aux G image hb, cmp_eq_cmp_ref_aux G image hb,
    cmp_eq_cmp_ref_aux G image hb]
  exact cmp_ref_preorder G image i j k

/-- Witness for `cmp_total_preorder`: the `3 × 3` image `cross_image` with `G = 2` and the
valid anchors `0`, `1`, `3`, whose windows are `[0,1,1,0]`, `[1,1,0,1]`, `[1,0,1,1]`. -/
theorem cmp_total_preorder_witness :
    binary_image cross_image ∧
    cmp 2 cross_image 0 3 = -1 ∧ cmp 2 cross_image 3 1 = -1 ∧ cmp 2 cross_image 0 1 = -1 ∧
    (cmp 2 cross_image 0 0 = 0 ∧ cmp 2 cross_image 0 3 = - cmp 2 cross_image 3 0 ∧
      (cmp 2 cross_image 0 3 ≤ 0 → cmp 2 cross_image 3 1 ≤ 0 → cmp 2 cross_image 0 1 ≤ 0) ∧
      (cmp 2 cross_image 0 3 = -1 ∨ cmp 2 cross_image 0 3 = 0 ∨ cmp 2 cross_image 0 3 = 1)) :=
  ⟨by decide, by decide, by decide, by decide,
    cmp_total_preorder 2 cross_image (by decide) 0 3 1⟩

/-! ## The walk returns on every table without repetitions -/

theorem synth_run_total (G : Nat) (image : image_t) (index_matrix : List Nat) (n i : Nat)
    (hlen : index_matrix.length = n) (hi : i < n) :
    ∀ (fuel j counter : Nat), n ≤ j + 1 + fuel →
      ∃ r, synth_run G image index_matrix n i fuel j counter = some r := by
  intro fuel
  induction fuel with
  | zero =>
    intro j counter h
    rw [synth_run, if_neg (by omega)]
    exact ⟨_, rfl⟩
  | succ fuel ih =>
    intro j counter h
    rw [synth_run]
    by_cases hc : j + 1 < n
    · rw [if_pos hc]
      have ha : index_matrix[i]? = some index_matrix[i] :=
        List.getElem?_eq_getElem (by omega)
      have hb : index_matrix[j + 1]? = some index_matrix[j + 1] :=
        List.getElem?_eq_getElem (by omega)
      simp only [ha, hb, Option.bind_eq_bind, Option.some_bind, Option.pure_def]
      by_cases hcmp : cmp G image index_matrix[i] index_matrix[j + 1] ≠ 0
      · rw [if_pos hcmp]
        exact ⟨_, rfl⟩
      · rw [if_neg hcmp]
        exact ih (j + 1) (counter + 1) (by omega)
    · rw [if_neg hc]
      exact ⟨_, rfl⟩

theorem store_some (recurrence : List Nat) (size_list counter : Nat)
    (h : size_list < recurrence.length) :
    store recurrence size_list counter = some (recurrence.set size_list counter) := by
  rw [store, if_pos h]

/-- One iteration of the walk at a valid anchor, when the table of counts has room and the
inner loop ends at `j` with the count `counter`: the walk goes on from a later position
with one more run, of `counter` entries, and that position is `j + 1` when `j` is the last
position of the table, else `j`. -/
theorem synth_walk_step (G : Nat) (image : image_t) (index_matrix : List Nat) (n : Nat)
    (hl : image.bitboard.length = image.width * image.height)
    (s : walk_t) (runs : List run_t) (index : Nat)
    (hi : WalkInv G image index_matrix s runs) (hc : s.i < n)
    (hidx : index_matrix[s.i]? = some index) (hv : gram_valid G image index)
    (hroom : s.size_list < s.recurrence.length) (j counter : Nat) (broke : Bool)
    (hrun : synth_run G image index_matrix n s.i n s.i 1 = some (j, counter, broke)) :
    ∃ s1 : walk_t, WalkInv G image index_matrix s1 (runs ++ [run_t.mk s.i index counter]) ∧
      s1.i = (if j + 1 = n then j + 1 else if broke = true then j else s.i) ∧
      s.i < s1.i ∧ s1.recurrence.length = s.recurrence.length ∧
      s1.size_list = s.size_list + 1 ∧
      ∀ fuel, synth_walk G image index_matrix n (fuel + 1) s =
        synth_walk G image index_matrix n fuel s1 := by
  obtain ⟨my_list1, hpush, hholds⟩ :=
    synth_push_window G image index s.size_list (runs.map run_t.anchor) s.my_list hl hv
      (by rw [List.length_map]; exact hi.length_eq) hi.holds
  obtain ⟨hb1, hb2, hb3, hb4⟩ :=
    synth_run_bounds G image index_matrix n s.i n s.i 1 j counter broke (le_refl _) hc hrun
  obtain ⟨hq1, hq2, hq3, hq4⟩ :=
    synth_run_equal G image index_matrix n s.i index hidx n s.i 1 j counter broke
      (le_refl _) (by omega) (fun q h1 h2 => by omega) hrun
  have hninv : ¬ (index / image.width + G > image.height ∨
      index % image.width + G > image.width) := by
    obtain ⟨h1, h2⟩ := hv
    omega
  have hset : ((s.recurrence.set s.size_list counter).set s.size_list counter) =
      s.recurrence.set s.size_list counter := by
    rw [List.set_set]
  have hstore2 : store (s.recurrence.set s.size_list counter) s.size_list counter =
      some (s.recurrence.set s.size_list counter) := by
    rw [store_some _ _ _ (by rw [List.length_set]; exact hroom), hset]
  have hnext : s.i + counter ≤
      (if j + 1 = n then j + 1 else if broke = true then j else s.i) := by
    by_cases hjn : j + 1 = n
    · rw [if_pos hjn]
      cases broke with
      | true => have := hq2 rfl; omega
      | false => have := hq3 rfl; omega
    · rw [if_neg hjn]
      cases broke with
      | true => have := hq2 rfl; simp only [if_true]; omega
      | false => exact absurd (hb4 rfl) hjn
  refine ⟨{ i := if j + 1 = n then j + 1 else if broke = true then j else s.i,
            size_list := s.size_list + 1, my_list := my_list1,
            recurrence := s.recurrence.set s.size_list counter },
      ?_, rfl, ?_, List.length_set _ _ _, rfl, ?_⟩
  · have hmap : (runs ++ [run_t.mk s.i index counter]).map run_t.anchor =
        runs.map run_t.anchor ++ [index] := by
      rw [List.map_append]
      rfl
    refine ⟨?_, ?_, ?_, ?_, ?_, ?_, ?_⟩
    · rw [List.length_append, hi.length_eq]
      rfl
    · rw [hmap]
      have e : index_matrix.take (s.i + 1) = index_matrix.take s.i ++ [index] := by
        rw [List.take_succ, hidx]
        rfl
      have hs : (runs.map run_t.anchor ++ [index]).Sublist (index_matrix.take (s.i + 1)) := by
        rw [e]
        exact List.Sublist.append hi.sublist (List.Sublist.refl _)
      exact hs.trans (List.take_sublist_take_left _ (Nat.le_trans (by omega) hnext))
    · intro r hr
      rcases List.mem_append.mp hr with hr | hr
      · exact hi.valid r hr
      · rw [List.mem_singleton] at hr
        rw [hr]
        exact hv
    · rw [hmap]
      exact hholds
    · show s.size_list + 1 ≤ (s.recurrence.set s.size_list counter).length
      rw [List.length_set]
      omega
    · show (s.recurrence.set s.size_list counter).take (s.size_list + 1) = _
      obtain ⟨t1, g1⟩ := store_take _ _ _ _ (store_some s.recurrence s.size_list counter hroom)
      rw [List.take_succ, t1, hi.counts, g1, List.map_append]
      rfl
    · intro r hr
      rcases List.mem_append.mp hr with hr | hr
      · obtain ⟨g1, g2, g3, g4⟩ := hi.run r hr
        exact ⟨g1, g2, Nat.le_trans g3 (Nat.le_trans (by omega) hnext), g4⟩
      · rw [List.mem_singleton] at hr
        rw [hr]
        exact ⟨hidx, hq1, hnext, hq4⟩
  · exact Nat.lt_of_lt_of_le (by omega) hnext
  · intro fuel
    rw [synth_walk, if_pos hc]
    simp only [hidx, Option.bind_eq_bind, Option.some_bind, Option.pure_def]
    rw [if_neg hninv]
    simp only [hpush, Option.some_bind, ne_eq, not_true_eq_false, if_false, hrun]
    by_cases hbk : broke = true
    · rw [if_pos hbk, store_some _ _ _ hroom, Option.some_bind]
      by_cases hjn : j + 1 = n
      · rw [if_pos hjn, hstore2, Option.some_bind]
      · rw [if_neg hjn]
    · rw [if_neg hbk]
      have hjn : j + 1 = n := hb4 (by cases broke <;> simp_all)
      rw [if_pos hjn, store_some _ _ _ hroom, Option.some_bind]

/-! ## The table of counts has room for every run -/

/-- Anchors taken once each from a table of positions below `n` are no more than the valid
anchors of the image. -/
theorem anchors_le_valid (G : Nat) (image : image_t) (index_matrix : List Nat) (n : Nat)
    (hnd : index_matrix.Nodup) (hlt : ∀ a ∈ index_matrix, a < n) (l : List Nat)
    (hs : l.Sublist index_matrix) (hv : ∀ a ∈ l, gram_valid G image a) :
    l.length ≤ ((List.range n).filter (fun p => decide (gram_valid G image p))).length := by
  apply List.Subperm.length_le
  apply List.Nodup.subperm (hnd.sublist hs)
  intro a ha
  rw [List.mem_filter]
  exact ⟨List.mem_range.mpr (hlt a (hs.subset ha)), decide_eq_true (hv a ha)⟩

theorem max_num_of_grams_eq (G W H : Nat) (hW : 1 ≤ W) (hH : 1 ≤ H) :
    (((W : Int) - 1 + G) * ((H : Int) - 1 + G)).toNat = (W - 1 + G) * (H - 1 + G) := by
  have e1 : (W : Int) - 1 + G = ((W - 1 + G : Nat) : Int) := by omega
  have e2 : (H : Int) - 1 + G = ((H - 1 + G : Nat) : Int) := by omega
  rw [e1, e2, ← Nat.cast_mul, Int.toNat_natCast]

theorem valid_count_le (G : Nat) (image : image_t) (hG : 1 ≤ G) :
    ((List.range (image.width * image.height)).filter
      (fun p => decide (gram_valid G image p))).length ≤
      (image.width - 1 + G) * (image.height - 1 + G) := by
  by_cases h : G ≤ image.width ∧ G ≤ image.height
  · have e : (fun p => decide (gram_valid G image p)) =
        (fun p => decide (gram_valid G (ones_image image.width image.height) p)) := rfl
    rw [e, ← List.countP_eq_length_filter, count_valid G _ _ hG h.1 h.2]
    exact Nat.mul_le_mul (by omega) (by omega)
  · have e : (List.range (image.width * image.height)).filter
        (fun p => decide (gram_valid G image p)) = [] := by
      rw [List.filter_eq_nil_iff]
      intro a _ ha
      have hv : gram_valid G image a := of_decide_eq_true ha
      obtain ⟨h1, h2⟩ := hv
      apply h
      exact ⟨Nat.le_trans (Nat.le_add_left _ _) h2, Nat.le_trans (Nat.le_add_left _ _) h1⟩
    rw [e]
    exact Nat.zero_le _

/-- On a table without repetitions whose entries are positions of the image, the walk
returns `0` from every state that satisfies the invariant, as soon as the table of counts
has one cell for each valid anchor. -/
theorem synth_walk_total (G : Nat) (image : image_t) (index_matrix : List Nat) (n : Nat)
    (hl : image.bitboard.length = image.width * image.height)
    (hlen : index_matrix.length = n) (hnd : index_matrix.Nodup)
    (hlt : ∀ a ∈ index_matrix, a < n) :
    ∀ (fuel : Nat) (s : walk_t) (runs : List run_t),
      WalkInv G image index_matrix s runs → n ≤ s.i + fuel →
      ((List.range n).filter (fun p => decide (gram_valid G image p))).length ≤
        s.recurrence.length →
      ∃ (s1 : walk_t) (runs1 : List run_t),
        synth_walk G image index_matrix n fuel s = some (0, s1) ∧
        WalkInv G image index_matrix s1 runs1 ∧
        s1.recurrence.length = s.recurrence.length := by
  intro fuel
  induction fuel with
  | zero =>
    intro s runs hi hf _
    exact ⟨s, runs, synth_walk_stop G image index_matrix n 0 s (Or.inl (by omega)), hi, rfl⟩
  | succ fuel ih =>
    intro s runs hi hf hroom
    by_cases hc : s.i < n
    · have hidx : index_matrix[s.i]? = some index_matrix[s.i] :=
        List.getElem?_eq_getElem (by omega)
      by_cases hv : gram_valid G image index_matrix[s.i]
      · have hsub : (runs.map run_t.anchor ++ [index_matrix[s.i]]).Sublist index_matrix := by
          have e : index_matrix.take (s.i + 1) =
              index_matrix.take s.i ++ [index_matrix[s.i]] := by
            rw [List.take_succ, hidx]
            rfl
          have hs : (runs.map run_t.anchor ++ [index_matrix[s.i]]).Sublist
              (index_matrix.take (s.i + 1)) := by
            rw [e]
            exact List.Sublist.append hi.sublist (List.Sublist.refl _)
          exact hs.trans (List.take_sublist _ _)
        have hcount := anchors_le_valid G image index_matrix n hnd hlt _ hsub (by
          intro a ha
          rcases List.mem_append.mp ha with ha | ha
          · obtain ⟨r, hr, rfl⟩ := List.mem_map.mp ha
            exact hi.valid r hr
          · rw [List.mem_singleton] at ha
            rw [ha]
            exact hv)
        rw [List.length_append, List.length_map, hi.length_eq] at hcount
        have hlt1 : s.size_list < s.recurrence.length :=
          Nat.lt_of_lt_of_le (by simpa using hcount) hroom
        obtain ⟨⟨j, counter, broke⟩, hrun⟩ :=
          synth_run_total G image index_matrix n s.i hlen hc n s.i 1 (by omega)
        obtain ⟨s1, hi1, _, hadv, hrl, _, hstep⟩ :=
          synth_walk_step G image index_matrix n hl s runs _ hi hc hidx hv hlt1
            j counter broke hrun
        obtain ⟨s2, runs2, hw, hi2, hrl2⟩ :=
          ih s1 _ hi1 (by omega) (by rw [hrl]; exact hroom)
        exact ⟨s2, runs2, by rw [hstep fuel]; exact hw, hi2, by rw [hrl2, hrl]⟩
      · exact ⟨s, runs, synth_walk_stop G image index_matrix n (fuel + 1) s
          (Or.inr ⟨by omega, _, hidx, hv⟩), hi, rfl⟩
    · exact ⟨s, runs, synth_walk_stop G image index_matrix n (fuel + 1) s
        (Or.inl (by omega)), hi, rfl⟩

/-- **C28** (the table of counts never overflows). For an image of width and height at
least `1` whose bitboard holds `width * height` cells, a gram size `G ≥ 1` and an index
table that is a permutation of `0 .. width * height - 1`, the walk of `synth` over the
table, started as `synth` starts it with a table of counts of
`max_num_of_grams = (width - 1 + G) * (height - 1 + G)` cells, returns `0`: every store
`recurrence[size_list] = counter` falls inside the table of counts (a store outside it has
no result in the model).  The final `size_list` is at most the number of valid anchors of
the image, which is at most `max_num_of_grams`, the length of the table of counts. -/
theorem recurrence_never_overflows (G : Nat) (image : image_t) (index_matrix : List Nat)
    (hG : 1 ≤ G) (hW : 1 ≤ image.width) (hH : 1 ≤ image.height)
    (hl : image.bitboard.length = image.width * image.height)
    (hp : index_matrix.Perm (List.range (image.width * image.height))) :
    ∃ s : walk_t,
      synth_walk G image index_matrix (image.width * image.height)
        (image.width * image.height)
        { i := 0, size_list := 0, my_list := empty_vec,
          recurrence := List.replicate
            (((image.width : Int) - 1 + G) * ((image.height : Int) - 1 + G)).toNat 0 } =
        some (0, s) ∧
      s.size_list ≤ ((List.range (image.width * image.height)).filter
        (fun p => decide (gram_valid G image p))).length ∧
      ((List.range (image.width * image.height)).filter
        (fun p => decide (gram_valid G image p))).length ≤
        (image.width - 1 + G) * (image.height - 1 + G) ∧
      (((image.width : Int) - 1 + G) * ((image.height : Int) - 1 + G)).toNat =
        (image.width - 1 + G) * (image.height - 1 + G) ∧
      s.recurrence.length = (image.width - 1 + G) * (image.height - 1 + G) := by
  have hlen : index_matrix.length = image.width * image.height := by
    rw [hp.length_eq, List.length_range]
  have hnd : index_matrix.Nodup := hp.nodup_iff.mpr (List.nodup_range _)
  have hlt : ∀ a ∈ index_matrix, a < image.width * image.height := fun a ha =>
    List.mem_range.mp (hp.subset ha)
  have hmax := max_num_of_grams_eq G image.width image.height hW hH
  have hcnt := valid_count_le G image hG
  have h0 : WalkInv G image index_matrix
      { i := 0, size_list := 0, my_list := empty_vec,
        recurrence := List.replicate
          (((image.width : Int) - 1 + G) * ((image.height : Int) - 1 + G)).toNat 0 } [] :=
    ⟨rfl, List.nil_sublist _, fun r hr => absurd hr (List.not_mem_nil r),
      Or.inl ⟨rfl, rfl⟩, Nat.zero_le _, rfl, fun r hr => absurd hr (List.not_mem_nil r)⟩
  obtain ⟨s, runs, hw, hi, hrl⟩ :=
    synth_walk_total G image index_matrix _ hl hlen hnd hlt (image.width * image.height) _ []
      h0 (Nat.le_add_left _ _) (by
        show _ ≤ (List.replicate _ 0).length
        rw [List.length_replicate, hmax]
        exact hcnt)
  refine ⟨s, hw, ?_, hcnt, hmax, ?_⟩
  · rw [← hi.length_eq, ← List.length_map runs run_t.anchor]
    exact anchors_le_valid G image index_matrix _ hnd hlt _
      (hi.sublist.trans (List.take_sublist _ _)) (by
        intro a ha
        obtain ⟨r, hr, rfl⟩ := List.mem_map.mp ha
        exact hi.valid r hr)
  · rw [hrl]
    show (List.replicate _ 0).length = _
    rw [List.length_replicate, hmax]

theorem recurrence_never_overflows_witness :
    ∃ s : walk_t,
      synth_walk 2 cross_image (List.range 9) (cross_image.width * cross_image.height)
        (cross_image.width * cross_image.height)
        { i := 0, size_list := 0, my_list := empty_vec,
          recurrence := List.replicate
            (((cross_image.width : Int) - 1 + (2 : Nat)) *
              ((cross_image.height : Int) - 1 + (2 : Nat))).toNat 0 } =
        some (0, s) ∧
      s.size_list ≤ ((List.range (cross_image.width * cross_image.height)).filter
        (fun p => decide (gram_valid 2 cross_image p))).length ∧
      ((List.range (cross_image.width * cross_image.height)).filter
        (fun p => decide (gram_valid 2 cross_image p))).length ≤
        (cross_image.width - 1 + 2) * (cross_image.height - 1 + 2) ∧
      (((cross_image.width : Int) - 1 + (2 : Nat)) *
        ((cross_image.height : Int) - 1 + (2 : Nat))).toNat =
        (cross_image.width - 1 + 2) * (cross_image.height - 1 + 2) ∧
      s.recurrence.length = (cross_image.width - 1 + 2) * (cross_image.height - 1 + 2) :=
  recurrence_never_overflows 2 cross_image (List.range 9) (by decide) (by decide) (by decide)
    (by decide) (List.Perm.refl _)

/-! ## Maximal runs of a list -/

theorem walk_ref_nil (G : Nat) (image : image_t) : walk_ref G image [] = [] := rfl

/-! ## The runs the walk counts -/

theorem SIZE_MAX_succ : SIZE_MAX + 1 = 2 ^ 64 := by decide

theorem CPY_some (dest : List Nat) (index : Nat) (src : List Nat) (size : Nat) (a : List Nat)
    (h : CPY dest index src size = some a) :
    1 ≤ size ∧ size ≤ src.length ∧ index + size ≤ dest.length ∧
      a = dest.take index ++ src.take size ++ dest.drop (index + size) := by
  unfold CPY at h
  split_ifs at h with h1 h2 h3
  simp only [Option.some.injEq] at h
  exact ⟨by omega, by omega, by omega, h.symm⟩

theorem darr_write_grow64_zero (new_len fuel : Nat) :
    darr_write_grow64 new_len fuel 0 = some 0 := by
  cases fuel <;> simp [darr_write_grow64]

theorem darr_write_grow64_stop (new_len fuel size : Nat) (h : new_len ≤ size) :
    darr_write_grow64 new_len fuel size = some size := by
  cases fuel with
  | zero => rw [darr_write_grow64, if_neg (by omega)]
  | succ fuel => rw [darr_write_grow64, if_neg (by omega)]

/-- As long as the capacity reaches `new_len` by quadrupling below `2^64`, the loop on
words does what the loop on natural numbers does: it stops at `size * 4 ^ k0` for the
least `k0` with `new_len ≤ size * 4 ^ k0`. -/
theorem darr_write_grow64_fits (new_len : Nat) :
    ∀ (k fuel size : Nat), size ≠ 0 → k ≤ fuel → new_len ≤ size * 4 ^ k →
      size * 4 ^ k < 2 ^ 64 →
      ∃ k0, darr_write_grow64 new_len fuel size = some (size * 4 ^ k0) ∧
        new_len ≤ size * 4 ^ k0 ∧ ∀ j, j < k0 → size * 4 ^ j < new_len := by
  intro k
  induction k with
  | zero =>
    intro fuel size _ _ hle _
    rw [pow_zero, Nat.mul_one] at hle
    refine ⟨0, ?_, by rw [pow_zero, Nat.mul_one]; exact hle,
      fun j hj => absurd hj (Nat.not_lt_zero j)⟩
    rw [pow_zero, Nat.mul_one]
    exact darr_write_grow64_stop new_len fuel size hle
  | succ k ih =>
    intro fuel size h0 hk hle hlt
    by_cases hs : new_len ≤ size
    · refine ⟨0, ?_, by rw [pow_zero, Nat.mul_one]; exact hs,
        fun j hj => absurd hj (Nat.not_lt_zero j)⟩
      rw [pow_zero, Nat.mul_one]
      exact darr_write_grow64_stop new_len fuel size hs
    · obtain ⟨fuel, rfl⟩ : ∃ f, fuel = f + 1 := ⟨fuel - 1, by omega⟩
      have e4 : size * 4 ^ (k + 1) = size * 4 * 4 ^ k := by rw [pow_succ]; ring
      have hpos : 0 < 4 ^ k := Nat.pow_pos (by decide)
      have hsmall : size * 4 < 2 ^ 64 := by
        have : size * 4 ≤ size * 4 * 4 ^ k := Nat.le_mul_of_pos_right _ hpos
        omega
      have hshift : (size <<< 2) % (SIZE_MAX + 1) = size * 4 := by
        rw [Nat.shiftLeft_eq, SIZE_MAX_succ]
        exact Nat.mod_eq_of_lt hsmall
      obtain ⟨k0, hk0, hle0, hmin0⟩ :=
        ih fuel (size * 4) (by omega) (by omega) (by rw [← e4]; exact hle)
          (by rw [← e4]; exact hlt)
      refine ⟨k0 + 1, ?_, ?_, ?_⟩
      · rw [darr_write_grow64, if_pos ⟨h0, by omega⟩, hshift, hk0]
        congr 1
        rw [pow_succ]
        ring
      · calc new_len ≤ size * 4 * 4 ^ k0 := hle0
          _ = size * 4 ^ (k0 + 1) := by rw [pow_succ]; ring
      · intro j hj
        cases j with
        | zero => rw [pow_zero, Nat.mul_one]; omega
        | succ j =>
          have := hmin0 j (by omega)
          calc size * 4 ^ (j + 1) = size * 4 * 4 ^ j := by rw [pow_succ]; ring
            _ < new_len := this

/-- The loop on words always ends: the capacity reaches `new_len`, or the shifts clear
it. -/
theorem darr_write_grow64_total (new_len : Nat) :
    ∀ (fuel size : Nat), size < 2 ^ 64 → (4 ^ fuel * size) % 2 ^ 64 = 0 →
      ∃ r, darr_write_grow64 new_len fuel size = some r ∧ r < 2 ^ 64 ∧
        (r = 0 ∨ new_len ≤ r) ∧ (8 ∣ size → 8 ∣ r) := by
  intro fuel
  induction fuel with
  | zero =>
    intro size hlt h0
    rw [pow_zero, Nat.one_mul, Nat.mod_eq_of_lt hlt] at h0
    subst h0
    exact ⟨0, darr_write_grow64_zero new_len 0, by decide, Or.inl rfl, fun h => h⟩
  | succ fuel ih =>
    intro size hlt h0
    by_cases hc : size ≠ 0 ∧ new_len > size
    · have hlt1 : (size <<< 2) % (SIZE_MAX + 1) < 2 ^ 64 := by
        rw [SIZE_MAX_succ]
        exact Nat.mod_lt _ (by decide)
      have h01 : (4 ^ fuel * ((size <<< 2) % (SIZE_MAX + 1))) % 2 ^ 64 = 0 := by
        rw [SIZE_MAX_succ, Nat.shiftLeft_eq, Nat.mul_mod, Nat.mod_mod, ← Nat.mul_mod]
        have e : 4 ^ fuel * (size * 2 ^ 2) = 4 ^ (fuel + 1) * size := by
          rw [pow_succ]
          ring
        rw [e]
        exact h0
      obtain ⟨r, hr, hrl, hro, hr8⟩ := ih _ hlt1 h01
      refine ⟨r, by rw [darr_write_grow64, if_pos hc]; exact hr, hrl, hro, ?_⟩
      intro h8
      apply hr8
      rw [SIZE_MAX_succ, Nat.shiftLeft_eq]
      exact (Nat.dvd_mod_iff (by decide : 8 ∣ 2 ^ 64)).mpr (Dvd.dvd.mul_right h8 _)
    · refine ⟨size, by rw [darr_write_grow64, if_neg hc], hlt, by omega, fun h => h⟩

theorem darr_alloc64_eq (len : Nat) (h : len ≤ SIZE_MAX - 7) :
    darr_alloc64 len = darr_alloc len := by
  unfold darr_alloc64 darr_alloc
  by_cases h0 : len = 0
  · rw [if_pos h0, if_pos h0]
  · rw [if_neg h0, if_neg h0]
    have e : ((len - 1) / 8 * 8 + 8) % (SIZE_MAX + 1) = (len - 1) / 8 * 8 + 8 := by
      rw [SIZE_MAX_succ]
      apply Nat.mod_eq_of_lt
      have : SIZE_MAX = 2 ^ 64 - 1 := rfl
      omega
    simp only [e]

/-- Within reach (`darr_fits`), a write on words is the write on natural numbers. -/
theorem darr_write64_eq (data : List Nat) (data_len index : Nat) (dv : darr_t)
    (hfit : darr_fits dv (index + data_len)) :
    darr_write64 data data_len index dv = darr_write data data_len index dv := by
  have hmax : SIZE_MAX = 2 ^ 64 - 1 := rfl
  rcases hfit with ⟨h0, hnone⟩ | ⟨h0, k, hle, hlt⟩
  · cases ha : dv.array with
    | some arr =>
      simp only [darr_write64, darr_write, h0, darr_write_grow64_zero, darr_write_grow_zero,
        Option.bind_eq_bind, Option.some_bind, ha, Option.isSome_some, if_true, Option.pure_def]
    | none =>
      have hb := hnone ha
      have e : (index + data_len) % (SIZE_MAX + 1) = index + data_len := by
        rw [SIZE_MAX_succ]
        exact Nat.mod_eq_of_lt (by omega)
      simp only [darr_write64, darr_write, h0, darr_write_grow64_zero, darr_write_grow_zero,
        Option.bind_eq_bind, Option.some_bind, ha, e, darr_alloc64_eq _ hb]
  · have e : (index + data_len) % (SIZE_MAX + 1) = index + data_len := by
      rw [SIZE_MAX_succ]
      exact Nat.mod_eq_of_lt (by omega)
    have hk32 : k ≤ 32 := by
      by_contra hk
      have h1 : 4 ^ 32 ≤ 4 ^ k := Nat.pow_le_pow_right (by decide) (by omega)
      have h2 : 4 ^ k ≤ dv.size * 4 ^ k := Nat.le_mul_of_pos_left _ (by omega)
      have h3 : (4 : Nat) ^ 32 = 2 ^ 64 := by decide
      omega
    obtain ⟨k0, hk0, hle0, hmin0⟩ :=
      darr_write_grow64_fits (index + data_len) k 32 dv.size h0 hk32 hle (by omega)
    obtain ⟨k1, hk1, hle1, hmin1⟩ :=
      darr_write_grow_pow (index + data_len) (index + data_len) dv.size h0 (by omega)
    have hkk : k0 = k1 := by
      rcases Nat.lt_trichotomy k0 k1 with h | h | h
      · have := hmin1 k0 h
        omega
      · exact h
      · have := hmin0 k1 h
        omega
    subst hkk
    have hne : dv.size * 4 ^ k0 ≠ 0 := by
      have : 0 < 4 ^ k0 := Nat.pow_pos (by decide)
      exact Nat.ne_of_gt (Nat.mul_pos (by omega) this)
    simp only [darr_write64, darr_write, e, hk0, hk1, Option.bind_eq_bind, Option.some_bind,
      if_neg hne]

/-- An end offset up to `2^62` is within reach of every allocated buffer and of the empty
buffer. -/
theorem darr_fits_of_le (dv : darr_t) (e : Nat) (hs : dv.size ≤ SIZE_MAX) (he : e ≤ 2 ^ 62) :
    darr_fits dv e := by
  have hmax : SIZE_MAX = 2 ^ 64 - 1 := rfl
  by_cases h0 : dv.size = 0
  · exact Or.inl ⟨h0, fun _ => by omega⟩
  · refine Or.inr ⟨h0, ?_⟩
    have hex : ∃ k, e ≤ dv.size * 4 ^ k := by
      refine ⟨e, ?_⟩
      have h1 : e < 4 ^ e := Nat.lt_pow_self (by decide) e
      have h2 : 4 ^ e ≤ dv.size * 4 ^ e := Nat.le_mul_of_pos_left _ (by omega)
      omega
    refine ⟨Nat.find hex, Nat.find_spec hex, ?_⟩
    cases hk : Nat.find hex with
    | zero => rw [pow_zero, Nat.mul_one]; exact hs
    | succ j =>
      have hj : ¬ e ≤ dv.size * 4 ^ j := Nat.find_min hex (by omega)
      have e4 : dv.size * 4 ^ (j + 1) = 4 * (dv.size * 4 ^ j) := by rw [pow_succ]; ring
      rw [e4]
      omega

/-- A write to a buffer whose capacity is a `size_t` value, with an end offset up to `2^62`,
is the same on words and on natural numbers. -/
theorem darr_write64_eq_of_le (data : List Nat) (data_len index : Nat) (dv : darr_t)
    (hs : dv.size ≤ SIZE_MAX) (he : index + data_len ≤ 2 ^ 62) :
    darr_write64 data data_len index dv = darr_write data data_len index dv :=
  darr_write64_eq data data_len index dv (darr_fits_of_le dv _ hs he)

/-- Every way `darr_write64` can return, read off its result. -/
theorem darr_write64_inv (data : List Nat) (data_len index : Nat) (dv dv1 : darr_t) (r : Nat)
    (h : darr_write64 data data_len index dv = some (r, dv1)) :
    (r = 1 ∧ dv1.array = dv.array ∧ dv1.size = 0 ∧ dv.array.isSome = true) ∨
    (r = 0 ∧ 1 ≤ data_len ∧ data_len ≤ data.length ∧ index + data_len ≤ dv1.size ∧
      dv1.array = some ((realloc dv.array dv1.size).take index ++ data.take data_len ++
        (realloc dv.array dv1.size).drop (index + data_len))) := by
  simp only [darr_write64, Option.bind_eq_bind] at h
  cases hg : darr_write_grow64 ((index + data_len) % (SIZE_MAX + 1)) 32 dv.size with
  | none =>
    rw [hg] at h
    exact Option.noConfusion h
  | some size =>
    simp only [hg, Option.some_bind] at h
    by_cases h0 : size = 0
    · rw [if_pos h0] at h
      by_cases ha : dv.array.isSome = true
      · rw [if_pos ha] at h
        simp only [Option.pure_def, Option.some.injEq, Prod.mk.injEq] at h
        obtain ⟨hr, hd⟩ := h
        subst hd
        exact Or.inl ⟨hr.symm, rfl, h0, ha⟩
      · rw [if_neg ha] at h
        have hnone : dv.array = none := by
          cases hx : dv.array with
          | none => rfl
          | some a => rw [hx] at ha; exact absurd rfl ha
        have hre : realloc (darr_alloc64 ((index + data_len) % (SIZE_MAX + 1))).array
            (darr_alloc64 ((index + data_len) % (SIZE_MAX + 1))).size =
            realloc dv.array (darr_alloc64 ((index + data_len) % (SIZE_MAX + 1))).size := by
          rw [hnone]
          unfold darr_alloc64
          by_cases hz : (index + data_len) % (SIZE_MAX + 1) = 0
          · rw [if_pos hz]
            rfl
          · rw [if_neg hz]
            simp [realloc]
        rw [hre] at h
        cases hc : CPY (realloc dv.array
            (darr_alloc64 ((index + data_len) % (SIZE_MAX + 1))).size) index data data_len with
        | none =>
          rw [hc] at h
          exact Option.noConfusion h
        | some a =>
          rw [hc] at h
          simp only [Option.some_bind, Option.pure_def, Option.some.injEq, Prod.mk.injEq] at h
          obtain ⟨hr, hd⟩ := h
          subst hd
          obtain ⟨c1, c2, c3, c4⟩ := CPY_some _ _ _ _ _ hc
          rw [realloc_length] at c3
          exact Or.inr ⟨hr.symm, c1, c2, c3, by rw [c4]⟩
    · rw [if_neg h0] at h
      cases hc : CPY (realloc dv.array size) index data data_len with
      | none =>
        rw [hc] at h
        exact Option.noConfusion h
      | some a =>
        rw [hc] at h
        simp only [Option.some_bind, Option.pure_def, Option.some.injEq, Prod.mk.injEq] at h
        obtain ⟨hr, hd⟩ := h
        subst hd
        obtain ⟨c1, c2, c3, c4⟩ := CPY_some _ _ _ _ _ hc
        rw [realloc_length] at c3
        exact Or.inr ⟨hr.symm, c1, c2, c3, by rw [c4]⟩

/-- **C11** (capacity after a successful write, on 64-bit words).  For every buffer, in
particular every buffer reachable from the empty buffer or `darr_alloc` by successful
writes, and every `data`, `data_len` and `index`: a `darr_write` that returns `0` leaves
the capacity `≥ index + data_len`.  Such writes exist: the write returns `0` whenever
`data_len ≥ 1` bytes are supplied, the buffer is not in the state "capacity `0`, data
pointer non-null", and the end offset is within reach of the buffer (`darr_fits`). -/
theorem darr_write64_capacity (data : List Nat) (data_len index : Nat) (dv : darr_t) :
    (∀ dv1, darr_write64 data data_len index dv = some (0, dv1) →
      index + data_len ≤ dv1.size) ∧
    (1 ≤ data_len → data_len ≤ data.length →
      ¬ (dv.size = 0 ∧ dv.array.isSome = true) → darr_fits dv (index + data_len) →
      ∃ dv1, darr_write64 data data_len index dv = some (0, dv1)) := by
  constructor
  · intro dv1 hw
    rcases darr_write64_inv data data_len index dv dv1 0 hw with ⟨h, _⟩ | ⟨_, _, _, hle, _⟩
    · exact absurd h (by decide)
    · exact hle
  · intro hlen hdata hv hfit
    obtain ⟨r, dv1, hw, _, h0⟩ := darr_write_total data data_len index dv hlen hdata
    have hr0 : r = 0 := h0.mpr hv
    subst hr0
    exact ⟨dv1, by rw [darr_write64_eq data data_len index dv hfit]; exact hw⟩

theorem darr_write64_near :
    darr_write64 [1, 2, 3] 3 7 (darr_alloc64 3) =
      some (0, darr_t.mk (some (List.replicate 7 0 ++ [1, 2, 3] ++ List.replicate 22 0)) 32) := by
  decide

/-- Witness for `darr_write64_capacity`: three bytes written at offset `7` of the buffer
`darr_alloc64 3` (capacity `8`); the write returns `0` and the capacity afterwards is
`32 ≥ 10`. -/
theorem darr_write64_capacity_witness :
    (darr_alloc64 3).size = 8 ∧
    darr_write64 [1, 2, 3] 3 7 (darr_alloc64 3) =
      some (0, darr_t.mk (some (List.replicate 7 0 ++ [1, 2, 3] ++ List.replicate 22 0)) 32) ∧
    7 + 3 ≤ (darr_t.mk (some (List.replicate 7 0 ++ [1, 2, 3] ++ List.replicate 22 0)) 32).size :=
  ⟨by decide, darr_write64_near,
    (darr_write64_capacity [1, 2, 3] 3 7 (darr_alloc64 3)).1 _ darr_write64_near⟩

/-- **C14** (counterexample).  (1) One byte written at offset `2^63` to the buffer
`darr_alloc64 8` (capacity `8`, data pointer non-null): the loop quadruples the capacity
up to `2^63`, which is still below `2^63 + 1`, the next shift clears the word, and
`darr_write` returns `1` although the capacity was not `0` on entry; the buffer is left
with capacity `0`, not unchanged.  (2) A write of `data_len = 0` bytes to the same buffer
has no defined result: the `do ... while` loop of `CPY` copies a byte before it tests its
counter; the write does not return `0`. -/
theorem darr_write64_fails_otherwise :
    darr_alloc64 8 = darr_t.mk (some (List.replicate 8 0)) 8 ∧
    darr_write64 [7] 1 (2 ^ 63) (darr_alloc64 8) =
      some (1, darr_t.mk (some (List.replicate 8 0)) 0) ∧
    darr_write64 [7] 0 0 (darr_alloc64 8) = none := by
  decide

/-- **C14** (amended).  For every buffer, every `index` and every `data_len ≥ 1` (with
`data` holding at least `data_len` bytes) whose end offset `index + data_len` is within
reach of the buffer on 64-bit words (`darr_fits`): `darr_write` returns, its return code is
`0` or `1`, it is `1` exactly when on entry the capacity is `0` while the data pointer is
non-null, in that case the buffer is left unchanged, and in every other case the return
code is `0`. -/
theorem darr_write64_fails_iff (data : List Nat) (data_len index : Nat) (dv : darr_t)
    (hlen : 1 ≤ data_len) (hdata : data_len ≤ data.length)
    (hfit : darr_fits dv (index + data_len)) :
    ∃ r dv1, darr_write64 data data_len index dv = some (r, dv1) ∧
      (r = 1 ↔ (dv.size = 0 ∧ dv.array.isSome = true)) ∧
      (r = 1 → dv1 = dv) ∧
      (r = 0 ↔ ¬ (dv.size = 0 ∧ dv.array.isSome = true)) ∧
      (r = 0 ∨ r = 1) := by
  rw [darr_write64_eq data data_len index dv hfit]
  exact darr_write_fails_iff data data_len index dv hlen hdata

/-- Witness for `darr_write64_fails_iff`: one byte written to the buffer with capacity `0`
and a non-null data pointer; the return code is `1` and the buffer is unchanged. -/
theorem darr_write64_fails_iff_witness :
    darr_write64 [7] 1 0 (darr_t.mk (some []) 0) = some (1, darr_t.mk (some []) 0) ∧
    ∃ r dv1, darr_write64 [7] 1 0 (darr_t.mk (some []) 0) = some (r, dv1) ∧
      (r = 1 ↔ ((darr_t.mk (some []) 0).size = 0 ∧
        (darr_t.mk (some []) 0).array.isSome = true)) ∧
      (r = 1 → dv1 = darr_t.mk (some []) 0) ∧
      (r = 0 ↔ ¬ ((darr_t.mk (some []) 0).size = 0 ∧
        (darr_t.mk (some []) 0).array.isSome = true)) ∧
      (r = 0 ∨ r = 1) :=
  ⟨by decide, darr_write64_fails_iff [7] 1 0 (darr_t.mk (some []) 0) (by decide) (by decide)
    (Or.inl ⟨rfl, fun h => Option.noConfusion h⟩)⟩

/-- **C15** (counterexample).  `darr_alloc64 SIZE_MAX`, a request of `2^64 - 1 ≥ 1` bytes:
`((len - 1) & ~7) + 8` is `2^64`, which is `0` as a word; the buffer returned has capacity
`0`, below the request, and no multiple of `8` that is `≥ len` is a `size_t`. -/
theorem darr_alloc64_wraps :
    1 ≤ SIZE_MAX ∧ darr_alloc64 SIZE_MAX = darr_t.mk (some []) 0 ∧
    (darr_alloc64 SIZE_MAX).size < SIZE_MAX := by
  decide

/-- **C15** (amended).  `darr_alloc(0)` is the canonical empty buffer (null data, capacity
`0`); for every `len` with `1 ≤ len ≤ SIZE_MAX - 7 = 2^64 - 8`, `darr_alloc(len)` is an
allocated block whose capacity is the least multiple of `8` that is `≥ len`, so that
`capacity - len` is in `0 .. 7`; for the seven larger values of `len` the capacity is
`0`. -/
theorem darr_alloc64_spec :
    darr_alloc64 0 = empty_vec ∧ empty_vec.array = none ∧ empty_vec.size = 0 ∧
    (∀ len, 1 ≤ len → len ≤ SIZE_MAX - 7 →
      (∃ arr, (darr_alloc64 len).array = some arr ∧ arr.length = (darr_alloc64 len).size) ∧
      8 ∣ (darr_alloc64 len).size ∧ len ≤ (darr_alloc64 len).size ∧
      (∀ m, 8 ∣ m → len ≤ m → (darr_alloc64 len).size ≤ m) ∧
      (darr_alloc64 len).size - len ≤ 7) ∧
    ∀ len, SIZE_MAX - 7 < len → len ≤ SIZE_MAX → (darr_alloc64 len).size = 0 := by
  refine ⟨rfl, rfl, rfl, ?_, ?_⟩
  · intro len hlen hmax
    rw [darr_alloc64_eq len hmax, darr_alloc_size len hlen]
    refine ⟨⟨_, rfl, by simp⟩, ?_, ?_, ?_, ?_⟩
    · show 8 ∣ (len - 1) / 8 * 8 + 8
      omega
    · show len ≤ (len - 1) / 8 * 8 + 8
      omega
    · intro m hm hle
      show (len - 1) / 8 * 8 + 8 ≤ m
      omega
    · show (len - 1) / 8 * 8 + 8 - len ≤ 7
      omega
  · intro len h1 h2
    have hmax : SIZE_MAX = 2 ^ 64 - 1 := rfl
    have e : ((len - 1) / 8 * 8 + 8) % (SIZE_MAX + 1) = 0 := by
      rw [SIZE_MAX_succ]
      have : (len - 1) / 8 * 8 + 8 = 2 ^ 64 := by omega
      rw [this]
      exact Nat.mod_self _
    unfold darr_alloc64
    rw [if_neg (by omega)]
    exact e

/-- Witness for `darr_alloc64_spec`: `darr_alloc64 13` has capacity `16`. -/
theorem darr_alloc64_spec_witness :
    (darr_alloc64 13).size = 16 ∧
    (∃ arr, (darr_alloc64 13).array = some arr ∧ arr.length = (darr_alloc64 13).size) ∧
      8 ∣ (darr_alloc64 13).size ∧ 13 ≤ (darr_alloc64 13).size ∧
      (∀ m, 8 ∣ m → 13 ≤ m → (darr_alloc64 13).size ≤ m) ∧
      (darr_alloc64 13).size - 13 ≤ 7 :=
  ⟨by decide, darr_alloc64_spec.2.2.2.1 13 (by decide) (by decide)⟩

/-- **C24** (counterexample).  (1) One byte written at offset `2^62` to the buffer
`darr_alloc64 16` (capacity `16`, end offset `2^62 + 1`): the least `k` with
`16 * 4 ^ k ≥ 2^62 + 1` is `30`, and `16 * 4 ^ 30 = 2^64` is `0` as a word; `darr_write`
returns `1` and leaves the capacity `0`.  (2) From the capacity `24` with `new_len = 2^63`
the loop stops at `2^63`, the low word of `24 * 4 ^ 30 = 3 * 2^63`.  (3) One byte written at
offset `2^64 - 2` to the empty buffer (end offset `2^64 - 1`): the least multiple of `8`
that is `≥` the end offset is `2^64`, `darr_alloc` returns a block of capacity `0` and the
copy has no defined result. -/
theorem darr_write64_growth_wraps :
    (darr_alloc64 16 = darr_t.mk (some (List.replicate 16 0)) 16 ∧
      darr_write64 [7] 1 (2 ^ 62) (darr_alloc64 16) =
        some (1, darr_t.mk (some (List.replicate 16 0)) 0) ∧
      16 * 4 ^ 29 < 2 ^ 62 + 1 ∧ 16 * 4 ^ 30 = 2 ^ 64) ∧
    (darr_write_grow64 (2 ^ 63) 32 24 = some (2 ^ 63) ∧
      24 * 4 ^ 29 < 2 ^ 63 ∧ 24 * 4 ^ 30 = 3 * 2 ^ 63) ∧
    (darr_write64 [7] 1 (SIZE_MAX - 1) empty_vec = none ∧
      (darr_alloc64 SIZE_MAX).size = 0) := by
  decide

/-- **C24** (amended): growth rule of `darr_write` on 64-bit words, for a write whose end
offset `index + data_len` is within reach of the buffer (`darr_fits`: the capacity `c > 0`
reaches it by quadrupling with `c * 4 ^ k ≤ SIZE_MAX`, or the buffer is empty and the end
offset is `≤ SIZE_MAX - 7`).  Every such write that returns changes the capacity as
follows: from a capacity `c > 0` the write returns `0` and the capacity becomes `c * 4 ^ k`
for the least `k` with `c * 4 ^ k ≥ index + data_len` (so it is unchanged when
`c ≥ index + data_len`); from the empty buffer (null data, capacity `0`) the write returns
`0` and the capacity becomes the least multiple of `8` that is `≥ index + data_len`.  The
write does return whenever `data_len ≥ 1` bytes are supplied. -/
theorem darr_write64_growth (data : List Nat) (data_len index : Nat) (dv : darr_t)
    (hfit : darr_fits dv (index + data_len)) :
    (1 ≤ data_len → data_len ≤ data.length →
      ∃ r dv1, darr_write64 data data_len index dv = some (r, dv1)) ∧
    ∀ r dv1, darr_write64 data data_len index dv = some (r, dv1) →
      (0 < dv.size → r = 0 ∧ ∃ k, dv1.size = dv.size * 4 ^ k ∧
        index + data_len ≤ dv.size * 4 ^ k ∧
        (∀ j, j < k → dv.size * 4 ^ j < index + data_len) ∧
        (index + data_len ≤ dv.size → dv1.size = dv.size)) ∧
      (dv.size = 0 → dv.array = none → r = 0 ∧ 8 ∣ dv1.size ∧
        index + data_len ≤ dv1.size ∧
        ∀ m, 8 ∣ m → index + data_len ≤ m → dv1.size ≤ m) := by
  rw [darr_write64_eq data data_len index dv hfit]
  exact darr_write_growth data data_len index dv

set_option maxRecDepth 100000 in
theorem darr_write64_far :
    darr_write64 [1, 1] 2 40 (darr_alloc64 8) =
      some (0, darr_t.mk (some (List.replicate 40 0 ++ [1, 1] ++ List.replicate 86 0)) 128) := by
  decide

/-- Witness for `darr_write64_growth`: two bytes written at offset `40` of a buffer of
capacity `8`; the capacity becomes `8 * 4 ^ 2 = 128`, the least sufficient one
(`8 * 4 = 32 < 42`). -/
theorem darr_write64_growth_witness :
    darr_fits (darr_alloc64 8) (40 + 2) ∧
    darr_write64 [1, 1] 2 40 (darr_alloc64 8) =
      some (0, darr_t.mk (some (List.replicate 40 0 ++ [1, 1] ++ List.replicate 86 0)) 128) ∧
    0 < (darr_alloc64 8).size ∧
    ((0 : Nat) = 0 ∧ ∃ k, 128 = (darr_alloc64 8).size * 4 ^ k ∧
        40 + 2 ≤ (darr_alloc64 8).size * 4 ^ k ∧
        (∀ j, j < k → (darr_alloc64 8).size * 4 ^ j < 40 + 2) ∧
        (40 + 2 ≤ (darr_alloc64 8).size → 128 = (darr_alloc64 8).size)) :=
  ⟨Or.inr ⟨by decide, 2, by decide, by decide⟩, darr_write64_far, by decide,
    ((darr_write64_growth [1, 1] 2 40 (darr_alloc64 8)
        (Or.inr ⟨by decide, 2, by decide, by decide⟩)).2 0
      (darr_t.mk (some (List.replicate 40 0 ++ [1, 1] ++ List.replicate 86 0)) 128)
      darr_write64_far).1 (by decide)⟩

/-! ## Capacity invariant and frame on 64-bit words -/

theorem darr_write_grow64_inv (new_len : Nat) :
    ∀ (fuel size r : Nat), darr_write_grow64 new_len fuel size = some r →
      (r = 0 ∨ new_len ≤ r) ∧ (r = size ∨ size < new_len) ∧ (8 ∣ size → 8 ∣ r) := by
  intro fuel
  induction fuel with
  | zero =>
    intro size r h
    rw [darr_write_grow64] at h
    by_cases hc : size ≠ 0 ∧ new_len > size
    · rw [if_pos hc] at h
      exact Option.noConfusion h
    · rw [if_neg hc] at h
      have e : size = r := Option.some.inj h
      subst e
      exact ⟨by omega, Or.inl rfl, fun h8 => h8⟩
  | succ fuel ih =>
    intro size r h
    rw [darr_write_grow64] at h
    by_cases hc : size ≠ 0 ∧ new_len > size
    · rw [if_pos hc] at h
      obtain ⟨h1, _, h3⟩ := ih _ r h
      refine ⟨h1, Or.inr hc.2, ?_⟩
      intro h8
      apply h3
      rw [SIZE_MAX_succ, Nat.shiftLeft_eq]
      exact (Nat.dvd_mod_iff (by decide : 8 ∣ 2 ^ 64)).mpr (Dvd.dvd.mul_right h8 _)
    · rw [if_neg hc] at h
      have e : size = r := Option.some.inj h
      subst e
      exact ⟨by omega, Or.inl rfl, fun h8 => h8⟩

theorem cap_ok_alloc64 (len : Nat) : cap_ok (darr_alloc64 len).size := by
  unfold darr_alloc64
  by_cases h : len = 0
  · rw [if_pos h]
    exact Or.inl rfl
  · rw [if_neg h]
    show cap_ok (((len - 1) / 8 * 8 + 8) % (SIZE_MAX + 1))
    have h8 : 8 ∣ ((len - 1) / 8 * 8 + 8) % (SIZE_MAX + 1) := by
      rw [SIZE_MAX_succ]
      exact (Nat.dvd_mod_iff (by decide : 8 ∣ 2 ^ 64)).mpr (by omega)
    by_cases h0 : ((len - 1) / 8 * 8 + 8) % (SIZE_MAX + 1) = 0
    · exact Or.inl h0
    · exact Or.inr ⟨by omega, h8⟩

/-- What a returning write on words does to the capacity: it is the capacity the loop
leaves, or the capacity of `darr_alloc64` when the loop leaves `0` on the empty buffer. -/
theorem darr_write64_size (data : List Nat) (data_len index : Nat) (dv dv1 : darr_t) (r : Nat)
    (h : darr_write64 data data_len index dv = some (r, dv1)) :
    ∃ size, darr_write_grow64 ((index + data_len) % (SIZE_MAX + 1)) 32 dv.size = some size ∧
      (dv1.size = size ∨
        (size = 0 ∧ dv1.size = (darr_alloc64 ((index + data_len) % (SIZE_MAX + 1))).size)) := by
  simp only [darr_write64, Option.bind_eq_bind] at h
  cases hg : darr_write_grow64 ((index + data_len) % (SIZE_MAX + 1)) 32 dv.size with
  | none =>
    rw [hg] at h
    exact Option.noConfusion h
  | some size =>
    refine ⟨size, rfl, ?_⟩
    simp only [hg, Option.some_bind] at h
    by_cases h0 : size = 0
    · rw [if_pos h0] at h
      by_cases ha : dv.array.isSome = true
      · rw [if_pos ha] at h
        simp only [Option.pure_def, Option.some.injEq, Prod.mk.injEq] at h
        obtain ⟨_, hd⟩ := h
        subst hd
        exact Or.inl rfl
      · rw [if_neg ha] at h
        cases hc : CPY (realloc (darr_alloc64 ((index + data_len) % (SIZE_MAX + 1))).array
            (darr_alloc64 ((index + data_len) % (SIZE_MAX + 1))).size) index data data_len with
        | none =>
          rw [hc] at h
          exact Option.noConfusion h
        | some a =>
          rw [hc] at h
          simp only [Option.some_bind, Option.pure_def, Option.some.injEq, Prod.mk.injEq] at h
          obtain ⟨_, hd⟩ := h
          subst hd
          exact Or.inr ⟨h0, rfl⟩
    · rw [if_neg h0] at h
      cases hc : CPY (realloc dv.array size) index data data_len with
      | none =>
        rw [hc] at h
        exact Option.noConfusion h
      | some a =>
        rw [hc] at h
        simp only [Option.some_bind, Option.pure_def, Option.some.injEq, Prod.mk.injEq] at h
        obtain ⟨_, hd⟩ := h
        subst hd
        exact Or.inl rfl

theorem cap_ok_write64 (data : List Nat) (data_len index : Nat) (dv dv1 : darr_t) (r : Nat)
    (hc : cap_ok dv.size) (h : darr_write64 data data_len index dv = some (r, dv1)) :
    cap_ok dv1.size := by
  obtain ⟨size, hg, hs⟩ := darr_write64_size data data_len index dv dv1 r h
  rcases hs with hs | ⟨_, hs⟩
  · obtain ⟨_, _, h8⟩ := darr_write_grow64_inv _ 32 dv.size size hg
    rw [hs]
    by_cases h0 : size = 0
    · exact Or.inl h0
    · refine Or.inr ⟨by omega, h8 ?_⟩
      rcases hc with hc | ⟨_, hc⟩
      · rw [hc]
        exact Nat.dvd_zero 8
      · exact hc
  · rw [hs]
    exact cap_ok_alloc64 _

theorem cap_ok_reachable64 (dv : darr_t) (h : darr_reachable64 dv) : cap_ok dv.size := by
  induction h with
  | empty => exact Or.inl rfl
  | alloc len => exact cap_ok_alloc64 len
  | write data data_len index dv dv1 _ hw ih =>
    exact cap_ok_write64 data data_len index dv dv1 0 ih hw

/-- The capacity invariant holds on 64-bit words as well: the empty buffer and every
buffer returned by `darr_alloc64` have capacity `0` or a positive multiple of `8`, every
returning `darr_write64` preserves this (a shift that clears the word leaves `0`), hence
every buffer reachable on words has capacity `0` or a positive multiple of `8`. -/
theorem darr64_capacity_invariant :
    cap_ok empty_vec.size ∧
    (∀ len, cap_ok (darr_alloc64 len).size) ∧
    (∀ (data : List Nat) (data_len index : Nat) (dv dv1 : darr_t) (r : Nat),
      cap_ok dv.size → darr_write64 data data_len index dv = some (r, dv1) →
      cap_ok dv1.size) ∧
    (∀ dv, darr_reachable64 dv → cap_ok dv.size) :=
  ⟨Or.inl rfl, cap_ok_alloc64, fun data data_len index dv dv1 r hc h =>
    cap_ok_write64 data data_len index dv dv1 r hc h, cap_ok_reachable64⟩

/-- A successful write on words never shrinks the capacity. -/
theorem darr_write64_size_le (data : List Nat) (data_len index : Nat) (dv dv1 : darr_t)
    (h : darr_write64 data data_len index dv = some (0, dv1)) :
    dv.size ≤ dv1.size := by
  obtain ⟨size, hg, hs⟩ := darr_write64_size data data_len index dv dv1 0 h
  obtain ⟨h1, h2, _⟩ := darr_write_grow64_inv _ 32 dv.size size hg
  rcases darr_write64_inv data data_len index dv dv1 0 h with ⟨hr, _⟩ | ⟨_, hlen, _, hle, _⟩
  · exact absurd hr (by decide)
  · have hmod : (index + data_len) % (SIZE_MAX + 1) ≤ index + data_len := Nat.mod_le _ _
    rcases hs with hs | ⟨h0, _⟩
    · rcases h2 with h2 | h2
      · omega
      · omega
    · rcases h2 with h2 | h2
      · omega
      · omega

/-- The frame property holds on 64-bit words as well: after a `darr_write64` that returns
`0` the bytes at the positions `index .. index + data_len - 1` are the bytes of `data`,
and every byte at a position `p < dv.size` outside `[index, index + data_len)` is
unchanged. -/
theorem darr_write64_frame (data : List Nat) (data_len index : Nat) (dv dv1 : darr_t)
    (h : darr_write64 data data_len index dv = some (0, dv1)) :
    ∃ arr1, dv1.array = some arr1 ∧ arr1.length = dv1.size ∧
      (∀ t, t < data_len → ∃ x, data[t]? = some x ∧ arr1[index + t]? = some x) ∧
      ∀ (old : List Nat) (p x : Nat), dv.array = some old → p < dv.size →
        (p < index ∨ index + data_len ≤ p) → old[p]? = some x → arr1[p]? = some x := by
  have hsz := darr_write64_size_le data data_len index dv dv1 h
  rcases darr_write64_inv data data_len index dv dv1 0 h with
    ⟨h1, _⟩ | ⟨_, _, hdata, hle, harr⟩
  · exact absurd h1 (by decide)
  · have hl := realloc_length dv.array dv1.size
    obtain ⟨hin, hout⟩ := CPY_bytes (realloc dv.array dv1.size) data index data_len
      (by rw [hl]; exact hle) hdata
    refine ⟨_, harr, ?_, ?_, ?_⟩
    · rw [(CPY_result (realloc dv.array dv1.size) data _ index data_len rfl
        (by rw [hl]; exact hle) hdata).1, hl]
    · intro t ht
      have hlt : t < data.length := by omega
      exact ⟨data[t], List.getElem?_eq_getElem hlt, by
        rw [hin t ht, List.getElem?_eq_getElem hlt]⟩
    · intro old p x hold hp hrange hx
      rw [hout p hrange, hold]
      exact realloc_getElem old dv1.size p x (by omega) hx

/-! ## The file written for the `8 × 8` image with two dark pixels -/

/-- **C16** (code defect, failing input).  Gram size `6` and the `8 × 8` source image
`dark_source`, white except the black pixels `2` and `17`: `synth` returns `0` and the file
starts with the gram size `6` and the pattern count `8`; the sixth and the eighth pattern
block are the same block (all ones), the counts are `2, 1, 1, 1, 1, 1, 1, 1`, and the file
has `656` bytes.  The binarised image, whose bitboard ends the file, has `7` distinct
patterns, for which the layout gives a pattern count of `7`, seven distinct blocks and
`16 + 7 * (6 * 6 + 4) + 5 * 64 = 616` bytes. -/
theorem synth_file_repeated_block :
    (synth_file 6 (some dark_source) true 64).output = some 0 ∧
    (synth_file 6 (some dark_source) true 64).binary.map
        (fun file => (file.take 2, ((file.drop 2).drop (5 * 36)).take 36,
          ((file.drop 2).drop (7 * 36)).take 36, (file.drop (2 + 8 * 36)).take 8)) =
      some ([datum.int32 6, datum.int32 8], List.replicate 36 (datum.uint8 1),
        List.replicate 36 (datum.uint8 1),
        [datum.int32 2, datum.int32 1, datum.int32 1, datum.int32 1, datum.int32 1,
          datum.int32 1, datum.int32 1, datum.int32 1]) ∧
    (synth_file 6 (some dark_source) true 64).binary.map
        (fun file => (file.drop (2 + 8 * 36 + 8 + 2 + 64), file_bytes file)) =
      some (dark_image.bitboard.map datum.uint8, 656) ∧
    (distinct_patterns 6 dark_image).length = 7 ∧
    16 + 7 * (6 * 6 + 4) + 5 * (8 * 8) = 616 := by
  refine ⟨?_, ?_, ?_, ?_, by decide⟩
  · set_option maxRecDepth 1000000 in
    decide
  · set_option maxRecDepth 1000000 in
    decide
  · set_option maxRecDepth 1000000 in
    decide
  · set_option maxRecDepth 1000000 in
    decide

end Synthesis
